import Mathlib

/-!
# duckdb-NER: tokenizer, model loader and entity decoder

Shallow embedding of `src/ner_model.cpp` and `src/ner_extension.cpp`.

Conventions of the embedding
* a C++ `char` is a byte, `CChar := Fin 256`; a `std::string` is a list of bytes;
* `int` / `int32_t` values are `Int` (no arithmetic of the modelled code leaves the
  32-bit range for inputs that fit the buffers the caller allocates);
* a `std::map` is an association list with unique keys, `find` is the lookup and
  `set` is the assignment `m[k] = v`;
* the output buffer `tokens[0..t)` is the list of ids written so far, so the
  counter `t` is the length of that list;
* a thrown exception or an undefined operation is a `Fault` in `Except`.
-/

namespace NER

/-! ## Basic types -/

abbrev CChar := Fin 256

abbrev CString := List CChar

abbrev ner_vocab_id := Int

/-- Bytes of an ASCII string literal. -/
def cstr (s : String) : CString :=
  s.toList.map (fun c => Fin.ofNat c.toNat)

/-- Ways in which a call can end without a normal result. -/
inductive Fault where
  | out_of_range      -- std::out_of_range thrown by std::map::at
  | invalid_input     -- duckdb::InvalidInputException
  | undefined         -- undefined behaviour (read of an uninitialised or out-of-bounds object)
  | length_error      -- std::length_error thrown by the std::string constructor
  | out_of_fuel       -- the iteration bound of the embedding was reached
  deriving DecidableEq, Repr

deriving instance DecidableEq for Except

/-! ## std::map as an association list -/

abbrev StdMap (κ : Type) (ν : Type) := List (κ × ν)

/-- Lookup `m.find(k)`: the value stored under `k`, if any. -/
def StdMap.find {κ ν : Type} [DecidableEq κ] : StdMap κ ν → κ → Option ν
  | [], _ => none
  | (k1, v) :: m, k => if k1 = k then some v else StdMap.find m k

/-- Assignment `m[k] = v`: insert, or overwrite the value already stored under `k`. -/
def StdMap.set {κ ν : Type} [DecidableEq κ] (m : StdMap κ ν) (k : κ) (v : ν) : StdMap κ ν :=
  (k, v) :: m.filter (fun e => e.1 ≠ k)

/-! ## Data model (`ner_model.cpp`, lines 17-88) -/

structure ner_hparams where
  n_vocab : Int := 30522
  n_max_tokens : Int := 512
  n_embd : Int := 256
  n_intermediate : Int := 1536
  n_head : Int := 12
  n_layer : Int := 6
  n_labels : Int := 9
  f16 : Int := 1
  deriving DecidableEq, Repr

structure ner_vocab where
  token_to_id : StdMap CString ner_vocab_id := []
  subword_token_to_id : StdMap CString ner_vocab_id := []
  _id_to_token : StdMap ner_vocab_id CString := []
  _id_to_subword_token : StdMap ner_vocab_id CString := []
  deriving DecidableEq, Repr

inductive ggml_type where
  | F32
  | F16
  | Q4_0
  deriving DecidableEq, Repr

/-- A tensor of the model: element type, the two dimensions it was created with,
and the bytes of its data area that the loader has written (a freshly created
tensor has none, ggml does not clear the arena). -/
structure ggml_tensor where
  type : ggml_type
  ne0 : Int
  ne1 : Int := 1
  data : List CChar := []
  deriving DecidableEq, Repr

/-- The constants of `ggml.h` the loader depends on; the header is not part of the
sources, so they are parameters of the embedding. -/
structure ggml_abi where
  ggml_type_size : ggml_type → Nat
  ggml_blck_size : ggml_type → Nat
  ggml_nbytes : ggml_tensor → Nat

structure ner_model where
  hparams : ner_hparams := {}
  tensors : StdMap CString ggml_tensor := []
  deriving DecidableEq, Repr

structure ner_ctx where
  model : ner_model := {}
  vocab : ner_vocab := {}
  deriving DecidableEq, Repr

/-! ## Tokenizer (`ner_tokenize`, `ner_model.cpp` lines 91-150) -/

/-- C `isspace` in the "C" locale: space, and the control characters 9..13. -/
def isspace (c : CChar) : Bool :=
  c.val == 32 || (9 ≤ c.val && c.val ≤ 13)

/-- One iteration of the `for (char c : str)` loop; the state is `(word, words)`. -/
def split_step (st : CString × List CString) (c : CChar) : CString × List CString :=
  if isspace c then
    (if st.1 ≠ [] then ([], st.2 ++ [st.1]) else ([], st.2))
  else
    (st.1 ++ [c], st.2)

/-- Lines 96-112: split the text at whitespace into the non-empty words. -/
def split_words (str : CString) : List CString :=
  let st := str.foldl split_step ([], [])
  if st.1 ≠ [] then st.2 ++ [st.1] else st.2

/-- The call `word.substr(pos, len)`. -/
def substr (word : CString) (pos len : Nat) : CString :=
  (word.drop pos).take len

/-- Lines 129-141: the inner `while (j > i)` loop, started at `j`. It returns the
largest `j1` with `i < j1 ≤ j` such that `word.substr(i, j1 - i)` is a key of
`token_map`, together with the id stored there. -/
def match_longest (token_map : StdMap CString ner_vocab_id) (word : CString) (i : Nat) :
    Nat → Option (Nat × ner_vocab_id)
  | 0 => none
  | j + 1 =>
    if j + 1 > i then
      match token_map.find (substr word i (j + 1 - i)) with
      | some id => some (j + 1, id)
      | none => match_longest token_map word i j
    else none

/-- Lines 125-146: the `while (i < n)` loop of one word. `sub` tells whether
`token_map` already points to the subword table; `tokens` is `tokens[0..t)`.
The first argument bounds the number of iterations; `none` means it was too small. -/
def word_loop (vocab : ner_vocab) (word : CString) (n_max_tokens : Int) :
    Nat → Nat → Bool → List ner_vocab_id → Option (List ner_vocab_id)
  | 0, i, _, tokens =>
    if i < word.length then
      if (tokens.length : Int) ≥ n_max_tokens - 1 then some tokens else none
    else some tokens
  | fuel + 1, i, sub, tokens =>
    if i < word.length then
      if (tokens.length : Int) ≥ n_max_tokens - 1 then some tokens
      else
        match match_longest (if sub then vocab.subword_token_to_id else vocab.token_to_id)
            word i word.length with
        | some (j, id) => word_loop vocab word n_max_tokens fuel j true (tokens ++ [id])
        | none => word_loop vocab word n_max_tokens fuel (i + 1) true tokens
    else some tokens

/-- Lines 117-147: the `for (const auto &word : words)` loop. Every word gets
`word.size()` iterations of its inner loop, which always suffice since `i` grows. -/
def words_loop (vocab : ner_vocab) (n_max_tokens : Int) :
    List CString → List ner_vocab_id → Option (List ner_vocab_id)
  | [], tokens => some tokens
  | word :: rest, tokens =>
    if (tokens.length : Int) ≥ n_max_tokens - 1 then some tokens
    else
      match word_loop vocab word n_max_tokens word.length 0 false tokens with
      | some tokens1 => words_loop vocab n_max_tokens rest tokens1
      | none => none

/-- The function `ner_tokenize`: the result is the sequence `tokens[0..*n_tokens)`
of ids written, so `*n_tokens` is its length. -/
def ner_tokenize (ctx : ner_ctx) (text : CString) (n_max_tokens : Int) :
    Except Fault (List ner_vocab_id) :=
  match ctx.vocab.token_to_id.find (cstr "[CLS]"), ctx.vocab.token_to_id.find (cstr "[SEP]") with
  | some cls_tok_id, some sep_tok_id =>
    match words_loop ctx.vocab n_max_tokens (split_words text) [cls_tok_id] with
    | some tokens => .ok (tokens ++ [sep_tok_id])
    | none => .error .out_of_fuel
  | _, _ => .error .out_of_range

/-! ## Input stream (`std::ifstream` opened in binary mode) -/

/-- State of the stream: the bytes of the file, the get position and the two
state bits the loader can observe. -/
structure ifstream where
  bytes : List CChar
  pos : Nat := 0
  eofbit : Bool := false
  failbit : Bool := false
  deriving DecidableEq, Repr

/-- The call `fin.read(buf, n)`: when the stream is not good nothing is extracted
and `failbit` is set; otherwise the available bytes, at most `n`, are extracted and
stored, and a short count sets `eofbit` and `failbit`. -/
def ifstream.read (fin : ifstream) (n : Nat) : List CChar × ifstream :=
  if fin.eofbit || fin.failbit then ([], { fin with failbit := true })
  else
    let got := (fin.bytes.drop fin.pos).take n
    (got, { fin with
      pos := fin.pos + got.length
      eofbit := decide (got.length < n)
      failbit := decide (got.length < n) })

/-- The call `fin.seekg(off, std::ios::cur)`: clears `eofbit`, then moves the get
position unless the stream has failed; a position before the start fails. -/
def ifstream.seekg_cur (fin : ifstream) (off : Int) : ifstream :=
  if fin.failbit then { fin with eofbit := false }
  else if (fin.pos : Int) + off < 0 then { fin with eofbit := false, failbit := true }
  else { fin with eofbit := false, pos := ((fin.pos : Int) + off).toNat }

/-- Value of a little-endian byte sequence. -/
def le_value : List CChar → Nat
  | [] => 0
  | b :: bs => b.val + 256 * le_value bs

/-- The `k` low-order bytes of `v`, least significant first. -/
def le_bytes : Nat → Nat → List CChar
  | 0, _ => []
  | k + 1, v => Fin.ofNat (v % 256) :: le_bytes k (v / 256)

/-- Reinterpret a 32-bit pattern as `int32_t`. -/
def to_int32 (v : Nat) : Int :=
  if v % 2 ^ 32 < 2 ^ 31 then ((v % 2 ^ 32 : Nat) : Int) else ((v % 2 ^ 32 : Nat) : Int) - 2 ^ 32

/-- The 32-bit pattern of an `int32_t`. -/
def of_int32 (x : Int) : Nat :=
  (x % 2 ^ 32).toNat

/-- Read into an initialised `int32_t` object holding `old`: the bytes extracted
overwrite its low-address bytes, the others keep their value (little-endian host). -/
def read_i32 (fin : ifstream) (old : Int) : Int × ifstream :=
  let r := fin.read 4
  (to_int32 (le_value (r.1 ++ (le_bytes 4 (of_int32 old)).drop r.1.length)), r.2)

/-- Read into an uninitialised 32-bit object: its value is determinate only when
all four bytes were extracted. -/
def read_u32_uninit (fin : ifstream) : Option Nat × ifstream :=
  let r := fin.read 4
  (if r.1.length = 4 then some (le_value r.1) else none, r.2)

/-- Read `n` bytes into a buffer holding `old`; bytes not extracted keep their value. -/
def read_into (fin : ifstream) (n : Nat) (old : List CChar) : List CChar × ifstream :=
  let r := fin.read n
  (r.1 ++ old.drop r.1.length, r.2)

/-! ## Model loader (`ner_load_from_file`, `ner_model.cpp` lines 152-287) -/

/-- Lines 181-187: file entry `word` at position `i` goes to the subword pool
(marker stripped) when it is longer than 2 and starts with `##`, else to the
whole-word pool. -/
def vocab_insert (vocab : ner_vocab) (word : CString) (i : Int) : ner_vocab :=
  if word.length > 2 ∧ word[0]? = some 35 ∧ word[1]? = some 35 then
    { vocab with
      subword_token_to_id := vocab.subword_token_to_id.set (word.drop 2) i
      _id_to_subword_token := vocab._id_to_subword_token.set i word }
  else
    { vocab with
      token_to_id := vocab.token_to_id.set word i
      _id_to_token := vocab._id_to_token.set i word }

/-- Lines 176-188: the vocabulary loop, `count` iterations starting at index `i`.
The length `len` is an uninitialised local: when its read falls short the
constructor `std::string word(len, 0)` uses an indeterminate value. -/
def read_vocab : Nat → Int → ifstream → ner_vocab → Except Fault (ner_vocab × ifstream)
  | 0, _, fin, vocab => .ok (vocab, fin)
  | count + 1, i, fin, vocab =>
    match read_u32_uninit fin with
    | (none, _) => .error .undefined
    | (some len, fin1) =>
      let r := read_into fin1 len (List.replicate len 0)
      read_vocab count (i + 1) r.2 (vocab_insert vocab r.1 i)

/-- Line 190: element type of the general weight tensors. -/
def wtype_of (f16 : Int) : ggml_type :=
  if f16 = 2 then .Q4_0 else if f16 = 1 then .F16 else .F32

/-- Decimal digits of `std::to_string(i)` for a non-negative `i`. -/
def to_string (i : Nat) : CString :=
  cstr (Nat.repr i)

/-- Lines 217-250: the sixteen tensors of layer `i` with their registry names. -/
def layer_tensors (hp : ner_hparams) (wtype : ggml_type) (i : Nat) :
    List (CString × ggml_tensor) :=
  let base := cstr "encoder.layer." ++ to_string i ++ cstr "."
  let e := hp.n_embd
  let m := hp.n_intermediate
  [ (base ++ cstr "attention.self.query.weight", { type := wtype, ne0 := e, ne1 := e }),
    (base ++ cstr "attention.self.query.bias", { type := .F32, ne0 := e }),
    (base ++ cstr "attention.self.key.weight", { type := wtype, ne0 := e, ne1 := e }),
    (base ++ cstr "attention.self.key.bias", { type := .F32, ne0 := e }),
    (base ++ cstr "attention.self.value.weight", { type := wtype, ne0 := e, ne1 := e }),
    (base ++ cstr "attention.self.value.bias", { type := .F32, ne0 := e }),
    (base ++ cstr "attention.output.dense.weight", { type := wtype, ne0 := e, ne1 := e }),
    (base ++ cstr "attention.output.dense.bias", { type := .F32, ne0 := e }),
    (base ++ cstr "attention.output.LayerNorm.weight", { type := .F32, ne0 := e }),
    (base ++ cstr "attention.output.LayerNorm.bias", { type := .F32, ne0 := e }),
    (base ++ cstr "intermediate.dense.weight", { type := wtype, ne0 := e, ne1 := m }),
    (base ++ cstr "intermediate.dense.bias", { type := .F32, ne0 := m }),
    (base ++ cstr "output.dense.weight", { type := wtype, ne0 := m, ne1 := e }),
    (base ++ cstr "output.dense.bias", { type := .F32, ne0 := e }),
    (base ++ cstr "output.LayerNorm.weight", { type := .F32, ne0 := e }),
    (base ++ cstr "output.LayerNorm.bias", { type := .F32, ne0 := e }) ]

/-- Lines 198-251: the tensor registry `model.tensors` right after allocation.
Allocation inside the 512 MB ggml arena is assumed to succeed. -/
def new_tensors (hp : ner_hparams) : StdMap CString ggml_tensor :=
  let wtype := wtype_of hp.f16
  let fixed : List (CString × ggml_tensor) :=
    [ (cstr "embeddings.word_embeddings.weight", { type := wtype, ne0 := hp.n_embd, ne1 := hp.n_vocab }),
      (cstr "embeddings.token_type_embeddings.weight", { type := wtype, ne0 := hp.n_embd, ne1 := 2 }),
      (cstr "embeddings.position_embeddings.weight",
        { type := wtype, ne0 := hp.n_embd, ne1 := hp.n_max_tokens }),
      (cstr "embeddings.LayerNorm.weight", { type := .F32, ne0 := hp.n_embd }),
      (cstr "embeddings.LayerNorm.bias", { type := .F32, ne0 := hp.n_embd }),
      (cstr "classifier.weight", { type := wtype, ne0 := hp.n_embd, ne1 := hp.n_labels }),
      (cstr "classifier.bias", { type := .F32, ne0 := hp.n_labels }) ]
  (fixed ++ (List.range hp.n_layer.toNat).flatMap (layer_tensors hp wtype)).foldl
    (fun m e => m.set e.1 e.2) []

/-- Lines 263-267: read `n_dims` dimension sizes into `ne[2] = {1, 1}`, starting at
index `i`. A short read leaves `ne_cur` indeterminate. -/
def read_dims : Nat → Nat → ifstream → Int × Int → Except Fault ((Int × Int) × ifstream)
  | 0, _, fin, ne => .ok (ne, fin)
  | count + 1, i, fin, ne =>
    match read_u32_uninit fin with
    | (none, _) => .error .undefined
    | (some v, fin1) =>
      if i = 0 then read_dims count (i + 1) fin1 (to_int32 v, ne.2)
      else if i = 1 then read_dims count (i + 1) fin1 (ne.1, to_int32 v)
      else .error .undefined

/-- Lines 274-276: byte offset passed to `seekg` for an unknown tensor, computed in
`size_t` (64-bit) arithmetic and converted to the signed stream offset. -/
def skip_offset (lib : ggml_abi) (ftype_in : Int) (ne : Int × Int) : Int :=
  let t : ggml_type := if ftype_in = 0 then .F32 else if ftype_in = 1 then .F16 else .Q4_0
  let row_size := ((lib.ggml_type_size t : Int) * ne.1 % 2 ^ 64).toNat / lib.ggml_blck_size t
  let off := ((row_size : Int) * ne.2 % 2 ^ 64).toNat
  if off < 2 ^ 63 then (off : Int) else (off : Int) - 2 ^ 64

/-- Lines 253-281: the `while (true)` loop over the tensor records. The first
argument bounds the number of records processed. -/
def read_tensors (lib : ggml_abi) :
    Nat → ifstream → StdMap CString ggml_tensor → Except Fault (StdMap CString ggml_tensor)
  | 0, _, _ => .error .out_of_fuel
  | fuel + 1, fin, tensors =>
    let r1 := read_u32_uninit fin
    let r2 := read_u32_uninit r1.2
    let r3 := read_u32_uninit r2.2
    if r3.2.eofbit then .ok tensors
    else
      match r1.1, r2.1, r3.1 with
      | some n_dims, some length, some ftype_in =>
        match read_dims (to_int32 n_dims).toNat 0 r3.2 (1, 1) with
        | .error e => .error e
        | .ok (ne, fin4) =>
          if to_int32 length < 0 then .error .length_error
          else
            let rn := read_into fin4 length (List.replicate length 0)
            match tensors.find rn.1 with
            | none =>
              read_tensors lib fuel (rn.2.seekg_cur (skip_offset lib (to_int32 ftype_in) ne)) tensors
            | some tensor =>
              let rd := read_into rn.2 (lib.ggml_nbytes tensor) tensor.data
              read_tensors lib fuel rd.2 (tensors.set rn.1 { tensor with data := rd.1 })
      | _, _, _ => .error .undefined

/-- Lines 164-174: the eight header fields are read, in file order, into a
`ner_hparams` object that holds its default member values. -/
def read_header (fin : ifstream) : ner_hparams × ifstream :=
  let d : ner_hparams := {}
  let r1 := read_i32 fin d.n_vocab
  let r2 := read_i32 r1.2 d.n_max_tokens
  let r3 := read_i32 r2.2 d.n_embd
  let r4 := read_i32 r3.2 d.n_intermediate
  let r5 := read_i32 r4.2 d.n_head
  let r6 := read_i32 r5.2 d.n_layer
  let r7 := read_i32 r6.2 d.f16
  let r8 := read_i32 r7.2 d.n_labels
  ({ n_vocab := r1.1, n_max_tokens := r2.1, n_embd := r3.1, n_intermediate := r4.1,
     n_head := r5.1, n_layer := r6.1, f16 := r7.1, n_labels := r8.1 }, r8.2)

/-- The function `ner_load_from_file` applied to the content of the file, `none`
when the file cannot be opened. `.ok none` is the `nullptr` result. A negative
`n_layer` makes `model.layers.resize` (line 214) throw. The tensor loop gets one
iteration per byte of the file plus one. -/
def ner_load_from_file (lib : ggml_abi) (file : Option (List CChar)) :
    Except Fault (Option ner_ctx) :=
  match file with
  | none => .ok none
  | some bytes =>
    match read_u32_uninit { bytes := bytes } with
    | (none, _) => .error .undefined
    | (some magic, fin0) =>
      if magic ≠ 0x67676d6c then .ok none
      else
        match read_vocab (read_header fin0).1.n_vocab.toNat 0 (read_header fin0).2 {} with
        | .error e => .error e
        | .ok (vocab, fin9) =>
          if (read_header fin0).1.n_layer < 0 then .error .length_error
          else
            match read_tensors lib (bytes.length + 1) fin9 (new_tensors (read_header fin0).1) with
            | .error e => .error e
            | .ok tensors =>
              .ok (some { model := { hparams := (read_header fin0).1, tensors := tensors },
                          vocab := vocab })

/-- Accessor `ner_n_max_tokens`. -/
def ner_n_max_tokens (ctx : ner_ctx) : Int :=
  ctx.model.hparams.n_max_tokens

/-- Accessor `ner_n_labels`. -/
def ner_n_labels (ctx : ner_ctx) : Int :=
  ctx.model.hparams.n_labels

/-- Accessor `ner_n_embd`. -/
def ner_n_embd (ctx : ner_ctx) : Int :=
  ctx.model.hparams.n_embd

/-- The conversion of a `std::string` to a C string and back: the bytes before the
first NUL. -/
def c_str (s : CString) : CString :=
  s.takeWhile (fun c => c ≠ 0)

/-- The function `ner_vocab_id_to_token`; the result is the C string returned. -/
def ner_vocab_id_to_token (ctx : ner_ctx) (id : ner_vocab_id) : CString :=
  match ctx.vocab._id_to_token.find id with
  | some w => c_str w
  | none =>
    match ctx.vocab._id_to_subword_token.find id with
    | some w => c_str w
    | none => cstr "[UNK]"

/-! ## Global model state (`ner_extension.cpp`, lines 17-31) -/

structure NerGlobalState where
  ctx : Option ner_ctx := none
  model_path : CString := []
  deriving DecidableEq, Repr

/-- The process state `LoadModel` acts on: the global variable and, as a record of
the calls to `ner_free`, the contexts that have been released. -/
structure Process where
  global_state : NerGlobalState := {}
  freed : List ner_ctx := []
  deriving DecidableEq, Repr

/-- The function `LoadModel`; `fs` gives the content of the file behind a path,
`none` when it cannot be opened. -/
def LoadModel (lib : ggml_abi) (fs : CString → Option (List CChar)) (p : Process)
    (path : CString) : Except Fault Process :=
  let p1 : Process :=
    match p.global_state.ctx with
    | some old => { global_state := { p.global_state with ctx := none }, freed := old :: p.freed }
    | none => p
  match ner_load_from_file lib (fs (c_str path)) with
  | .error e => .error e
  | .ok r => .ok { p1 with global_state := { ctx := r, model_path := path } }

/-! ## Segmentation without the capacity guard

The two functions below are lines 125-146 and 117-147 with the two
`if (t >= n_max_tokens - 1) break;` statements removed. They describe what the
tokenizer would emit with unbounded room and are used to state and prove how the
guard cuts the output (`words_loop_eq`). -/

/-- The ids one word contributes from position `i` on when the guard never fires. -/
def seg_word (vocab : ner_vocab) (word : CString) : Nat → Nat → Bool → List ner_vocab_id
  | 0, _, _ => []
  | fuel + 1, i, sub =>
    if i < word.length then
      match match_longest (if sub then vocab.subword_token_to_id else vocab.token_to_id)
          word i word.length with
      | some (j, id) => id :: seg_word vocab word fuel j true
      | none => seg_word vocab word fuel (i + 1) true
    else []

/-- The word tokens of a list of words when the guard never fires. -/
def seg_words (vocab : ner_vocab) (words : List CString) : List ner_vocab_id :=
  words.flatMap (fun word => seg_word vocab word word.length 0 false)

/-! ## Entity decoder and scalar function (`ner_extension.cpp`, lines 33-152) -/

structure Entity where
  text : CString := []
  label : CString := []
  deriving DecidableEq, Repr

/-- Line 81: display names indexed by the raw label index. -/
def label_map : List CString :=
  [cstr "O", cstr "MISC", cstr "MISC", cstr "PER", cstr "PER", cstr "ORG", cstr "ORG",
    cstr "LOC", cstr "LOC"]

/-- Lines 112-115: one iteration of the label loop; the state is
`(best_label, max_logit)`. Logit values are rationals (every finite `float` is one). -/
def argmax_step (logits : Nat → ℚ) (t n_labels : Nat) (st : Nat × ℚ) (l : Nat) : Nat × ℚ :=
  if logits (t * n_labels + l) > st.2 then (l, logits (t * n_labels + l)) else st

/-- Lines 109-116: the label index chosen for token `t`, starting from
`best_label = 0` and `max_logit = -1e10`. -/
def best_label (logits : Nat → ℚ) (t n_labels : Nat) : Nat :=
  ((List.range n_labels).foldl (argmax_step logits t n_labels) (0, -10000000000)).1

/-- Local variables of the decoding loop. -/
structure DecState where
  entities : List Entity := []
  current_entity : Entity := {}
  last_label_type : Nat := 0
  deriving DecidableEq, Repr

/-- Line 121: the test for a subword-continuation piece. -/
def is_subword (token_str : CString) : Bool :=
  decide (token_str.length > 2) && token_str[0]? == some 35 && token_str[1]? == some 35

/-- Line 124-125: the label group of a label index. -/
def label_type_of (best_label : Nat) : Nat :=
  if best_label = 0 then 0 else (best_label + 1) / 2

/-- Lines 118-138: the body of the token loop after the label has been chosen.
Reading `label_map` past its nine entries is undefined. -/
def decode_token (st : DecState) (token_str : CString) (best_label : Nat) :
    Except Fault DecState :=
  if token_str = cstr "[CLS]" ∨ token_str = cstr "[SEP]" then .ok st
  else
    let clean_token := if is_subword token_str then token_str.drop 2 else token_str
    let label_type := label_type_of best_label
    if label_type ≠ 0 then
      if label_type = st.last_label_type ∧ (best_label % 2 = 0 ∨ is_subword token_str) then
        .ok { entities := st.entities
              current_entity :=
                { text := st.current_entity.text ++
                    ((if is_subword token_str then [] else cstr " ") ++ clean_token)
                  label := st.current_entity.label }
              last_label_type := label_type }
      else
        match label_map[best_label]? with
        | none => .error .undefined
        | some name =>
          .ok { entities :=
                  if st.last_label_type ≠ 0 then st.entities ++ [st.current_entity]
                  else st.entities
                current_entity := { text := clean_token, label := name }
                last_label_type := label_type }
    else
      .ok { entities :=
              if st.last_label_type ≠ 0 then st.entities ++ [st.current_entity]
              else st.entities
            current_entity := st.current_entity
            last_label_type := label_type }

/-- Lines 108-139: the loop over the tokens `tokens[t..n_tokens)`. -/
def decode_loop (ctx : ner_ctx) (logits : Nat → ℚ) (n_labels : Nat) :
    List ner_vocab_id → Nat → DecState → Except Fault DecState
  | [], _, st => .ok st
  | id :: rest, t, st =>
    match decode_token st (ner_vocab_id_to_token ctx id) (best_label logits t n_labels) with
    | .error e => .error e
    | .ok st1 => decode_loop ctx logits n_labels rest (t + 1) st1

/-- Lines 104-140: the entities of one row, from the ids written by the tokenizer
and the logits buffer. -/
def decode_entities (ctx : ner_ctx) (n_labels : Int) (tokens : List ner_vocab_id)
    (logits : Nat → ℚ) : Except Fault (List Entity) :=
  match decode_loop ctx logits n_labels.toNat tokens 0 {} with
  | .error e => .error e
  | .ok st =>
    .ok (if st.last_label_type ≠ 0 then st.entities ++ [st.current_entity] else st.entities)

/-- Lines 42-50: the flag is taken from row 0 of the optional second column. -/
def truncate_opt_of (trunc : Option (List (Option Bool))) : Bool :=
  match trunc with
  | some (some b :: _) => b
  | _ => true

/-- Lines 90-148 for one non-null row. `ner_eval` is the forward pass: it maps
the ids to the content of the logits buffer. Ids written past the end of the
`tokens` vector are undefined behaviour. -/
def ner_row (ctx : ner_ctx) (ner_eval : ner_ctx → List ner_vocab_id → Nat → ℚ)
    (truncate_opt : Bool) (input_str : CString) : Except Fault (List Entity) :=
  match ner_tokenize ctx (c_str input_str) (ner_n_max_tokens ctx) with
  | .error e => .error e
  | .ok tokens =>
    if (tokens.length : Int) > ner_n_max_tokens ctx then .error .undefined
    else if !truncate_opt && decide ((tokens.length : Int) ≥ ner_n_max_tokens ctx) then
      .error .invalid_input
    else decode_entities ctx (ner_n_labels ctx) tokens (ner_eval ctx tokens)

/-- Lines 83-149: the row loop. A row is `none` when the input is null; a result
row is `none` when it is set to null. An exception leaves the loop and the function. -/
def rows_loop (ctx : ner_ctx) (ner_eval : ner_ctx → List ner_vocab_id → Nat → ℚ)
    (truncate_opt : Bool) : List (Option CString) → Except Fault (List (Option (List Entity)))
  | [] => .ok []
  | none :: rest =>
    match rows_loop ctx ner_eval truncate_opt rest with
    | .error e => .error e
    | .ok rs => .ok (none :: rs)
  | some input_str :: rest =>
    match ner_row ctx ner_eval truncate_opt input_str with
    | .error e => .error e
    | .ok entities =>
      match rows_loop ctx ner_eval truncate_opt rest with
      | .error e => .error e
      | .ok rs => .ok (some entities :: rs)

/-- The function `NerScalarFun` on a batch: the text column, the optional
truncate column, and the result column or the exception thrown. Resizing the
`tokens` or the `logits` vector to a negative size throws. -/
def NerScalarFun (g : NerGlobalState) (ner_eval : ner_ctx → List ner_vocab_id → Nat → ℚ)
    (input : List (Option CString)) (trunc : Option (List (Option Bool))) :
    Except Fault (List (Option (List Entity))) :=
  match g.ctx with
  | none => .ok (input.map (fun _ => some []))
  | some ctx =>
    if ner_n_max_tokens ctx < 0 ∨ ner_n_max_tokens ctx * ner_n_labels ctx < 0 then
      .error .length_error
    else rows_loop ctx ner_eval (truncate_opt_of trunc) input

/-! ## Byte layout of a model file

The layout `ner_load_from_file` reads, written out from the writer's side. It is
used to say what a well-formed model file is. -/

/-- The four bytes of an `int32_t` as a little-endian writer stores them. -/
def enc_i32 (v : Int) : List CChar :=
  le_bytes 4 (of_int32 v)

/-- The eight header fields in file order. -/
def enc_header (hp : ner_hparams) : List CChar :=
  enc_i32 hp.n_vocab ++ (enc_i32 hp.n_max_tokens ++ (enc_i32 hp.n_embd ++
    (enc_i32 hp.n_intermediate ++ (enc_i32 hp.n_head ++ (enc_i32 hp.n_layer ++
      (enc_i32 hp.f16 ++ enc_i32 hp.n_labels))))))

/-- A vocabulary entry: 4-byte length, then the bytes. -/
def enc_entry (w : CString) : List CChar :=
  enc_i32 w.length ++ w

/-- A tensor record of the file: the dimension sizes (their number is `n_dims`),
the element-encoding tag, the name and the payload. -/
structure tensor_record where
  dims : List Int
  ftype : Int
  name : CString
  payload : List CChar
  deriving DecidableEq, Repr

/-- A tensor record: `n_dims`, name length, tag, the dimension sizes, the name, the
payload. -/
def enc_record (r : tensor_record) : List CChar :=
  enc_i32 r.dims.length ++ (enc_i32 r.name.length ++ (enc_i32 r.ftype ++
    (r.dims.flatMap enc_i32 ++ (r.name ++ r.payload))))

/-- A model file: magic, header, vocabulary entries, tensor records. -/
def model_file (hp : ner_hparams) (entries : List CString) (records : List tensor_record) :
    List CChar :=
  [0x6c, 0x6d, 0x67, 0x67] ++ (enc_header hp ++
    (entries.flatMap enc_entry ++ records.flatMap enc_record))

/-- The vocabulary after the entries have been read at the positions `i`, `i + 1`, ... -/
def insert_entries : ner_vocab → Int → List CString → ner_vocab
  | vocab, _, [] => vocab
  | vocab, i, w :: ws => insert_entries (vocab_insert vocab w i) (i + 1) ws

/-- The array `ne[2] = {1, 1}` after the dimension sizes have been stored in it. -/
def ne_of_dims (dims : List Int) : Int × Int :=
  (dims.getD 0 1, dims.getD 1 1)

/-- The element type the loader takes for a tag (line 274). -/
def type_of_tag (ftype_in : Int) : ggml_type :=
  if ftype_in = 0 then .F32 else if ftype_in = 1 then .F16 else .Q4_0

/-- The byte length of a payload implied by the tag and the dimension sizes: the
bytes of one row of `ne[0]` elements times the `ne[1]` rows. -/
def payload_size (lib : ggml_abi) (ftype : Int) (dims : List Int) : Nat :=
  lib.ggml_type_size (type_of_tag ftype) * (ne_of_dims dims).1.toNat /
    lib.ggml_blck_size (type_of_tag ftype) * (ne_of_dims dims).2.toNat

/-- The registry after one well-formed record: the payload of a registered name
becomes the data of its tensor, a record with another name changes nothing. -/
def apply_record (tensors : StdMap CString ggml_tensor) (r : tensor_record) :
    StdMap CString ggml_tensor :=
  match tensors.find r.name with
  | none => tensors
  | some t => tensors.set r.name { t with data := r.payload ++ t.data.drop r.payload.length }

/-- The registry after a sequence of well-formed records. -/
def apply_records (tensors : StdMap CString ggml_tensor) :
    List tensor_record → StdMap CString ggml_tensor
  | [] => tensors
  | r :: rs => apply_records (apply_record tensors r) rs

/-- The value fits an `int32_t`. -/
def is_int32 (v : Int) : Bool :=
  decide (-2147483648 ≤ v) && decide (v < 2147483648)

/-- A well-formed record: at most two dimension sizes, each a non-negative
`int32_t`, a tag and a name length that fit an `int32_t`, and a payload of the
size of the registered tensor, or, for a name that is not registered, of the size
implied by tag and dimension sizes. -/
def wf_record (lib : ggml_abi) (tensors : StdMap CString ggml_tensor) (r : tensor_record) :
    Bool :=
  decide (r.dims.length ≤ 2) && r.dims.all (fun d => decide (0 ≤ d) && decide (d < 2147483648)) &&
    is_int32 r.ftype && decide (r.name.length < 2147483648) &&
    (match tensors.find r.name with
     | some t => decide (r.payload.length = lib.ggml_nbytes t)
     | none => decide (r.payload.length = payload_size lib r.ftype r.dims))

/-- Well-formed records, each against the registry left by the ones before it. -/
def wf_records (lib : ggml_abi) :
    StdMap CString ggml_tensor → List tensor_record → Bool
  | _, [] => true
  | tensors, r :: rs => wf_record lib tensors r && wf_records lib (apply_record tensors r) rs

/-- The element sizes of the library fit 32 bits and no block is empty. -/
def abi_ok (lib : ggml_abi) : Bool :=
  [ggml_type.F32, ggml_type.F16, ggml_type.Q4_0].all
    (fun t => decide (lib.ggml_type_size t < 4294967296) && decide (1 ≤ lib.ggml_blck_size t))

/-- A well-formed model file: the header values fit `int32_t`, `n_vocab` is the
number of entries, `n_layer` is not negative, every entry length fits 32 bits, the
records are well-formed for the registry of the header, and the file is shorter
than `2^63` bytes (its offsets fit the stream offset type). -/
def wf_file (lib : ggml_abi) (hp : ner_hparams) (entries : List CString)
    (records : List tensor_record) : Bool :=
  is_int32 hp.n_vocab && is_int32 hp.n_max_tokens && is_int32 hp.n_embd &&
    is_int32 hp.n_intermediate && is_int32 hp.n_head && is_int32 hp.n_layer &&
    is_int32 hp.f16 && is_int32 hp.n_labels &&
    decide (hp.n_vocab = entries.length) && decide (0 ≤ hp.n_layer) &&
    entries.all (fun w => decide (w.length < 4294967296)) &&
    wf_records lib (new_tensors hp) records && abi_ok lib &&
    decide ((model_file hp entries records).length < 9223372036854775808)

/-! ## Shapes in the classification head (`ner_eval`, lines 396-405)

The tensor library ggml is not part of the sources. The three operations of the
head are modelled by their documented shape rules; `none` is a failed
`GGML_ASSERT`, which aborts the process. -/

/-- Shape `(ne[0], ne[1])` of a tensor of at most two dimensions; a vector of
length `n` has shape `(n, 1)`. -/
abbrev Shape := Nat × Nat

/-- The test `ggml_can_repeat(a, b)`: every dimension of `b` is a multiple of the
same dimension of `a`. -/
def ggml_can_repeat (a b : Shape) : Bool :=
  b.1 % a.1 == 0 && b.2 % a.2 == 0

/-- Shape of `ggml_mul_mat(a, b)`: both need the same `ne[0]`, the result is
`(a.ne[1], b.ne[1])`. -/
def ggml_mul_mat (a b : Shape) : Option Shape :=
  if a.1 = b.1 then some (a.2, b.2) else none

/-- Shape of `ggml_repeat(a, b)`: `a` tiled to the shape of `b`. -/
def ggml_repeat (a b : Shape) : Option Shape :=
  if ggml_can_repeat a b then some b else none

/-- Shape of `ggml_add(a, b)`: `b` must be repeatable to the shape of `a` (older
versions of the library demand equal shapes, which is stronger). -/
def ggml_add (a b : Shape) : Option Shape :=
  if ggml_can_repeat b a then some a else none

/-- Lines 399-400: shape of `res = ggml_add(ggml_mul_mat(classifier_weight, inpL),
ggml_repeat(classifier_bias, inpL))` with `classifier_weight` of shape
`(n_embd, n_labels)`, `classifier_bias` of shape `(n_labels, 1)` and `inpL` of shape
`(n_embd, N)`. -/
def classifier_head_shape (n_embd n_labels N : Nat) : Option Shape :=
  match ggml_mul_mat (n_embd, n_labels) (n_embd, N), ggml_repeat (n_labels, 1) (n_embd, N) with
  | some prod, some bias => ggml_add prod bias
  | _, _ => none

/-- The head with the bias repeated to the shape of the product, the way the
feed-forward bias is added at lines 377-378. -/
def classifier_head_shape_like_ff (n_embd n_labels N : Nat) : Option Shape :=
  match ggml_mul_mat (n_embd, n_labels) (n_embd, N) with
  | some prod =>
    match ggml_repeat (n_labels, 1) prod with
    | some bias => ggml_add prod bias
    | none => none
  | none => none

/-! ## Invariant of the vocabulary loop -/

/-- State of the four vocabulary tables before the loop of lines 176-188 reads the
entry at position `i`: an id stored in a lookup table is a position `0 ≤ b < i`
at which the reverse table of the same pool holds the entry that was read, a
subword id is absent from the whole-word reverse table, and the reverse tables
hold no position from `i` on. -/
def vocab_inv (i : Int) (v : ner_vocab) : Prop :=
  (∀ (k : CString) (b : Int), v.token_to_id.find k = some b →
      0 ≤ b ∧ b < i ∧ v._id_to_token.find b = some k) ∧
    (∀ (s : CString) (b : Int), v.subword_token_to_id.find s = some b →
      0 ≤ b ∧ b < i ∧ v._id_to_subword_token.find b = some (cstr "##" ++ s) ∧
        v._id_to_token.find b = none) ∧
    (∀ (b : Int) (w : CString), v._id_to_token.find b = some w → b < i) ∧
    (∀ (b : Int) (w : CString), v._id_to_subword_token.find b = some w → b < i)

/-! ## Example contexts used by the concrete checks -/

/-- Vocabulary `[CLS]`=0, `[SEP]`=1, `hello`=2, `world`=3, `play`=4, `##ing`=5. -/
def demo_ctx : ner_ctx :=
  { vocab :=
    { token_to_id := [(cstr "[CLS]", 0), (cstr "[SEP]", 1), (cstr "hello", 2),
        (cstr "world", 3), (cstr "play", 4)]
      subword_token_to_id := [(cstr "ing", 5)]
      _id_to_token := [(0, cstr "[CLS]"), (1, cstr "[SEP]"), (2, cstr "hello"),
        (3, cstr "world"), (4, cstr "play")]
      _id_to_subword_token := [(5, cstr "##ing")] } }

/-- Byte sizes of ggml for the three element types (f32: 4, f16: 2, q4_0: 18 per
block of 32); the checks below do not depend on them. -/
def demo_abi : ggml_abi :=
  { ggml_type_size := fun t => match t with
      | .F32 => 4
      | .F16 => 2
      | .Q4_0 => 18
    ggml_blck_size := fun t => match t with
      | .F32 => 1
      | .F16 => 1
      | .Q4_0 => 32
    ggml_nbytes := fun t => match t.type with
      | .F32 => (t.ne0 * t.ne1).toNat * 4
      | .F16 => (t.ne0 * t.ne1).toNat * 2
      | .Q4_0 => (t.ne0 * t.ne1).toNat * 18 / 32 }

/-- Context for the decoder checks: `[CLS]`=0, `[SEP]`=1, `John`=2, `works`=3,
`##son`=4. -/
def john_ctx : ner_ctx :=
  { vocab :=
    { token_to_id := [(cstr "[CLS]", 0), (cstr "[SEP]", 1), (cstr "John", 2), (cstr "works", 3)]
      subword_token_to_id := [(cstr "son", 4)]
      _id_to_token := [(0, cstr "[CLS]"), (1, cstr "[SEP]"), (2, cstr "John"),
        (3, cstr "works")]
      _id_to_subword_token := [(4, cstr "##son")] } }

/-- A logits buffer with nine labels per token that is `1` at the listed label of
each token and `0` elsewhere. -/
def one_hot (labels : List Nat) (i : Nat) : ℚ :=
  if labels[i / 9]? = some (i % 9) then 1 else 0

/-- A small model file: the magic, the header `n_vocab = 6`, `n_max_tokens = 8`,
`n_embd = 2`, `n_intermediate = 2`, `n_head = 1`, `n_layer = 0`, `f16 = 0`,
`n_labels = 9`, the six vocabulary entries, and no tensor record. -/
def demo_file : List CChar :=
  [0x6c, 0x6d, 0x67, 0x67] ++
    [6, 8, 2, 2, 1, 0, 0, 9].flatMap (le_bytes 4) ++
    [cstr "[CLS]", cstr "[SEP]", cstr "hello", cstr "world", cstr "play", cstr "##ing"].flatMap
      (fun w => le_bytes 4 w.length ++ w)

/-- The context `ner_load_from_file` returns for `demo_file`. -/
def loaded_ctx : ner_ctx :=
  match ner_load_from_file demo_abi (some demo_file) with
  | .ok (some ctx) => ctx
  | _ => {}

/-- A vocabulary with the whole word `hello` and an empty subword pool. -/
def hello_ctx : ner_ctx :=
  { vocab :=
    { token_to_id := [(cstr "[CLS]", 0), (cstr "[SEP]", 1), (cstr "hello", 2)]
      _id_to_token := [(0, cstr "[CLS]"), (1, cstr "[SEP]"), (2, cstr "hello")] } }

/-- A model file whose vocabulary is `[CLS]`, `[SEP]` and the bare marker `##`. -/
def marker_file : List CChar :=
  [0x6c, 0x6d, 0x67, 0x67] ++
    [3, 8, 2, 2, 1, 0, 0, 9].flatMap (le_bytes 4) ++
    [cstr "[CLS]", cstr "[SEP]", cstr "##"].flatMap (fun w => le_bytes 4 w.length ++ w)

/-- The context `ner_load_from_file` returns for `marker_file`. -/
def marker_ctx : ner_ctx :=
  match ner_load_from_file demo_abi (some marker_file) with
  | .ok (some ctx) => ctx
  | _ => {}

/-- Header of a small model: six vocabulary entries, no transformer layer. -/
def demo_hp : ner_hparams :=
  { n_vocab := 6, n_max_tokens := 8, n_embd := 2, n_intermediate := 2, n_head := 1,
    n_layer := 0, n_labels := 9, f16 := 0 }

/-- The six vocabulary entries of the small model. -/
def demo_entries : List CString :=
  [cstr "[CLS]", cstr "[SEP]", cstr "hello", cstr "world", cstr "play", cstr "##ing"]

/-- A record for the registered tensor `embeddings.LayerNorm.weight` (two floats). -/
def demo_record_weight : tensor_record :=
  { dims := [2], ftype := 0, name := cstr "embeddings.LayerNorm.weight",
    payload := [0, 0, 128, 63, 0, 0, 128, 63] }

/-- A record for the registered tensor `embeddings.LayerNorm.bias` (two floats). -/
def demo_record_bias : tensor_record :=
  { dims := [2], ftype := 0, name := cstr "embeddings.LayerNorm.bias",
    payload := [0, 0, 0, 0, 0, 0, 0, 64] }

/-- A record whose name is not registered: 2 x 3 half floats, 12 bytes. -/
def demo_record_extra : tensor_record :=
  { dims := [2, 3], ftype := 1, name := cstr "pooler.dense.weight",
    payload := [1, 2, 3, 4, 5, 6, 7, 8, 9, 10, 11, 12] }

/-- A model like `john_ctx` whose header says `n_max_tokens = 4`. -/
def small_ctx : ner_ctx :=
  { john_ctx with model := { hparams := { n_max_tokens := 4 } } }

/-- A forward pass for the checks: `John` (id 2) scores highest at begin-PER (3),
every other token at outside (0). -/
def demo_eval (_ : ner_ctx) (tokens : List ner_vocab_id) : Nat → ℚ :=
  one_hot (tokens.map (fun id => if id = 2 then 3 else 0))

/-- A logits buffer in which every score is shifted far below zero (as with a
classifier bias of `-2^35`): `-34359734272` at the listed label of each token and
`-34359738368` elsewhere. Both values are exact `float`s and the order of the
scores inside a row is that of `one_hot`. -/
def shifted_hot (labels : List Nat) (i : Nat) : ℚ :=
  if labels[i / 9]? = some (i % 9) then -34359734272 else -34359738368

/-- A row of two scores below `-1e10` whose maximum is at index 1. -/
def low_row (i : Nat) : ℚ :=
  if i = 1 then -34359734272 else -34359738368

/-- Line 106: the classes in the order of their group numbers. -/
def class_names : List CString :=
  [cstr "O", cstr "MISC", cstr "PER", cstr "ORG", cstr "LOC"]

/-! ## Theorems -/

/-! ### Tokenizer: the inner longest-match loop -/

theorem match_longest_bounds (tm : StdMap CString ner_vocab_id) (word : CString) (i : Nat) :
    ∀ (j : Nat) (r : Nat × ner_vocab_id), match_longest tm word i j = some r →
      i < r.1 ∧ r.1 ≤ j := by
  intro j
  induction j with
  | zero => intro r h; simp [match_longest] at h
  | succ j ih =>
    intro r h
    unfold match_longest at h
    split at h
    · rename_i hgt
      split at h
      · simp only [Option.some.injEq] at h
        subst h
        exact ⟨hgt, le_refl _⟩
      · have := ih r h
        exact ⟨this.1, by omega⟩
    · simp at h

theorem match_longest_eq (tm : StdMap CString ner_vocab_id) (word : CString) (i j1 : Nat)
    (id : ner_vocab_id) (hi : i < j1)
    (hfound : tm.find (substr word i (j1 - i)) = some id) :
    ∀ j : Nat, j1 ≤ j →
      (∀ j2 : Nat, j1 < j2 → j2 ≤ j → tm.find (substr word i (j2 - i)) = none) →
      match_longest tm word i j = some (j1, id) := by
  intro j
  induction j with
  | zero => intro h; omega
  | succ j ih =>
    intro hle hnone
    unfold match_longest
    rw [if_pos (by omega)]
    by_cases hj : j1 = j + 1
    · subst hj
      simp [hfound]
    · have h1 : tm.find (substr word i (j + 1 - i)) = none := hnone (j + 1) (by omega) (le_refl _)
      simp only [h1]
      exact ih (by omega) (fun j2 h2 h3 => hnone j2 h2 (by omega))

/-! ### Tokenizer: effect of the capacity guard -/

/-- With `word.size() - i` iterations available the word loop always ends, and it
appends the unguarded ids of the word cut to the room left below `n_max_tokens - 1`. -/
theorem word_loop_eq (vocab : ner_vocab) (word : CString) (n_max_tokens : Int) :
    ∀ (fuel i : Nat) (sub : Bool) (tokens : List ner_vocab_id), word.length - i ≤ fuel →
      word_loop vocab word n_max_tokens fuel i sub tokens =
        some (tokens ++ (seg_word vocab word fuel i sub).take
          (n_max_tokens - 1 - (tokens.length : Int)).toNat) := by
  intro fuel
  induction fuel with
  | zero =>
    intro i sub tokens h
    have : ¬ i < word.length := by omega
    simp [word_loop, seg_word, this]
  | succ fuel ih =>
    intro i sub tokens h
    unfold word_loop seg_word
    by_cases hi : i < word.length
    · simp only [hi, if_true]
      by_cases hg : (tokens.length : Int) ≥ n_max_tokens - 1
      · have h0 : (n_max_tokens - 1 - (tokens.length : Int)).toNat = 0 := by omega
        simp [hg, h0]
      · rw [if_neg hg]
        have hk : (n_max_tokens - 1 - (tokens.length : Int)).toNat =
            (n_max_tokens - 1 - ((tokens.length : Int) + 1)).toNat + 1 := by omega
        cases hm : match_longest (if sub then vocab.subword_token_to_id else vocab.token_to_id)
            word i word.length with
        | none =>
          simp only []
          exact ih (i + 1) true tokens (by omega)
        | some r =>
          obtain ⟨j, id⟩ := r
          have hb := match_longest_bounds _ _ _ _ _ hm
          simp only [] at hb ⊢
          rw [ih j true (tokens ++ [id]) (by omega), hk]
          simp [List.take_succ_cons]
    · simp [hi]

theorem words_loop_eq (vocab : ner_vocab) (n_max_tokens : Int) :
    ∀ (words : List CString) (tokens : List ner_vocab_id),
      words_loop vocab n_max_tokens words tokens =
        some (tokens ++ (seg_words vocab words).take
          (n_max_tokens - 1 - (tokens.length : Int)).toNat) := by
  intro words
  induction words with
  | nil => intro tokens; simp [words_loop, seg_words]
  | cons word rest ih =>
    intro tokens
    unfold words_loop
    by_cases hg : (tokens.length : Int) ≥ n_max_tokens - 1
    · have h0 : (n_max_tokens - 1 - (tokens.length : Int)).toNat = 0 := by omega
      simp [hg, h0]
    · rw [if_neg hg, word_loop_eq vocab word n_max_tokens word.length 0 false tokens (by omega)]
      simp only []
      rw [ih]
      have hs : seg_words vocab (word :: rest) =
          seg_word vocab word word.length 0 false ++ seg_words vocab rest := by
        simp [seg_words]
      rw [hs, List.take_append_eq_append_take, List.append_assoc]
      have hnum : (n_max_tokens - 1 - ((tokens ++ List.take
            (n_max_tokens - 1 - (tokens.length : Int)).toNat
            (seg_word vocab word word.length 0 false)).length : Int)).toNat =
          (n_max_tokens - 1 - (tokens.length : Int)).toNat -
            (seg_word vocab word word.length 0 false).length := by
        generalize seg_word vocab word word.length 0 false = sw
        simp only [List.length_append, List.length_take]
        omega
      rw [hnum]

/-- The tokenizer in closed form: the markers around the unguarded word tokens cut
to `n_max_tokens - 2`. -/
theorem ner_tokenize_eq (ctx : ner_ctx) (text : CString) (n_max_tokens : Int)
    (cls sep : ner_vocab_id)
    (hcls : ctx.vocab.token_to_id.find (cstr "[CLS]") = some cls)
    (hsep : ctx.vocab.token_to_id.find (cstr "[SEP]") = some sep) :
    ner_tokenize ctx text n_max_tokens =
      .ok (cls :: (seg_words ctx.vocab (split_words text)).take (n_max_tokens - 2).toNat
        ++ [sep]) := by
  unfold ner_tokenize
  simp only [hcls, hsep, words_loop_eq]
  have : (n_max_tokens - 1 - (([cls] : List ner_vocab_id).length : Int)).toNat =
      (n_max_tokens - 2).toNat := by
    simp only [List.length_singleton]; omega
  rw [this]
  simp

/-! ### Tokenizer: word splitting -/

theorem split_fold_nonempty : ∀ (str w : CString) (ws : List CString),
    (∀ x ∈ ws, x ≠ []) → ∀ x ∈ (str.foldl split_step (w, ws)).2, x ≠ [] := by
  intro str
  induction str with
  | nil => intro w ws h; simpa using h
  | cons c rest ih =>
    intro w ws h
    simp only [List.foldl_cons]
    unfold split_step
    by_cases hc : isspace c = true
    · by_cases hw : w = []
      · simp only [hc, hw, if_true, ne_eq, not_true_eq_false, if_false]
        exact ih [] ws h
      · simp only [hc, if_true, ne_eq, hw, not_false_eq_true]
        apply ih
        intro x hx
        rcases List.mem_append.1 hx with h1 | h1
        · exact h x h1
        · simp only [List.mem_singleton] at h1
          subst h1
          exact hw
    · simp only [hc]
      exact ih _ ws h

theorem split_words_nonempty (str : CString) : ∀ x ∈ split_words str, x ≠ [] := by
  intro x hx
  unfold split_words at hx
  have h := split_fold_nonempty str [] [] (by simp)
  by_cases hw : (str.foldl split_step ([], [])).1 = []
  · simp only [hw, ne_eq, not_true_eq_false, if_false] at hx
    exact h x hx
  · simp only [ne_eq, hw, not_false_eq_true, if_true] at hx
    rcases List.mem_append.1 hx with h1 | h1
    · exact h x h1
    · simp only [List.mem_singleton] at h1
      subst h1
      exact hw

theorem split_fold_no_space : ∀ (str w : CString) (ws : List CString),
    (∀ c ∈ str, isspace c = false) → str.foldl split_step (w, ws) = (w ++ str, ws) := by
  intro str
  induction str with
  | nil => intro w ws _; simp
  | cons c rest ih =>
    intro w ws h
    have hc : isspace c = false := h c (List.mem_cons_self _ _)
    simp only [List.foldl_cons, split_step, hc]
    rw [ih _ _ (fun d hd => h d (List.mem_cons_of_mem _ hd))]
    simp

/-- A non-empty text without whitespace is a single word. -/
theorem split_words_single (w : CString) (hw : w ≠ []) (h : ∀ c ∈ w, isspace c = false) :
    split_words w = [w] := by
  unfold split_words
  rw [split_fold_no_space w [] [] h]
  simp [hw]

/-! ### Tokenizer: unguarded segmentation of particular words -/

theorem seg_word_end (vocab : ner_vocab) (word : CString) (fuel i : Nat) (sub : Bool)
    (h : word.length ≤ i) : seg_word vocab word fuel i sub = [] := by
  cases fuel with
  | zero => rfl
  | succ fuel =>
    unfold seg_word
    rw [if_neg (by omega)]

theorem substr_zero_length (word : CString) : substr word 0 (word.length - 0) = word := by
  simp [substr]

/-- A word that is itself a key of the whole-word table is one token. -/
theorem seg_word_whole (vocab : ner_vocab) (word : CString) (id : ner_vocab_id)
    (hw : word ≠ []) (hkey : vocab.token_to_id.find word = some id) :
    seg_word vocab word word.length 0 false = [id] := by
  have hpos : 0 < word.length := List.length_pos.2 hw
  obtain ⟨n, hn⟩ : ∃ n, word.length = n + 1 := ⟨word.length - 1, by omega⟩
  have hm : match_longest vocab.token_to_id word 0 word.length = some (word.length, id) :=
    match_longest_eq _ _ _ _ _ hpos (by rw [substr_zero_length]; exact hkey) _ (le_refl _)
      (fun j2 h1 h2 => by omega)
  have key : ∀ f, seg_word vocab word (f + 1) 0 false = [id] := by
    intro f
    rw [seg_word, if_pos hpos]
    simp only [Bool.false_eq_true, if_false, hm]
    rw [seg_word_end _ _ _ _ _ (le_refl _)]
  rw [hn]
  exact key n

theorem seg_words_known (vocab : ner_vocab) : ∀ (words : List CString) (ids : List ner_vocab_id),
    (∀ w ∈ words, w ≠ []) →
    words.map (fun w => vocab.token_to_id.find w) = ids.map some →
    seg_words vocab words = ids := by
  intro words
  induction words with
  | nil =>
    intro ids _ h
    cases ids with
    | nil => rfl
    | cons a as => simp at h
  | cons w rest ih =>
    intro ids hne h
    cases ids with
    | nil => simp at h
    | cons a as =>
      simp only [List.map_cons, List.cons.injEq] at h
      have h1 := seg_word_whole vocab w a (hne w (List.mem_cons_self _ _)) h.1
      have h2 := ih as (fun x hx => hne x (List.mem_cons_of_mem _ hx)) h.2
      unfold seg_words at h2 ⊢
      simp only [List.flatMap_cons, h1, h2]
      rfl

/-- A word `p ++ s` whose longest whole-word prefix is `p` and whose rest `s` is a
subword key is two tokens. -/
theorem seg_word_split (vocab : ner_vocab) (p s : CString) (a b : ner_vocab_id)
    (hp : p ≠ []) (hs : s ≠ [])
    (hpkey : vocab.token_to_id.find p = some a)
    (hlongest : ∀ j, j ≤ (p ++ s).length → p.length < j →
      vocab.token_to_id.find ((p ++ s).take j) = none)
    (hskey : vocab.subword_token_to_id.find s = some b) :
    seg_word vocab (p ++ s) (p ++ s).length 0 false = [a, b] := by
  have hpl : 0 < p.length := List.length_pos.2 hp
  have hsl : 0 < s.length := List.length_pos.2 hs
  have hlen : (p ++ s).length = p.length + s.length := List.length_append _ _
  have hm1 : match_longest vocab.token_to_id (p ++ s) 0 (p ++ s).length = some (p.length, a) := by
    apply match_longest_eq _ _ _ _ _ hpl
    · simpa [substr] using hpkey
    · omega
    · intro j2 h1 h2
      have := hlongest j2 h2 h1
      simpa [substr] using this
  have hm2 : match_longest vocab.subword_token_to_id (p ++ s) p.length (p ++ s).length =
      some ((p ++ s).length, b) := by
    apply match_longest_eq _ _ _ _ _ (by omega)
    · have : substr (p ++ s) p.length ((p ++ s).length - p.length) = s := by
        simp [substr, hlen]
      rw [this]; exact hskey
    · exact le_refl _
    · intro j2 h1 h2; omega
  obtain ⟨n, hn⟩ : ∃ n, (p ++ s).length = n + 2 := ⟨(p ++ s).length - 2, by omega⟩
  have e1 : seg_word vocab (p ++ s) (n + 2) 0 false =
      a :: seg_word vocab (p ++ s) (n + 1) p.length true := by
    rw [seg_word, if_pos (by omega)]
    simp only [Bool.false_eq_true, if_false, hm1]
  have e2 : seg_word vocab (p ++ s) (n + 1) p.length true =
      b :: seg_word vocab (p ++ s) n (p ++ s).length true := by
    rw [seg_word, if_pos (by omega)]
    simp only [if_true, hm2]
  rw [hn, e1, e2, seg_word_end _ _ _ _ _ (le_refl _)]

/-! ### Tokenizer: number of ids written -/

/-- With a capacity of at least two the ids written fit the capacity. -/
theorem ner_tokenize_length_le (ctx : ner_ctx) (text : CString) (n_max_tokens : Int)
    (tokens : List ner_vocab_id) (hcap : 2 ≤ n_max_tokens)
    (h : ner_tokenize ctx text n_max_tokens = .ok tokens) :
    (tokens.length : Int) ≤ n_max_tokens := by
  cases hcls : ctx.vocab.token_to_id.find (cstr "[CLS]") with
  | none => simp [ner_tokenize, hcls] at h
  | some cls =>
    cases hsep : ctx.vocab.token_to_id.find (cstr "[SEP]") with
    | none => simp [ner_tokenize, hcls, hsep] at h
    | some sep =>
      rw [ner_tokenize_eq ctx text n_max_tokens cls sep hcls hsep] at h
      simp only [Except.ok.injEq] at h
      subst h
      simp only [List.length_cons, List.length_append, List.length_take, List.length_singleton,
        List.length_nil]
      omega

/-- With a capacity below two the tokenizer still writes both markers. -/
theorem ner_tokenize_small_capacity (ctx : ner_ctx) (text : CString) (n_max_tokens : Int)
    (cls sep : ner_vocab_id) (hcap : n_max_tokens < 2)
    (hcls : ctx.vocab.token_to_id.find (cstr "[CLS]") = some cls)
    (hsep : ctx.vocab.token_to_id.find (cstr "[SEP]") = some sep) :
    ner_tokenize ctx text n_max_tokens = .ok [cls, sep] := by
  rw [ner_tokenize_eq ctx text n_max_tokens cls sep hcls hsep]
  have : (n_max_tokens - 2).toNat = 0 := by omega
  simp [this]

/-! ### Vocabulary of a loaded context -/

theorem find_filter_ne {κ ν : Type} [DecidableEq κ] (k k1 : κ) (h : k1 ≠ k) :
    ∀ m : StdMap κ ν, StdMap.find (m.filter (fun e => e.1 ≠ k)) k1 = StdMap.find m k1 := by
  intro m
  induction m with
  | nil => rfl
  | cons e m ih =>
    obtain ⟨a, v⟩ := e
    by_cases ha : a = k
    · have hne : ¬ a = k1 := fun h1 => h (by rw [← h1, ha])
      have e1 : StdMap.find ((a, v) :: m) k1 = StdMap.find m k1 := by
        simp [StdMap.find, hne]
      rw [List.filter_cons_of_neg (by simp [ha]), e1]
      exact ih
    · rw [List.filter_cons_of_pos (by simp [ha])]
      simp only [StdMap.find]
      split
      · rfl
      · exact ih

theorem find_set_self {κ ν : Type} [DecidableEq κ] (m : StdMap κ ν) (k : κ) (v : ν) :
    StdMap.find (m.set k v) k = some v := by
  simp [StdMap.set, StdMap.find]

theorem find_set_ne {κ ν : Type} [DecidableEq κ] (m : StdMap κ ν) (k k1 : κ) (v : ν)
    (h : k1 ≠ k) : StdMap.find (m.set k v) k1 = StdMap.find m k1 := by
  unfold StdMap.set
  rw [StdMap.find, if_neg (fun h1 => h h1.symm)]
  exact find_filter_ne k k1 h m

/-- An entry that passes the test of line 181 is `##` followed by its rest. -/
theorem subword_entry_shape (word : CString)
    (h : word.length > 2 ∧ word[0]? = some 35 ∧ word[1]? = some 35) :
    word = cstr "##" ++ word.drop 2 := by
  obtain ⟨_, h0, h1⟩ := h
  match word, h0, h1 with
  | a :: b :: rest, h0, h1 =>
    simp only [List.getElem?_cons_zero, List.getElem?_cons_succ, Option.some.injEq] at h0 h1
    subst h0 h1
    rfl

/-- One vocabulary entry keeps the link between the two subword maps: an id found
under `s` in the subword table is below the next position and is the position at
which the entry `##s` was read. -/
theorem vocab_insert_inv (vocab : ner_vocab) (word : CString) (i : Int)
    (h : ∀ (s : CString) (b : Int), vocab.subword_token_to_id.find s = some b →
      b < i ∧ vocab._id_to_subword_token.find b = some (cstr "##" ++ s)) :
    ∀ (s : CString) (b : Int), (vocab_insert vocab word i).subword_token_to_id.find s = some b →
      b < i + 1 ∧ (vocab_insert vocab word i)._id_to_subword_token.find b =
        some (cstr "##" ++ s) := by
  intro s b hfind
  unfold vocab_insert at hfind ⊢
  by_cases hw : word.length > 2 ∧ word[0]? = some 35 ∧ word[1]? = some 35
  · rw [if_pos hw] at hfind ⊢
    simp only at hfind ⊢
    by_cases hs : s = word.drop 2
    · subst hs
      rw [find_set_self] at hfind
      simp only [Option.some.injEq] at hfind
      subst hfind
      refine ⟨by omega, ?_⟩
      rw [find_set_self, ← subword_entry_shape word hw]
    · rw [find_set_ne _ _ _ _ hs] at hfind
      obtain ⟨hlt, hid⟩ := h s b hfind
      refine ⟨by omega, ?_⟩
      rw [find_set_ne _ _ _ _ (ne_of_lt hlt)]
      exact hid
  · rw [if_neg hw] at hfind ⊢
    obtain ⟨hlt, hid⟩ := h s b hfind
    exact ⟨by omega, hid⟩

theorem read_vocab_inv : ∀ (count : Nat) (i : Int) (fin fin1 : ifstream)
    (vocab vocab1 : ner_vocab),
    (∀ (s : CString) (b : Int), vocab.subword_token_to_id.find s = some b →
      b < i ∧ vocab._id_to_subword_token.find b = some (cstr "##" ++ s)) →
    read_vocab count i fin vocab = .ok (vocab1, fin1) →
    ∀ (s : CString) (b : Int), vocab1.subword_token_to_id.find s = some b →
      b < i + count ∧ vocab1._id_to_subword_token.find b = some (cstr "##" ++ s) := by
  intro count
  induction count with
  | zero =>
    intro i fin fin1 vocab vocab1 h hr s b hfind
    simp only [read_vocab, Except.ok.injEq, Prod.mk.injEq] at hr
    obtain ⟨hv, _⟩ := hr
    subst hv
    simpa using h s b hfind
  | succ count ih =>
    intro i fin fin1 vocab vocab1 h hr s b hfind
    unfold read_vocab at hr
    split at hr
    · simp at hr
    · have := ih (i + 1) _ fin1 _ vocab1 (vocab_insert_inv vocab _ i h) hr s b hfind
      refine ⟨?_, this.2⟩
      have h1 := this.1
      push_cast
      omega

/-- In a context returned by the loader, the id stored under `s` in the subword
table is the position of the vocabulary entry `##s`. -/
theorem loaded_subword_id (lib : ggml_abi) (file : Option (List CChar)) (ctx : ner_ctx)
    (hload : ner_load_from_file lib file = .ok (some ctx)) (s : CString) (b : ner_vocab_id)
    (hfind : ctx.vocab.subword_token_to_id.find s = some b) :
    ctx.vocab._id_to_subword_token.find b = some (cstr "##" ++ s) := by
  unfold ner_load_from_file at hload
  split at hload
  · simp at hload
  · split at hload
    · simp at hload
    · split at hload
      · simp at hload
      · split at hload
        · simp at hload
        · rename_i vocab fin9 hrv
          split at hload
          · simp at hload
          · split at hload
            · simp at hload
            · simp only [Except.ok.injEq, Option.some.injEq] at hload
              subst hload
              exact (read_vocab_inv _ 0 _ fin9 {} vocab (by intro s b h; simp [StdMap.find] at h)
                hrv s b hfind).2

/-! ### Claims about the tokenizer -/

/-- C1 (the code departs from the claim): with capacity `n_max_tokens = 1` the
tokenizer writes two ids, `[CLS]` and `[SEP]`, one more than the capacity. -/
theorem tokenize_capacity_one_writes_two :
    ∃ tokens, ner_tokenize demo_ctx (cstr "hello world") 1 = .ok tokens ∧
      tokens = [0, 1] ∧ ((1 : Int) < tokens.length) :=
  ⟨[0, 1], by decide, rfl, by decide⟩

/-- C2: when every whitespace-separated word of the text is a key of the
whole-word table (with ids `ids`) and the capacity is at least their number plus
two, the tokenizer writes exactly `[CLS]`, the ids of the words in order, `[SEP]`,
and the count is the number of words plus two. -/
theorem tokenize_known_words (ctx : ner_ctx) (text : CString) (n_max_tokens : Int)
    (cls sep : ner_vocab_id) (ids : List ner_vocab_id)
    (hcls : ctx.vocab.token_to_id.find (cstr "[CLS]") = some cls)
    (hsep : ctx.vocab.token_to_id.find (cstr "[SEP]") = some sep)
    (hkeys : (split_words text).map (fun w => ctx.vocab.token_to_id.find w) = ids.map some)
    (hcap : ((split_words text).length : Int) + 2 ≤ n_max_tokens) :
    ner_tokenize ctx text n_max_tokens = .ok (cls :: ids ++ [sep]) ∧
      (cls :: ids ++ [sep]).length = (split_words text).length + 2 := by
  have hlen : (split_words text).length = ids.length := by
    have := congrArg List.length hkeys
    simpa using this
  have hseg := seg_words_known ctx.vocab (split_words text) ids (split_words_nonempty text) hkeys
  rw [ner_tokenize_eq ctx text n_max_tokens cls sep hcls hsep, hseg]
  constructor
  · rw [List.take_of_length_le (by omega)]
  · simp [hlen]

theorem tokenize_known_words_witness :
    (split_words (cstr "hello world")).map (fun w => demo_ctx.vocab.token_to_id.find w) =
        [(2 : ner_vocab_id), 3].map some ∧
      ner_tokenize demo_ctx (cstr "hello world") 4 = .ok [0, 2, 3, 1] :=
  ⟨by decide,
    (tokenize_known_words demo_ctx (cstr "hello world") 4 0 1 [2, 3] (by decide) (by decide)
      (by decide) (by decide)).1⟩

/-- C3: for a whitespace-free word `w = p ++ s` where `p` is non-empty and is the
longest prefix of `w` that is a key of the whole-word table, and `s` is non-empty
and a key of the subword table, tokenizing the text `w` with capacity at least 4
writes exactly `[CLS]`, the whole-word id of `p`, the subword-table id of `s`,
`[SEP]`; and in a context returned by the loader that second id is the position of
the vocabulary entry `##s`. -/
theorem tokenize_word_and_subword (ctx : ner_ctx) (p s : CString) (n_max_tokens : Int)
    (cls sep a b : ner_vocab_id)
    (hcls : ctx.vocab.token_to_id.find (cstr "[CLS]") = some cls)
    (hsep : ctx.vocab.token_to_id.find (cstr "[SEP]") = some sep)
    (hp : p ≠ []) (hs : s ≠ [])
    (hword : ∀ c ∈ p ++ s, isspace c = false)
    (hpkey : ctx.vocab.token_to_id.find p = some a)
    (hlongest : ∀ j, j ≤ (p ++ s).length → p.length < j →
      ctx.vocab.token_to_id.find ((p ++ s).take j) = none)
    (hskey : ctx.vocab.subword_token_to_id.find s = some b)
    (hcap : 4 ≤ n_max_tokens) :
    ner_tokenize ctx (p ++ s) n_max_tokens = .ok [cls, a, b, sep] ∧
      (∀ lib file, ner_load_from_file lib file = .ok (some ctx) →
        ctx.vocab._id_to_subword_token.find b = some (cstr "##" ++ s)) := by
  have hne : p ++ s ≠ [] := by simp [hp]
  refine ⟨?_, fun lib file hload => loaded_subword_id lib file ctx hload s b hskey⟩
  rw [ner_tokenize_eq ctx (p ++ s) n_max_tokens cls sep hcls hsep,
    split_words_single (p ++ s) hne hword]
  have hseg : seg_words ctx.vocab [p ++ s] = [a, b] := by
    simp only [seg_words, List.flatMap_cons, List.flatMap_nil, List.append_nil]
    exact seg_word_split ctx.vocab p s a b hp hs hpkey hlongest hskey
  rw [hseg, List.take_of_length_le (by simp; omega)]
  rfl

set_option maxRecDepth 100000 in
theorem tokenize_word_and_subword_witness :
    ner_load_from_file demo_abi (some demo_file) = .ok (some loaded_ctx) ∧
      ner_tokenize loaded_ctx (cstr "play" ++ cstr "ing") 4 = .ok [0, 4, 5, 1] ∧
      loaded_ctx.vocab._id_to_subword_token.find 5 = some (cstr "##" ++ cstr "ing") :=
  have h := tokenize_word_and_subword loaded_ctx (cstr "play") (cstr "ing") 4 0 1 4 5
    (by decide) (by decide) (by decide) (by decide) (by decide) (by decide) (by decide)
    (by decide) (by decide)
  ⟨by decide, h.1, h.2 demo_abi (some demo_file) (by decide)⟩

/-- C9 (counterexample): with `n_max_tokens = 3` the text `hello world` has
`n_max_tokens - 1 = 2` word tokens when the limit is not reached (capacity 100),
yet with capacity 3 only `hello` is written and `world` is discarded. -/
theorem tokenize_max_minus_one_words_cut :
    ner_tokenize demo_ctx (cstr "hello world") 100 = .ok [0, 2, 3, 1] ∧
      ner_tokenize demo_ctx (cstr "hello world") 3 = .ok [0, 2, 1] :=
  ⟨by decide, by decide⟩

/-- C9 (amended): if a run of the tokenizer in which the limit is not reached
(`full.length < big`) writes at most `n_max_tokens` ids, that is at most
`n_max_tokens - 2` word tokens, then the run with capacity `n_max_tokens` writes
exactly the same ids: nothing is discarded. -/
theorem tokenize_fits_fully (ctx : ner_ctx) (text : CString) (n_max_tokens big : Int)
    (full : List ner_vocab_id)
    (hfull : ner_tokenize ctx text big = .ok full)
    (hnot_reached : (full.length : Int) < big)
    (hfits : (full.length : Int) ≤ n_max_tokens) :
    ner_tokenize ctx text n_max_tokens = .ok full := by
  cases hcls : ctx.vocab.token_to_id.find (cstr "[CLS]") with
  | none => simp [ner_tokenize, hcls] at hfull
  | some cls =>
    cases hsep : ctx.vocab.token_to_id.find (cstr "[SEP]") with
    | none => simp [ner_tokenize, hcls, hsep] at hfull
    | some sep =>
      rw [ner_tokenize_eq ctx text big cls sep hcls hsep] at hfull
      rw [ner_tokenize_eq ctx text n_max_tokens cls sep hcls hsep]
      simp only [Except.ok.injEq] at hfull
      subst hfull
      simp only [List.length_cons, List.length_append, List.length_take, List.length_singleton,
        List.length_nil] at hnot_reached hfits
      have h1 : (seg_words ctx.vocab (split_words text)).length ≤ (big - 2).toNat := by omega
      rw [List.take_of_length_le h1, List.take_of_length_le (by omega)]

theorem tokenize_fits_fully_witness :
    ner_tokenize demo_ctx (cstr "hello world") 4 = .ok [0, 2, 3, 1] :=
  tokenize_fits_fully demo_ctx (cstr "hello world") 4 100 [0, 2, 3, 1] (by decide) (by decide)
    (by decide)

/-! ### Decoder: the label chosen for a token -/

/-- State of the label loop after the labels `0..k-1`: `max_logit` bounds the
scores seen and the start value, and `best_label` is either untouched or the
first index that reaches `max_logit`. -/
theorem argmax_fold_inv (logits : Nat → ℚ) (t n : Nat) : ∀ k : Nat,
    (∀ l < k, logits (t * n + l) ≤
        ((List.range k).foldl (argmax_step logits t n) (0, -10000000000)).2) ∧
      ((((List.range k).foldl (argmax_step logits t n) (0, -10000000000)).1 = 0 ∧
          ((List.range k).foldl (argmax_step logits t n) (0, -10000000000)).2 = -10000000000) ∨
        (((List.range k).foldl (argmax_step logits t n) (0, -10000000000)).1 < k ∧
          logits (t * n + ((List.range k).foldl (argmax_step logits t n) (0, -10000000000)).1) =
            ((List.range k).foldl (argmax_step logits t n) (0, -10000000000)).2 ∧
          -10000000000 < ((List.range k).foldl (argmax_step logits t n) (0, -10000000000)).2 ∧
          ∀ l < ((List.range k).foldl (argmax_step logits t n) (0, -10000000000)).1,
            logits (t * n + l) <
              ((List.range k).foldl (argmax_step logits t n) (0, -10000000000)).2)) := by
  intro k
  induction k with
  | zero => simp
  | succ k ih =>
    rw [List.range_succ, List.foldl_append]
    simp only [List.foldl_cons, List.foldl_nil]
    generalize (List.range k).foldl (argmax_step logits t n) (0, -10000000000) = st at ih ⊢
    obtain ⟨b, m⟩ := st
    simp only at ih
    obtain ⟨hle, hcase⟩ := ih
    unfold argmax_step
    by_cases hv : logits (t * n + k) > m
    · rw [if_pos hv]
      refine ⟨?_, Or.inr ⟨Nat.lt_succ_self k, rfl, ?_, ?_⟩⟩
      · intro l hl
        rcases Nat.lt_succ_iff_lt_or_eq.1 hl with h1 | h1
        · exact le_of_lt (lt_of_le_of_lt (hle l h1) hv)
        · subst h1; exact le_refl _
      · rcases hcase with ⟨_, h2⟩ | ⟨_, _, h3, _⟩
        · rw [h2] at hv; exact hv
        · exact lt_trans h3 hv
      · intro l hl
        exact lt_of_le_of_lt (hle l hl) hv
    · rw [if_neg hv]
      refine ⟨?_, ?_⟩
      · intro l hl
        rcases Nat.lt_succ_iff_lt_or_eq.1 hl with h1 | h1
        · exact hle l h1
        · subst h1; exact not_lt.1 hv
      · rcases hcase with h1 | ⟨h1, h2, h3, h4⟩
        · exact Or.inl h1
        · exact Or.inr ⟨by omega, h2, h3, h4⟩

/-- When some score of the row is above the start value `-1e10`, the chosen label
is the first index at which the row attains its maximum. -/
theorem best_label_first_max (logits : Nat → ℚ) (t n : Nat)
    (h : ∃ l, l < n ∧ -10000000000 < logits (t * n + l)) :
    best_label logits t n < n ∧
      (∀ l < n, logits (t * n + l) ≤ logits (t * n + best_label logits t n)) ∧
      (∀ l < best_label logits t n, logits (t * n + l) < logits (t * n + best_label logits t n)) := by
  obtain ⟨l0, hl0, hgt⟩ := h
  obtain ⟨hle, hcase⟩ := argmax_fold_inv logits t n n
  unfold best_label
  rcases hcase with ⟨_, h2⟩ | ⟨h1, h2, _, h4⟩
  · have := hle l0 hl0
    rw [h2] at this
    exact absurd hgt (not_lt.2 this)
  · refine ⟨h1, ?_, ?_⟩
    · intro l hl; rw [h2]; exact hle l hl
    · intro l hl; rw [h2]; exact h4 l hl

/-- When no score of the row is above `-1e10` the chosen label is 0. -/
theorem best_label_all_low (logits : Nat → ℚ) (t n : Nat)
    (h : ∀ l < n, logits (t * n + l) ≤ -10000000000) : best_label logits t n = 0 := by
  obtain ⟨_, hcase⟩ := argmax_fold_inv logits t n n
  unfold best_label
  rcases hcase with ⟨h1, _⟩ | ⟨h1, h2, h3, _⟩
  · exact h1
  · have := h _ h1
    rw [h2] at this
    exact absurd h3 (not_lt.2 this)

/-- A strict maximum above `-1e10` is the chosen label. -/
theorem best_label_of_strict_max (logits : Nat → ℚ) (t n b : Nat) (hb : b < n)
    (hgt : -10000000000 < logits (t * n + b))
    (hmax : ∀ l < n, l ≠ b → logits (t * n + l) < logits (t * n + b)) :
    best_label logits t n = b := by
  obtain ⟨h1, h2, _⟩ := best_label_first_max logits t n ⟨b, hb, hgt⟩
  by_contra hne
  have := hmax _ h1 hne
  exact absurd (h2 b hb) (not_le.2 this)

/-- C6 (the code departs from the claim): for the row `[-34359738368, -34359734272]`
with `n_labels = 2` the decoder chooses label 0, although the maximum of the row is
at index 1 only. -/
theorem best_label_misses_low_maximum :
    best_label low_row 0 2 = 0 ∧ low_row (0 * 2 + 0) < low_row (0 * 2 + 1) :=
  ⟨by decide, by decide⟩

/-! ### Decoder: the token loop -/

theorem decode_token_special (st : DecState) (token_str : CString) (best_label : Nat)
    (h : token_str = cstr "[CLS]" ∨ token_str = cstr "[SEP]") :
    decode_token st token_str best_label = .ok st := by
  unfold decode_token
  rw [if_pos h]

theorem is_subword_not_special (token_str : CString) (h : is_subword token_str = true) :
    ¬ (token_str = cstr "[CLS]" ∨ token_str = cstr "[SEP]") := by
  rintro (h1 | h1) <;> (subst h1; revert h; decide)

theorem label_type_of_begin (c : Nat) (hc : 1 ≤ c) : label_type_of (2 * c - 1) = c := by
  unfold label_type_of
  rw [if_neg (by omega)]
  omega

theorem label_type_of_inside (c : Nat) (hc : 1 ≤ c) : label_type_of (2 * c) = c := by
  unfold label_type_of
  rw [if_neg (by omega)]
  omega

theorem label_map_begin (c : Nat) (h1 : 1 ≤ c) (h4 : c ≤ 4) :
    label_map[2 * c - 1]? = some (class_names.getD c []) := by
  interval_cases c <;> rfl

theorem label_map_inside (c : Nat) (h1 : 1 ≤ c) (h4 : c ≤ 4) :
    label_map[2 * c]? = some (class_names.getD c []) := by
  interval_cases c <;> rfl

/-- A subword piece whose label lies in the group of the open entity is appended to
it without a space. -/
theorem decode_token_subword (st : DecState) (token_str : CString) (b c : Nat)
    (hsub : is_subword token_str = true) (hc : 1 ≤ c)
    (hb : b = 2 * c - 1 ∨ b = 2 * c) (hlast : st.last_label_type = c) :
    decode_token st token_str b = .ok
      { entities := st.entities
        current_entity :=
          { text := st.current_entity.text ++ token_str.drop 2
            label := st.current_entity.label }
        last_label_type := c } := by
  have hty : label_type_of b = c := by
    rcases hb with h | h
    · rw [h]; exact label_type_of_begin c hc
    · rw [h]; exact label_type_of_inside c hc
  unfold decode_token
  rw [if_neg (is_subword_not_special token_str hsub)]
  simp only [hty, hsub, hlast]
  rw [if_pos (by omega)]
  simp

theorem decode_loop_subwords (ctx : ner_ctx) (logits : Nat → ℚ) (n c : Nat) (hc : 1 ≤ c)
    (rest : List ner_vocab_id) :
    ∀ (ss : List ner_vocab_id) (t : Nat) (st : DecState),
      (∀ s ∈ ss, is_subword (ner_vocab_id_to_token ctx s) = true) →
      (∀ k < ss.length, best_label logits (t + k) n = 2 * c - 1 ∨
        best_label logits (t + k) n = 2 * c) →
      st.last_label_type = c →
      decode_loop ctx logits n (ss ++ rest) t st =
        decode_loop ctx logits n rest (t + ss.length)
          { entities := st.entities
            current_entity :=
              { text := st.current_entity.text ++
                  ss.flatMap (fun s => (ner_vocab_id_to_token ctx s).drop 2)
                label := st.current_entity.label }
            last_label_type := c } := by
  intro ss
  induction ss with
  | nil =>
    intro t st _ _ hlast
    cases st
    simp only at hlast
    subst hlast
    simp
  | cons s ss ih =>
    intro t st hsub hlab hlast
    have h0 := hlab 0 (by simp)
    rw [Nat.add_zero] at h0
    show decode_loop ctx logits n (s :: (ss ++ rest)) t st = _
    rw [decode_loop]
    rw [decode_token_subword st _ _ c (hsub s (List.mem_cons_self _ _)) hc h0 hlast]
    simp only []
    rw [ih (t + 1) _ (fun x hx => hsub x (List.mem_cons_of_mem _ hx)) ?_ rfl]
    · simp only [List.length_cons, List.flatMap_cons, List.append_assoc]
      congr 1
      omega
    · intro k hk
      have := hlab (k + 1) (by simpa using hk)
      rw [show t + 1 + k = t + (k + 1) by omega]
      exact this

/-- The span rule in terms of the chosen labels: `[CLS], x, s1..sk, y, [SEP]` with
`x` chosen begin-C, the subword pieces chosen in group C and `y` chosen outside
gives exactly one entity. -/
theorem decode_span (ctx : ner_ctx) (n_labels : Int) (cls x y sep : ner_vocab_id)
    (ss : List ner_vocab_id) (logits : Nat → ℚ) (c : Nat)
    (hcls : ner_vocab_id_to_token ctx cls = cstr "[CLS]")
    (hsep : ner_vocab_id_to_token ctx sep = cstr "[SEP]")
    (hx : ¬ (ner_vocab_id_to_token ctx x = cstr "[CLS]" ∨
      ner_vocab_id_to_token ctx x = cstr "[SEP]"))
    (hxsub : is_subword (ner_vocab_id_to_token ctx x) = false)
    (hss : ∀ s ∈ ss, is_subword (ner_vocab_id_to_token ctx s) = true)
    (hc1 : 1 ≤ c) (hc4 : c ≤ 4)
    (hlx : best_label logits 1 n_labels.toNat = 2 * c - 1)
    (hls : ∀ k < ss.length, best_label logits (2 + k) n_labels.toNat = 2 * c - 1 ∨
      best_label logits (2 + k) n_labels.toNat = 2 * c)
    (hly : best_label logits (2 + ss.length) n_labels.toNat = 0) :
    decode_entities ctx n_labels (cls :: x :: (ss ++ [y, sep])) logits = .ok
      [{ text := ner_vocab_id_to_token ctx x ++
            ss.flatMap (fun s => (ner_vocab_id_to_token ctx s).drop 2)
         label := class_names.getD c [] }] := by
  unfold decode_entities
  simp only [decode_loop]
  rw [decode_token_special _ _ _ (Or.inl hcls)]
  simp only []
  have hstep : decode_token {} (ner_vocab_id_to_token ctx x) (2 * c - 1) = .ok
      { entities := []
        current_entity := { text := ner_vocab_id_to_token ctx x, label := class_names.getD c [] }
        last_label_type := c } := by
    unfold decode_token
    rw [if_neg hx]
    simp only [label_type_of_begin c hc1, hxsub, label_map_begin c hc1 hc4]
    rw [if_pos (by omega), if_neg (by simp; omega)]
    simp
  rw [hlx, hstep]
  simp only []
  rw [decode_loop_subwords ctx logits n_labels.toNat c hc1 [y, sep] ss 2 _ hss hls rfl]
  simp only [decode_loop, hly]
  by_cases hy : ner_vocab_id_to_token ctx y = cstr "[CLS]" ∨
      ner_vocab_id_to_token ctx y = cstr "[SEP]"
  · rw [decode_token_special _ _ _ hy]
    simp only []
    rw [decode_token_special _ (ner_vocab_id_to_token ctx sep) _ (Or.inr hsep)]
    simp only []
    rw [if_pos (by simp; omega)]
    simp
  · have hyt : ∀ e : Entity, decode_token
        { entities := [], current_entity := e, last_label_type := c }
        (ner_vocab_id_to_token ctx y) 0 = .ok
        { entities := [e], current_entity := e, last_label_type := 0 } := by
      intro e
      have h0 : label_type_of 0 = 0 := rfl
      unfold decode_token
      rw [if_neg hy]
      simp only [h0]
      simp
      omega
    rw [hyt]
    simp only []
    rw [decode_token_special _ (ner_vocab_id_to_token ctx sep) _ (Or.inr hsep)]
    simp

/-- A row whose maximum is at index 0 gets label 0, whatever its level. -/
theorem best_label_zero_of_max_at_zero (logits : Nat → ℚ) (t n : Nat)
    (h : ∀ l < n, logits (t * n + l) ≤ logits (t * n + 0)) : best_label logits t n = 0 := by
  by_cases hex : ∃ l, l < n ∧ -10000000000 < logits (t * n + l)
  · obtain ⟨h1, _, h3⟩ := best_label_first_max logits t n hex
    by_contra hne
    have hlt := h3 0 (Nat.pos_of_ne_zero hne)
    exact absurd (h _ h1) (not_le.2 hlt)
  · apply best_label_all_low
    intro l hl
    by_contra hgt
    exact hex ⟨l, hl, not_le.1 hgt⟩

/-- The span rule in terms of the scores, for rows whose maximum lies above the
start value `-1e10` of the label loop. -/
theorem decode_span_of_maxima (ctx : ner_ctx) (n_labels : Int) (cls x y sep : ner_vocab_id)
    (ss : List ner_vocab_id) (logits : Nat → ℚ) (c : Nat)
    (hcls : ner_vocab_id_to_token ctx cls = cstr "[CLS]")
    (hsep : ner_vocab_id_to_token ctx sep = cstr "[SEP]")
    (hx : ¬ (ner_vocab_id_to_token ctx x = cstr "[CLS]" ∨
      ner_vocab_id_to_token ctx x = cstr "[SEP]"))
    (hxsub : is_subword (ner_vocab_id_to_token ctx x) = false)
    (hss : ∀ s ∈ ss, is_subword (ner_vocab_id_to_token ctx s) = true)
    (hc1 : 1 ≤ c) (hc4 : c ≤ 4)
    (hmx : 2 * c - 1 < n_labels.toNat ∧
      -10000000000 < logits (1 * n_labels.toNat + (2 * c - 1)) ∧
      ∀ l < n_labels.toNat, l ≠ 2 * c - 1 →
        logits (1 * n_labels.toNat + l) < logits (1 * n_labels.toNat + (2 * c - 1)))
    (hms : ∀ k < ss.length, ∃ b, (b = 2 * c - 1 ∨ b = 2 * c) ∧ b < n_labels.toNat ∧
      -10000000000 < logits ((2 + k) * n_labels.toNat + b) ∧
      ∀ l < n_labels.toNat, l ≠ b →
        logits ((2 + k) * n_labels.toNat + l) < logits ((2 + k) * n_labels.toNat + b))
    (hmy : ∀ l < n_labels.toNat, logits ((2 + ss.length) * n_labels.toNat + l) ≤
      logits ((2 + ss.length) * n_labels.toNat + 0)) :
    decode_entities ctx n_labels (cls :: x :: (ss ++ [y, sep])) logits = .ok
      [{ text := ner_vocab_id_to_token ctx x ++
            ss.flatMap (fun s => (ner_vocab_id_to_token ctx s).drop 2)
         label := class_names.getD c [] }] := by
  apply decode_span ctx n_labels cls x y sep ss logits c hcls hsep hx hxsub hss hc1 hc4
  · exact best_label_of_strict_max logits 1 _ _ hmx.1 hmx.2.1 hmx.2.2
  · intro k hk
    obtain ⟨b, hb, hbn, hgt, hmax⟩ := hms k hk
    have := best_label_of_strict_max logits (2 + k) _ b hbn hgt hmax
    rw [this]
    exact hb
  · exact best_label_zero_of_max_at_zero logits _ _ hmy

/-! ### Claims about the decoder -/

/-- C4 (the code departs from the claim): for `[CLS], John, ##son, works, [SEP]`
with the scores of `shifted_hot`, where the row of `John` has its only maximum at
begin-PER (3), the row of `##son` at inside-PER (4) and the row of `works` at
outside (0), the decoder emits no entity at all; with the same maxima at ordinary
levels (`one_hot`) it emits exactly `("Johnson", "PER")`. -/
theorem decode_misses_low_maxima :
    (∀ l < 9, l ≠ 3 → shifted_hot [0, 3, 4, 0, 0] (1 * 9 + l) <
        shifted_hot [0, 3, 4, 0, 0] (1 * 9 + 3)) ∧
      (∀ l < 9, l ≠ 4 → shifted_hot [0, 3, 4, 0, 0] (2 * 9 + l) <
        shifted_hot [0, 3, 4, 0, 0] (2 * 9 + 4)) ∧
      (∀ l < 9, l ≠ 0 → shifted_hot [0, 3, 4, 0, 0] (3 * 9 + l) <
        shifted_hot [0, 3, 4, 0, 0] (3 * 9 + 0)) ∧
      decode_entities john_ctx 9 [0, 2, 4, 3, 1] (shifted_hot [0, 3, 4, 0, 0]) = .ok [] ∧
      decode_entities john_ctx 9 [0, 2, 4, 3, 1] (one_hot [0, 3, 4, 0, 0]) =
        .ok [{ text := cstr "Johnson", label := cstr "PER" }] :=
  ⟨by decide, by decide, by decide, by decide, by decide⟩

/-- C5: the continuation rule of the decoding loop. For a non-special token with
non-zero label group `g`: if an entity of group `g` is open and the chosen label
is even (inside) or the token is a subword piece, the token is appended to the open
entity (after a space unless it is a subword piece); in every other case the open
entity, if any, is emitted and a new entity with the class name of `g` starts at
this token (for a label index inside the nine-entry name table). In particular a
non-subword token labelled begin-X after a non-subword token labelled begin-X
closes the first entity and opens a second one, and a non-subword token labelled
inside-X after begin-X extends the entity by a space and its text. -/
theorem decode_token_rule :
    (∀ (st : DecState) (token_str : CString) (best_label : Nat),
      ¬ (token_str = cstr "[CLS]" ∨ token_str = cstr "[SEP]") →
      label_type_of best_label ≠ 0 →
      ((st.last_label_type = label_type_of best_label ∧
          (best_label % 2 = 0 ∨ is_subword token_str = true)) →
        decode_token st token_str best_label = .ok
          { entities := st.entities
            current_entity :=
              { text := st.current_entity.text ++
                  ((if is_subword token_str then [] else cstr " ") ++
                    (if is_subword token_str then token_str.drop 2 else token_str))
                label := st.current_entity.label }
            last_label_type := label_type_of best_label }) ∧
      (¬ (st.last_label_type = label_type_of best_label ∧
          (best_label % 2 = 0 ∨ is_subword token_str = true)) →
        best_label < 9 →
        decode_token st token_str best_label = .ok
          { entities :=
              if st.last_label_type ≠ 0 then st.entities ++ [st.current_entity]
              else st.entities
            current_entity :=
              { text := if is_subword token_str then token_str.drop 2 else token_str
                label := class_names.getD (label_type_of best_label) [] }
            last_label_type := label_type_of best_label })) ∧
    (∀ (st : DecState) (a b : CString) (k : Nat),
      ¬ (a = cstr "[CLS]" ∨ a = cstr "[SEP]") → ¬ (b = cstr "[CLS]" ∨ b = cstr "[SEP]") →
      is_subword a = false → is_subword b = false → 1 ≤ k → k ≤ 4 →
      ∃ st1 st2, decode_token st a (2 * k - 1) = .ok st1 ∧
        decode_token st1 b (2 * k - 1) = .ok st2 ∧
        st1.current_entity = { text := a, label := class_names.getD k [] } ∧
        st2.entities = st1.entities ++ [{ text := a, label := class_names.getD k [] }] ∧
        st2.current_entity = { text := b, label := class_names.getD k [] } ∧
        st2.last_label_type = k) ∧
    (∀ (st : DecState) (a b : CString) (k : Nat),
      ¬ (a = cstr "[CLS]" ∨ a = cstr "[SEP]") → ¬ (b = cstr "[CLS]" ∨ b = cstr "[SEP]") →
      is_subword a = false → is_subword b = false → 1 ≤ k → k ≤ 4 →
      ∃ st1 st2, decode_token st a (2 * k - 1) = .ok st1 ∧
        decode_token st1 b (2 * k) = .ok st2 ∧
        st2.entities = st1.entities ∧
        st2.current_entity =
          { text := a ++ cstr " " ++ b, label := class_names.getD k [] } ∧
        st2.last_label_type = k) := by
  have rule1 : ∀ (st : DecState) (token_str : CString) (best_label : Nat),
      ¬ (token_str = cstr "[CLS]" ∨ token_str = cstr "[SEP]") →
      label_type_of best_label ≠ 0 →
      (st.last_label_type = label_type_of best_label ∧
          (best_label % 2 = 0 ∨ is_subword token_str = true)) →
        decode_token st token_str best_label = .ok
          { entities := st.entities
            current_entity :=
              { text := st.current_entity.text ++
                  ((if is_subword token_str then [] else cstr " ") ++
                    (if is_subword token_str then token_str.drop 2 else token_str))
                label := st.current_entity.label }
            last_label_type := label_type_of best_label } := by
    intro st token_str best_label hsp hg hcont
    unfold decode_token
    rw [if_neg hsp]
    simp only []
    rw [if_pos hg, if_pos ⟨hcont.1.symm, hcont.2⟩]
  have rule2 : ∀ (st : DecState) (token_str : CString) (best_label : Nat),
      ¬ (token_str = cstr "[CLS]" ∨ token_str = cstr "[SEP]") →
      label_type_of best_label ≠ 0 →
      ¬ (st.last_label_type = label_type_of best_label ∧
          (best_label % 2 = 0 ∨ is_subword token_str = true)) →
        best_label < 9 →
        decode_token st token_str best_label = .ok
          { entities :=
              if st.last_label_type ≠ 0 then st.entities ++ [st.current_entity]
              else st.entities
            current_entity :=
              { text := if is_subword token_str then token_str.drop 2 else token_str
                label := class_names.getD (label_type_of best_label) [] }
            last_label_type := label_type_of best_label } := by
    intro st token_str best_label hsp hg hcont hlt
    have hname : label_map[best_label]? =
        some (class_names.getD (label_type_of best_label) []) := by
      interval_cases best_label <;> rfl
    unfold decode_token
    rw [if_neg hsp]
    simp only []
    rw [if_pos hg, if_neg (fun h => hcont ⟨h.1.symm, h.2⟩)]
    simp only [hname]
  have hbegin : ∀ (st : DecState) (a : CString) (k : Nat),
      ¬ (a = cstr "[CLS]" ∨ a = cstr "[SEP]") → is_subword a = false → 1 ≤ k → k ≤ 4 →
      decode_token st a (2 * k - 1) = .ok
        { entities :=
            if st.last_label_type ≠ 0 then st.entities ++ [st.current_entity]
            else st.entities
          current_entity := { text := a, label := class_names.getD k [] }
          last_label_type := k } := by
    intro st a k hsp hsub h1 h4
    have h := rule2 st a (2 * k - 1) hsp (by rw [label_type_of_begin k h1]; omega)
      (by rw [hsub]; intro h; rcases h.2 with h2 | h2
          · omega
          · exact absurd h2 (by simp)) (by omega)
    rw [label_type_of_begin k h1, hsub] at h
    simpa using h
  refine ⟨fun st token_str best_label hsp hg =>
    ⟨rule1 st token_str best_label hsp hg, rule2 st token_str best_label hsp hg⟩, ?_, ?_⟩
  · intro st a b k ha hb hasub hbsub h1 h4
    refine ⟨_, _, hbegin st a k ha hasub h1 h4, hbegin _ b k hb hbsub h1 h4, rfl, ?_, rfl, rfl⟩
    simp only []
    rw [if_pos (by omega)]
  · intro st a b k ha hb hasub hbsub h1 h4
    have h := rule1
      { entities :=
          if st.last_label_type ≠ 0 then st.entities ++ [st.current_entity] else st.entities
        current_entity := { text := a, label := class_names.getD k [] }
        last_label_type := k } b (2 * k) hb (by rw [label_type_of_inside k h1]; omega)
      ⟨by rw [label_type_of_inside k h1], Or.inl (by omega)⟩
    rw [label_type_of_inside k h1, hbsub] at h
    refine ⟨_, _, hbegin st a k ha hasub h1 h4, h, rfl, ?_, rfl⟩
    simp

set_option maxRecDepth 8000 in
theorem decode_token_rule_witness :
    decode_token
        { entities := []
          current_entity := { text := cstr "New", label := cstr "LOC" }
          last_label_type := 4 } (cstr "York") 8 = .ok
      { entities := []
        current_entity := { text := cstr "New York", label := cstr "LOC" }
        last_label_type := 4 } :=
  (decode_token_rule.1 _ (cstr "York") 8 (by decide) (by decide)).1 ⟨by decide, Or.inl (by decide)⟩

/-! ### Loader and model replacement -/

theorem load_missing_file (lib : ggml_abi) : ner_load_from_file lib none = .ok none := rfl

/-- C7 (counterexample): with `demo_ctx` active, `LoadModel` of a path that cannot
be opened, or of a file with a wrong magic, leaves no model active and has passed
the previously active context to `ner_free`. -/
theorem LoadModel_failure_frees_active :
    LoadModel demo_abi (fun _ => none) { global_state := { ctx := some demo_ctx } }
        (cstr "missing.bin") =
      .ok { global_state := { ctx := none, model_path := cstr "missing.bin" },
            freed := [demo_ctx] } ∧
    LoadModel demo_abi (fun _ => some [1, 2, 3, 4, 5]) { global_state := { ctx := some demo_ctx } }
        (cstr "bad.bin") =
      .ok { global_state := { ctx := none, model_path := cstr "bad.bin" },
            freed := [demo_ctx] } :=
  ⟨by decide, by decide⟩

/-- C7 (amended): whenever a model is active and `ner_load_from_file` fails for the
path, after `LoadModel(path)` no model is active: the previously active context
has been released with `ner_free` before the load was tried, the global context is
null and `model_path` holds the new path. -/
theorem LoadModel_failure_leaves_none (lib : ggml_abi) (fs : CString → Option (List CChar))
    (p : Process) (path : CString) (old : ner_ctx)
    (hactive : p.global_state.ctx = some old)
    (hfail : ner_load_from_file lib (fs (c_str path)) = .ok none) :
    LoadModel lib fs p path =
      .ok { global_state := { ctx := none, model_path := path }, freed := old :: p.freed } := by
  unfold LoadModel
  rw [hfail, hactive]

theorem LoadModel_failure_leaves_none_witness :
    LoadModel demo_abi (fun _ => none)
        { global_state := { ctx := some john_ctx, model_path := cstr "a.bin" } } (cstr "b.bin") =
      .ok { global_state := { ctx := none, model_path := cstr "b.bin" }, freed := [john_ctx] } :=
  LoadModel_failure_leaves_none demo_abi (fun _ => none)
    { global_state := { ctx := some john_ctx, model_path := cstr "a.bin" } } (cstr "b.bin")
    john_ctx rfl rfl

/-! ### Loader: reading past the end of the stream -/

theorem read_eof_sticky (fin : ifstream) (n : Nat) (h : fin.eofbit = true) :
    (fin.read n).2.eofbit = true ∧ (fin.read n).1 = [] := by
  unfold ifstream.read
  simp [h]

/-- Reading keeps the stream either at end of file, or good with the position
advanced by the full count inside the file. -/
theorem read_inv (fin : ifstream) (n p : Nat)
    (h : fin.eofbit = true ∨ (fin.failbit = false ∧ fin.pos = p ∧ p ≤ fin.bytes.length)) :
    (fin.read n).2.bytes = fin.bytes ∧
      ((fin.read n).2.eofbit = true ∨
        ((fin.read n).2.failbit = false ∧ (fin.read n).2.pos = p + n ∧
          p + n ≤ fin.bytes.length)) := by
  have hb : (fin.read n).2.bytes = fin.bytes := by
    unfold ifstream.read
    split <;> rfl
  refine ⟨hb, ?_⟩
  unfold ifstream.read
  rcases h with h | ⟨h1, h2, h3⟩
  · simp [h]
  · cases he : fin.eofbit
    · have hg : ((fin.bytes.drop fin.pos).take n).length = min n (fin.bytes.length - fin.pos) := by
        simp [List.length_take, List.length_drop]
      simp only [he, h1, Bool.or_self, Bool.false_eq_true, if_false, hg, decide_eq_true_eq,
        decide_eq_false_iff_not]
      by_cases hs : n ≤ fin.bytes.length - fin.pos
      · right
        rw [Nat.min_eq_left hs]
        omega
      · left
        rw [Nat.min_eq_right (by omega)]
        omega
    · simp [he]

theorem read_i32_stream (fin : ifstream) (old : Int) : (read_i32 fin old).2 = (fin.read 4).2 := rfl

theorem read_u32_uninit_stream (fin : ifstream) :
    (read_u32_uninit fin).2 = (fin.read 4).2 := rfl

/-- After the header the stream is at end of file when fewer than 32 bytes were
available, and the stream is not otherwise changed. -/
theorem read_header_eof (fin : ifstream) (p : Nat)
    (h : fin.eofbit = true ∨ (fin.failbit = false ∧ fin.pos = p ∧ p ≤ fin.bytes.length))
    (hshort : fin.bytes.length < p + 32) :
    (read_header fin).2.eofbit = true := by
  unfold read_header
  simp only [read_i32_stream]
  have h1 := read_inv fin 4 p h
  have h2 := read_inv (fin.read 4).2 4 (p + 4) (h1.2.imp id (fun x => ⟨x.1, x.2.1, by rw [h1.1]; exact x.2.2⟩))
  have h3 := read_inv _ 4 (p + 4 + 4) (h2.2.imp id (fun x => ⟨x.1, x.2.1, by rw [h2.1]; exact x.2.2⟩))
  have h4 := read_inv _ 4 (p + 4 + 4 + 4) (h3.2.imp id (fun x => ⟨x.1, x.2.1, by rw [h3.1]; exact x.2.2⟩))
  have h5 := read_inv _ 4 (p + 4 + 4 + 4 + 4) (h4.2.imp id (fun x => ⟨x.1, x.2.1, by rw [h4.1]; exact x.2.2⟩))
  have h6 := read_inv _ 4 (p + 4 + 4 + 4 + 4 + 4) (h5.2.imp id (fun x => ⟨x.1, x.2.1, by rw [h5.1]; exact x.2.2⟩))
  have h7 := read_inv _ 4 (p + 4 + 4 + 4 + 4 + 4 + 4) (h6.2.imp id (fun x => ⟨x.1, x.2.1, by rw [h6.1]; exact x.2.2⟩))
  have h8 := read_inv _ 4 (p + 4 + 4 + 4 + 4 + 4 + 4 + 4) (h7.2.imp id (fun x => ⟨x.1, x.2.1, by rw [h7.1]; exact x.2.2⟩))
  rcases h8.2 with h9 | ⟨_, _, h9⟩
  · exact h9
  · rw [h7.1, h6.1, h5.1, h4.1, h3.1, h2.1, h1.1] at h9
    omega

/-- At end of file the tensor loop stops in its first iteration. -/
theorem read_tensors_eof (lib : ggml_abi) (fuel : Nat) (fin : ifstream)
    (tensors : StdMap CString ggml_tensor) (h : fin.eofbit = true) :
    read_tensors lib (fuel + 1) fin tensors = .ok tensors := by
  unfold read_tensors
  simp only [read_u32_uninit_stream]
  have h1 := (read_eof_sticky fin 4 h).1
  have h2 := (read_eof_sticky _ 4 h1).1
  have h3 := (read_eof_sticky _ 4 h2).1
  rw [if_pos h3]

theorem read_magic (rest : List CChar) :
    read_u32_uninit { bytes := 0x6c :: 0x6d :: 0x67 :: 0x67 :: rest } =
      (some 0x67676d6c,
        { bytes := 0x6c :: 0x6d :: 0x67 :: 0x67 :: rest, pos := 4, eofbit := false,
          failbit := false }) := by
  simp [read_u32_uninit, ifstream.read, le_value]
  rfl

theorem read_header_n_vocab_zero (rest : List CChar) :
    (read_header
      { bytes := 0x6c :: 0x6d :: 0x67 :: 0x67 :: 0 :: 0 :: 0 :: 0 :: rest
        pos := 4
        eofbit := false
        failbit := false }).1.n_vocab = 0 := by
  simp [read_header, read_i32, ifstream.read, le_value, le_bytes, to_int32]

/-- The bytes `67 67 6d 6c` that `default_model.hpp` marks as the magic are read
as `0x6c6d6767` on a little-endian host and rejected by the magic check. -/
theorem default_model_data_rejected :
    ner_load_from_file demo_abi (some [0x67, 0x67, 0x6d, 0x6c, 0, 0, 0, 0]) = .ok none := by
  decide

/-- C8 (counterexample): the 8-byte stream of the magic (as stored by a
little-endian writer) followed by four zero bytes ends right after `n_vocab`, yet
`ner_load_from_file` returns a context: `n_vocab = 0`, the seven fields that
could not be read keep their defaults, and the vocabulary is empty. -/
theorem load_truncated_header_returns_context :
    (ner_load_from_file demo_abi (some [0x6c, 0x6d, 0x67, 0x67, 0, 0, 0, 0])).map
        (Option.map (fun c => (c.model.hparams, c.vocab))) =
      .ok (some ({ n_vocab := 0, n_max_tokens := 512, n_embd := 256, n_intermediate := 1536,
                   n_head := 12, n_layer := 6, n_labels := 9, f16 := 1 }, {})) := by
  decide

/-- A read at end of file, or at a position at or past the end, extracts nothing. -/
theorem read_nothing (fin : ifstream) (n : Nat)
    (h : fin.eofbit = true ∨ fin.bytes.length ≤ fin.pos) : (fin.read n).1 = [] := by
  unfold ifstream.read
  rcases h with h | h
  · simp [h]
  · split
    · rfl
    · simp [List.drop_eq_nil_of_le h]

/-- When at most 20 bytes are available for the header, `n_layer` keeps its default
value 6. -/
theorem read_header_n_layer_default (fin : ifstream) (p : Nat)
    (h : fin.eofbit = true ∨ (fin.failbit = false ∧ fin.pos = p ∧ p ≤ fin.bytes.length))
    (hshort : fin.bytes.length ≤ p + 20) :
    (read_header fin).1.n_layer = 6 := by
  have h1 := read_inv fin 4 p h
  have h2 := read_inv (fin.read 4).2 4 (p + 4)
    (h1.2.imp id (fun x => ⟨x.1, x.2.1, by rw [h1.1]; exact x.2.2⟩))
  have h3 := read_inv _ 4 (p + 4 + 4)
    (h2.2.imp id (fun x => ⟨x.1, x.2.1, by rw [h2.1]; exact x.2.2⟩))
  have h4 := read_inv _ 4 (p + 4 + 4 + 4)
    (h3.2.imp id (fun x => ⟨x.1, x.2.1, by rw [h3.1]; exact x.2.2⟩))
  have h5 := read_inv _ 4 (p + 4 + 4 + 4 + 4)
    (h4.2.imp id (fun x => ⟨x.1, x.2.1, by rw [h4.1]; exact x.2.2⟩))
  have hnone := read_nothing _ 4 (h5.2.imp id (fun x => by
    rw [h5.1, h4.1, h3.1, h2.1, h1.1, x.2.1]
    omega))
  unfold read_header
  simp only [read_i32_stream]
  show (read_i32 _ 6).1 = 6
  unfold read_i32
  simp only [hnone]
  decide

/-- C8 (amended): for every byte stream that starts with the magic,
`ner_load_from_file` does not return the null context, whether or not the stream
ends early; and when the stream ends inside the header after a complete `n_vocab`
field of 0 and before the `n_layer` field, a context with `n_vocab = 0` and an
empty vocabulary is returned. -/
theorem load_after_magic_never_null (lib : ggml_abi) (rest : List CChar) :
    ner_load_from_file lib (some (0x6c :: 0x6d :: 0x67 :: 0x67 :: rest)) ≠ .ok none ∧
      (rest.length ≤ 16 →
        ∃ ctx, ner_load_from_file lib
            (some (0x6c :: 0x6d :: 0x67 :: 0x67 :: 0 :: 0 :: 0 :: 0 :: rest)) = .ok (some ctx) ∧
          ctx.vocab = {} ∧ ctx.model.hparams.n_vocab = 0) := by
  constructor
  · unfold ner_load_from_file
    simp only [read_magic]
    rw [if_neg (by decide)]
    split
    · simp
    · split
      · simp
      · split
        · simp
        · simp
  · intro hshort
    have heof := read_header_eof
      { bytes := 0x6c :: 0x6d :: 0x67 :: 0x67 :: 0 :: 0 :: 0 :: 0 :: rest, pos := 4,
        eofbit := false, failbit := false } 4 (Or.inr ⟨rfl, rfl, by simp⟩)
      (by simp only [List.length_cons]; omega)
    have hnl := read_header_n_layer_default
      { bytes := 0x6c :: 0x6d :: 0x67 :: 0x67 :: 0 :: 0 :: 0 :: 0 :: rest, pos := 4,
        eofbit := false, failbit := false } 4 (Or.inr ⟨rfl, rfl, by simp⟩)
      (by simp only [List.length_cons]; omega)
    have hnv := read_header_n_vocab_zero rest
    unfold ner_load_from_file
    simp only [read_magic]
    rw [if_neg (by decide)]
    simp only [hnv, Int.toNat_zero, read_vocab]
    rw [if_neg (by rw [hnl]; decide), read_tensors_eof lib _ _ _ heof]
    exact ⟨_, rfl, rfl, hnv⟩

theorem load_after_magic_never_null_witness :
    ∃ ctx, ner_load_from_file demo_abi
        (some (0x6c :: 0x6d :: 0x67 :: 0x67 :: 0 :: 0 :: 0 :: 0 :: [2, 0])) = .ok (some ctx) ∧
      ctx.vocab = {} ∧ ctx.model.hparams.n_vocab = 0 :=
  (load_after_magic_never_null demo_abi [2, 0]).2 (by decide)

/-! ### Scalar function: exceptions in the row loop -/

/-- A row that throws makes the row loop throw, whatever rows come before and
after it. -/
theorem rows_loop_error (ctx : ner_ctx) (ner_eval : ner_ctx → List ner_vocab_id → Nat → ℚ)
    (truncate_opt : Bool) (text : CString) (e : Fault)
    (hrow : ner_row ctx ner_eval truncate_opt text = .error e) :
    ∀ (rows : List (Option CString)) (i : Nat), rows[i]? = some (some text) →
      (∃ e1, rows_loop ctx ner_eval truncate_opt rows = .error e1) ∧
        ∀ rs0, rows_loop ctx ner_eval truncate_opt (rows.take i) = .ok rs0 →
          rows_loop ctx ner_eval truncate_opt rows = .error e := by
  intro rows
  induction rows with
  | nil => intro i h; simp at h
  | cons r rest ih =>
    intro i h
    cases i with
    | zero =>
      simp only [List.getElem?_cons_zero, Option.some.injEq] at h
      subst h
      simp [rows_loop, hrow]
    | succ i =>
      simp only [List.getElem?_cons_succ] at h
      obtain ⟨⟨e1, he1⟩, h2⟩ := ih i h
      cases r with
      | none =>
        constructor
        · exact ⟨e1, by simp [rows_loop, he1]⟩
        · intro rs0 h0
          simp only [List.take_succ_cons, rows_loop] at h0
          cases hpre : rows_loop ctx ner_eval truncate_opt (rest.take i) with
          | error e2 => simp [hpre] at h0
          | ok rs1 => simp [rows_loop, h2 rs1 hpre]
      | some t =>
        cases ht : ner_row ctx ner_eval truncate_opt t with
        | error e2 =>
          constructor
          · exact ⟨e2, by simp [rows_loop, ht]⟩
          · intro rs0 h0
            simp [List.take_succ_cons, rows_loop, ht] at h0
        | ok ents =>
          constructor
          · exact ⟨e1, by simp [rows_loop, ht, he1]⟩
          · intro rs0 h0
            simp only [List.take_succ_cons, rows_loop, ht] at h0
            cases hpre : rows_loop ctx ner_eval truncate_opt (rest.take i) with
            | error e2 => simp [hpre] at h0
            | ok rs1 => simp [rows_loop, ht, h2 rs1 hpre]

/-- C10 (counterexample): with `n_max_tokens = 4` and truncate=false, the batch
`["John", "John works"]` throws the input error for the whole call because the
second row fills the capacity; the first row, which evaluated alone yields
`[("John", "PER")]` and stays below the limit, produces no result. -/
theorem batch_error_aborts_sibling :
    NerScalarFun { ctx := some small_ctx } demo_eval [some (cstr "John"), some (cstr "John works")]
        (some [some false, some false]) = .error .invalid_input ∧
      NerScalarFun { ctx := some small_ctx } demo_eval [some (cstr "John")] (some [some false]) =
        .ok [some [{ text := cstr "John", label := cstr "PER" }]] ∧
      ner_tokenize small_ctx (cstr "John") 4 = .ok [0, 2, 1] ∧
      ner_tokenize small_ctx (cstr "John works") 4 = .ok [0, 2, 3, 1] :=
  ⟨by decide, by decide, by decide, by decide⟩

/-- C10 (amended): with truncate=false and a model loaded, if the tokenization of
some row reaches the capacity limit, the call as a whole ends with an exception and
no row of the batch gets a result; when the rows before it evaluate without an
exception (and `n_max_tokens` is at least 2) the exception is the input error of
the first such row. -/
theorem batch_overflow_aborts_call (ctx : ner_ctx)
    (ner_eval : ner_ctx → List ner_vocab_id → Nat → ℚ) (path : CString)
    (rows : List (Option CString)) (trunc : Option (List (Option Bool)))
    (i : Nat) (text : CString) (tokens : List ner_vocab_id)
    (htrunc : truncate_opt_of trunc = false)
    (hrow : rows[i]? = some (some text))
    (htok : ner_tokenize ctx (c_str text) (ner_n_max_tokens ctx) = .ok tokens)
    (hfull : (tokens.length : Int) ≥ ner_n_max_tokens ctx) :
    (∃ e, NerScalarFun { ctx := some ctx, model_path := path } ner_eval rows trunc = .error e) ∧
      (2 ≤ ner_n_max_tokens ctx →
        ∀ rs0, NerScalarFun { ctx := some ctx, model_path := path } ner_eval (rows.take i) trunc =
            .ok rs0 →
          NerScalarFun { ctx := some ctx, model_path := path } ner_eval rows trunc =
            .error .invalid_input) := by
  have hrow_err : ∃ e, ner_row ctx ner_eval false text = .error e ∧
      (2 ≤ ner_n_max_tokens ctx → e = .invalid_input) := by
    unfold ner_row
    rw [htok]
    simp only []
    by_cases hgt : (tokens.length : Int) > ner_n_max_tokens ctx
    · refine ⟨.undefined, by rw [if_pos hgt], ?_⟩
      intro h2
      have := ner_tokenize_length_le ctx _ _ _ h2 htok
      omega
    · refine ⟨.invalid_input, ?_, fun _ => rfl⟩
      rw [if_neg hgt]
      simp [hfull]
  obtain ⟨e, he, hinv⟩ := hrow_err
  have key := rows_loop_error ctx ner_eval false text e he rows i hrow
  unfold NerScalarFun
  simp only [htrunc]
  by_cases hneg : ner_n_max_tokens ctx < 0 ∨ ner_n_max_tokens ctx * ner_n_labels ctx < 0
  · simp only [hneg, if_true]
    exact ⟨⟨_, rfl⟩, fun _ rs0 h0 => by simp at h0⟩
  · simp only [hneg, if_false]
    refine ⟨key.1, fun h2 rs0 h0 => ?_⟩
    rw [key.2 rs0 h0, hinv h2]

theorem batch_overflow_aborts_call_witness :
    NerScalarFun { ctx := some small_ctx, model_path := [] } demo_eval
        [none, some (cstr "John"), some (cstr "John works"), some (cstr "works")]
        (some [some false]) = .error .invalid_input :=
  (batch_overflow_aborts_call small_ctx demo_eval []
    [none, some (cstr "John"), some (cstr "John works"), some (cstr "works")] (some [some false])
    2 (cstr "John works") [0, 2, 3, 1] (by decide) (by decide) (by decide) (by decide)).2
    (by decide) [none, some [{ text := cstr "John", label := cstr "PER" }]] (by decide)

/-! ### Scalar function: null rows -/

/-- When the row loop returns, the result row of every null input row is null. -/
theorem rows_loop_null (ctx : ner_ctx) (ner_eval : ner_ctx → List ner_vocab_id → Nat → ℚ)
    (truncate_opt : Bool) :
    ∀ (rows : List (Option CString)) (rs : List (Option (List Entity))) (i : Nat),
      rows_loop ctx ner_eval truncate_opt rows = .ok rs → rows[i]? = some none →
      rs[i]? = some none := by
  intro rows
  induction rows with
  | nil => intro rs i _ h; simp at h
  | cons r rest ih =>
    intro rs i hok hrow
    cases r with
    | none =>
      simp only [rows_loop] at hok
      cases hrest : rows_loop ctx ner_eval truncate_opt rest with
      | error e => simp [hrest] at hok
      | ok rs1 =>
        simp only [hrest, Except.ok.injEq] at hok
        subst hok
        cases i with
        | zero => simp
        | succ i =>
          simp only [List.getElem?_cons_succ] at hrow ⊢
          exact ih rs1 i hrest hrow
    | some t =>
      simp only [rows_loop] at hok
      cases ht : ner_row ctx ner_eval truncate_opt t with
      | error e => simp [ht] at hok
      | ok ents =>
        cases hrest : rows_loop ctx ner_eval truncate_opt rest with
        | error e => simp [ht, hrest] at hok
        | ok rs1 =>
          simp only [ht, hrest, Except.ok.injEq] at hok
          subst hok
          cases i with
          | zero => simp at hrow
          | succ i =>
            simp only [List.getElem?_cons_succ] at hrow ⊢
            exact ih rs1 i hrest hrow

/-- C11 (counterexample): with no model loaded a null input row yields an empty
list, not a null row. -/
theorem null_row_without_model_is_empty_list :
    NerScalarFun { ctx := none } demo_eval [none, some (cstr "John")] none =
      .ok [some [], some []] := by
  decide

/-- C11 (amended): when a model is loaded and the call returns, the result at every
row whose input text is null is null; when no model is loaded every row of the
result, null input rows included, is the empty list. -/
theorem null_rows_with_model (ner_eval : ner_ctx → List ner_vocab_id → Nat → ℚ)
    (rows : List (Option CString)) (trunc : Option (List (Option Bool))) (path : CString) :
    (∀ (ctx : ner_ctx) (rs : List (Option (List Entity))) (i : Nat),
      NerScalarFun { ctx := some ctx, model_path := path } ner_eval rows trunc = .ok rs →
      rows[i]? = some none → rs[i]? = some none) ∧
    NerScalarFun { ctx := none, model_path := path } ner_eval rows trunc =
      .ok (rows.map (fun _ => some [])) := by
  refine ⟨?_, rfl⟩
  intro ctx rs i hok hrow
  unfold NerScalarFun at hok
  simp only at hok
  split at hok
  · simp at hok
  · exact rows_loop_null ctx ner_eval _ rows rs i hok hrow

theorem null_rows_with_model_witness :
    NerScalarFun { ctx := some small_ctx, model_path := [] } demo_eval
        [none, some (cstr "John")] none =
      .ok [none, some [{ text := cstr "John", label := cstr "PER" }]] ∧
    ([none, some [{ text := cstr "John", label := cstr "PER" }]] :
      List (Option (List Entity)))[0]? = some none :=
  ⟨by decide,
    (null_rows_with_model demo_eval [none, some (cstr "John")] none []).1 small_ctx
      [none, some [{ text := cstr "John", label := cstr "PER" }]] 0 (by decide) (by decide)⟩

/-! ### Tokenizer: markers, count and truncation -/

/-- C12: for a context that holds the two markers and a capacity of at least 2, the
tokenizer writes the `[CLS]` id first and the `[SEP]` id last, the count is 2 plus
the number of word tokens between them, and these are at most `capacity - 2`. -/
theorem tokenize_markers_and_count (ctx : ner_ctx) (text : CString) (n_max_tokens : Int)
    (cls sep : ner_vocab_id)
    (hcls : ctx.vocab.token_to_id.find (cstr "[CLS]") = some cls)
    (hsep : ctx.vocab.token_to_id.find (cstr "[SEP]") = some sep)
    (hcap : 2 ≤ n_max_tokens) :
    ∃ (tokens word_tokens : List ner_vocab_id),
      ner_tokenize ctx text n_max_tokens = .ok tokens ∧
      tokens = cls :: word_tokens ++ [sep] ∧
      tokens[0]? = some cls ∧ tokens[tokens.length - 1]? = some sep ∧
      tokens.length = 2 + word_tokens.length ∧
      (word_tokens.length : Int) ≤ n_max_tokens - 2 := by
  refine ⟨_, (seg_words ctx.vocab (split_words text)).take (n_max_tokens - 2).toNat,
    ner_tokenize_eq ctx text n_max_tokens cls sep hcls hsep, rfl, by simp, ?_, ?_, ?_⟩
  · rw [show (cls :: List.take (n_max_tokens - 2).toNat (seg_words ctx.vocab (split_words text))
        ++ [sep]) = (cls :: List.take (n_max_tokens - 2).toNat
          (seg_words ctx.vocab (split_words text))) ++ [sep] from rfl]
    rw [List.getElem?_append_right (by simp)]
    simp
  · simp only [List.length_cons, List.length_append, List.length_singleton, List.length_nil]
    omega
  · simp only [List.length_take]
    omega

theorem tokenize_markers_and_count_witness :
    ∃ (tokens word_tokens : List ner_vocab_id),
      ner_tokenize demo_ctx (cstr "hello world hello") 4 = .ok tokens ∧
      tokens = 0 :: word_tokens ++ [1] ∧
      tokens[0]? = some 0 ∧ tokens[tokens.length - 1]? = some 1 ∧
      tokens.length = 2 + word_tokens.length ∧
      (word_tokens.length : Int) ≤ 4 - 2 :=
  tokenize_markers_and_count demo_ctx (cstr "hello world hello") 4 0 1 (by decide) (by decide)
    (by decide)

/-- C18: for capacities `2 ≤ c ≤ c1` the word tokens written with capacity `c` are
the first `min (c - 2) m` word tokens written with capacity `c1`, `m` being their
number: truncation cuts a suffix and keeps the rest unchanged. -/
theorem tokenize_shorter_capacity_initial_segment (ctx : ner_ctx) (text : CString) (c c1 : Int)
    (cls sep : ner_vocab_id)
    (hcls : ctx.vocab.token_to_id.find (cstr "[CLS]") = some cls)
    (hsep : ctx.vocab.token_to_id.find (cstr "[SEP]") = some sep)
    (_hc : 2 ≤ c) (_hle : c ≤ c1) :
    ∃ (w w1 : List ner_vocab_id),
      ner_tokenize ctx text c = .ok (cls :: w ++ [sep]) ∧
      ner_tokenize ctx text c1 = .ok (cls :: w1 ++ [sep]) ∧
      w = w1.take (min (c - 2).toNat w1.length) := by
  refine ⟨_, _, ner_tokenize_eq ctx text c cls sep hcls hsep,
    ner_tokenize_eq ctx text c1 cls sep hcls hsep, ?_⟩
  rw [List.take_take, List.take_eq_take]
  simp only [List.length_take]
  omega

theorem tokenize_shorter_capacity_initial_segment_witness :
    ∃ (w w1 : List ner_vocab_id),
      ner_tokenize demo_ctx (cstr "hello world hello") 3 = .ok (0 :: w ++ [1]) ∧
      ner_tokenize demo_ctx (cstr "hello world hello") 4 = .ok (0 :: w1 ++ [1]) ∧
      w = w1.take (min ((3 : Int) - 2).toNat w1.length) :=
  tokenize_shorter_capacity_initial_segment demo_ctx (cstr "hello world hello") 3 4 0 1
    (by decide) (by decide) (by decide) (by decide)

/-! ### Decoder: the label table -/

/-- C17: for every label index `i` in 1..8 the display name `label_map[i]` is the
name at position `(i + 1) / 2` of the class list `[O, MISC, PER, ORG, LOC]` and the
decoder computes the group `(i + 1) / 2`; so the begin index `2k - 1` and the inside
index `2k` of class `k` share the name and the group `k`; `label_map[0]` is `O` with
group 0. -/
theorem label_map_groups :
    (∀ i : Nat, 1 ≤ i → i ≤ 8 →
      label_map[i]? =
          [cstr "O", cstr "MISC", cstr "PER", cstr "ORG", cstr "LOC"][(i + 1) / 2]? ∧
        label_type_of i = (i + 1) / 2) ∧
    (∀ k : Nat, 1 ≤ k → k ≤ 4 →
      label_map[2 * k - 1]? = label_map[2 * k]? ∧
        label_type_of (2 * k - 1) = k ∧ label_type_of (2 * k) = k) ∧
    label_map[0]? = some (cstr "O") ∧ label_type_of 0 = 0 := by
  refine ⟨?_, ?_, rfl, rfl⟩
  · intro i h1 h8
    interval_cases i <;> exact ⟨rfl, rfl⟩
  · intro k h1 h4
    interval_cases k <;> exact ⟨rfl, rfl, rfl⟩

theorem label_map_groups_witness :
    label_map[5]? = [cstr "O", cstr "MISC", cstr "PER", cstr "ORG", cstr "LOC"][(5 + 1) / 2]? ∧
      label_type_of 5 = (5 + 1) / 2 :=
  label_map_groups.1 5 (by decide) (by decide)

/-! ### Tokenizer: words without a whole-word prefix -/

theorem match_longest_none (tm : StdMap CString ner_vocab_id) (word : CString) (i : Nat) :
    ∀ j : Nat, (∀ j2 : Nat, i < j2 → j2 ≤ j → tm.find (substr word i (j2 - i)) = none) →
      match_longest tm word i j = none := by
  intro j
  induction j with
  | zero => intro _; rfl
  | succ j ih =>
    intro h
    unfold match_longest
    by_cases hgt : j + 1 > i
    · rw [if_pos hgt, h (j + 1) hgt (le_refl _)]
      exact ih (fun j2 h1 h2 => h j2 h1 (by omega))
    · rw [if_neg hgt]

/-- The id returned by the longest-match loop is the one stored in the table under
the matched substring. -/
theorem match_longest_value (tm : StdMap CString ner_vocab_id) (word : CString) (i : Nat) :
    ∀ (j : Nat) (r : Nat × ner_vocab_id), match_longest tm word i j = some r →
      tm.find (substr word i (r.1 - i)) = some r.2 := by
  intro j
  induction j with
  | zero => intro r h; simp [match_longest] at h
  | succ j ih =>
    intro r h
    unfold match_longest at h
    split at h
    · split at h
      · rename_i id hfind
        simp only [Option.some.injEq] at h
        subst h
        exact hfind
      · exact ih r h
    · simp at h

/-- Once the word loop has switched to the subword table, every id it emits is a
value of that table. -/
theorem seg_word_sub (vocab : ner_vocab) (word : CString) :
    ∀ (fuel i : Nat) (id : ner_vocab_id), id ∈ seg_word vocab word fuel i true →
      ∃ s, vocab.subword_token_to_id.find s = some id := by
  intro fuel
  induction fuel with
  | zero => intro i id h; simp [seg_word] at h
  | succ fuel ih =>
    intro i id h
    unfold seg_word at h
    split at h
    · simp only [if_true] at h
      split at h
      · rename_i j id1 hm
        rcases List.mem_cons.1 h with h1 | h1
        · subst h1
          exact ⟨_, match_longest_value _ _ _ _ _ hm⟩
        · exact ih j id h1
      · exact ih (i + 1) id h
    · simp at h

theorem seg_word_no_whole_prefix (vocab : ner_vocab) (word : CString)
    (hnone : ∀ j, 1 ≤ j → j ≤ word.length → vocab.token_to_id.find (word.take j) = none) :
    ∀ (fuel : Nat) (id : ner_vocab_id), id ∈ seg_word vocab word fuel 0 false →
      ∃ s, vocab.subword_token_to_id.find s = some id := by
  intro fuel id h
  cases fuel with
  | zero => simp [seg_word] at h
  | succ fuel =>
    unfold seg_word at h
    split at h
    · have hm : match_longest vocab.token_to_id word 0 word.length = none := by
        apply match_longest_none
        intro j2 h1 h2
        have := hnone j2 h1 h2
        simpa [substr] using this
      simp only [Bool.false_eq_true, if_false, hm] at h
      exact seg_word_sub vocab word fuel 1 id h
    · simp at h

/-- C19: for a word none of whose non-empty prefixes is a key of the whole-word
table, every id the word loop of the tokenizer emits for it, at any capacity and
after any earlier output, is a value of the subword table (in a context returned
by the loader: the position of the vocabulary entry `##s` for its key `s`); and
with an empty subword pool the text made of such a word yields the two markers
only. -/
theorem no_whole_prefix_only_subword_tokens (ctx : ner_ctx) (word : CString)
    (hnone : ∀ j, 1 ≤ j → j ≤ word.length → ctx.vocab.token_to_id.find (word.take j) = none) :
    (∀ (n_max_tokens : Int) (tokens : List ner_vocab_id),
      ∃ w, word_loop ctx.vocab word n_max_tokens word.length 0 false tokens = some (tokens ++ w) ∧
        ∀ id ∈ w, ∃ s, ctx.vocab.subword_token_to_id.find s = some id ∧
          ∀ lib file, ner_load_from_file lib file = .ok (some ctx) →
            ctx.vocab._id_to_subword_token.find id = some (cstr "##" ++ s)) ∧
    (∀ (n_max_tokens : Int) (cls sep : ner_vocab_id),
      ctx.vocab.token_to_id.find (cstr "[CLS]") = some cls →
      ctx.vocab.token_to_id.find (cstr "[SEP]") = some sep →
      (∀ c ∈ word, isspace c = false) → ctx.vocab.subword_token_to_id = [] →
      ner_tokenize ctx word n_max_tokens = .ok [cls, sep]) := by
  constructor
  · intro n_max_tokens tokens
    refine ⟨_, word_loop_eq ctx.vocab word n_max_tokens word.length 0 false tokens (by omega), ?_⟩
    intro id hid
    obtain ⟨s, hs⟩ := seg_word_no_whole_prefix ctx.vocab word hnone _ id (List.mem_of_mem_take hid)
    exact ⟨s, hs, fun lib file hload => loaded_subword_id lib file ctx hload s id hs⟩
  · intro n_max_tokens cls sep hcls hsep hword hempty
    rw [ner_tokenize_eq ctx word n_max_tokens cls sep hcls hsep]
    have hseg : seg_words ctx.vocab (split_words word) = [] := by
      by_cases hw : word = []
      · subst hw; rfl
      · rw [split_words_single word hw hword]
        simp only [seg_words, List.flatMap_cons, List.flatMap_nil, List.append_nil]
        apply List.eq_nil_iff_forall_not_mem.2
        intro id hid
        obtain ⟨s, hs⟩ := seg_word_no_whole_prefix ctx.vocab word hnone _ id hid
        rw [hempty] at hs
        simp [StdMap.find] at hs
    rw [hseg]
    simp

set_option maxRecDepth 100000 in
theorem no_whole_prefix_only_subword_tokens_witness :
    hello_ctx.vocab.token_to_id.find (cstr "hello") = some 2 ∧
      ner_tokenize hello_ctx (cstr "xhello") 512 = .ok [0, 1] :=
  ⟨by decide,
    (no_whole_prefix_only_subword_tokens hello_ctx (cstr "xhello") (by decide)).2 512 0 1
      (by decide) (by decide) (by decide) (by decide)⟩

/-! ### Scalar function: truncated input with truncate=false -/

/-- When the flag of the call, the entry of row 0 of the truncate column (lines
47-48), is false and `n_max_tokens ≥ 2`: if the segmentation of the text without a
capacity limit (a run whose capacity `big` is not reached) has more than
`n_max_tokens - 2` word tokens, then the tokenizer returns exactly `n_max_tokens`
ids, the row raises the input error, and so does `NerScalarFun` for every batch in
which the rows before this one evaluate without an exception. The entry of the
truncate column at the row itself plays no part. -/
theorem truncated_row_raises_input_error (ctx : ner_ctx)
    (ner_eval : ner_ctx → List ner_vocab_id → Nat → ℚ) (text : CString) (big : Int)
    (full : List ner_vocab_id)
    (hcap : 2 ≤ ner_n_max_tokens ctx)
    (hfull : ner_tokenize ctx (c_str text) big = .ok full)
    (hnot_reached : (full.length : Int) < big)
    (hmore : (full.length : Int) - 2 > ner_n_max_tokens ctx - 2) :
    (∃ tokens, ner_tokenize ctx (c_str text) (ner_n_max_tokens ctx) = .ok tokens ∧
        (tokens.length : Int) = ner_n_max_tokens ctx) ∧
      ner_row ctx ner_eval false text = .error .invalid_input ∧
      (∀ (path : CString) (rows : List (Option CString)) (trunc : Option (List (Option Bool)))
          (i : Nat) (rs0 : List (Option (List Entity))),
        truncate_opt_of trunc = false → rows[i]? = some (some text) →
        NerScalarFun { ctx := some ctx, model_path := path } ner_eval (rows.take i) trunc =
          .ok rs0 →
        NerScalarFun { ctx := some ctx, model_path := path } ner_eval rows trunc =
          .error .invalid_input) := by
  have htok : ∃ tokens, ner_tokenize ctx (c_str text) (ner_n_max_tokens ctx) = .ok tokens ∧
      (tokens.length : Int) = ner_n_max_tokens ctx := by
    cases hcls : ctx.vocab.token_to_id.find (cstr "[CLS]") with
    | none => simp [ner_tokenize, hcls] at hfull
    | some cls =>
      cases hsep : ctx.vocab.token_to_id.find (cstr "[SEP]") with
      | none => simp [ner_tokenize, hcls, hsep] at hfull
      | some sep =>
        rw [ner_tokenize_eq ctx _ big cls sep hcls hsep] at hfull
        simp only [Except.ok.injEq] at hfull
        subst hfull
        refine ⟨_, ner_tokenize_eq ctx _ _ cls sep hcls hsep, ?_⟩
        simp only [List.length_cons, List.length_append, List.length_take,
          List.length_singleton, List.length_nil] at hnot_reached hmore ⊢
        omega
  obtain ⟨tokens, ht, hlen⟩ := htok
  have hrow : ner_row ctx ner_eval false text = .error .invalid_input := by
    unfold ner_row
    rw [ht]
    simp only []
    rw [if_neg (by omega)]
    simp [hlen]
  refine ⟨⟨tokens, ht, hlen⟩, hrow, ?_⟩
  intro path rows trunc i rs0 htrunc hi h0
  have key := rows_loop_error ctx ner_eval false text _ hrow rows i hi
  unfold NerScalarFun at h0 ⊢
  simp only [htrunc] at h0 ⊢
  split at h0
  · simp at h0
  · rename_i hneg
    rw [if_neg hneg]
    exact key.2 rs0 h0

theorem truncated_row_raises_input_error_witness :
    ner_tokenize small_ctx (c_str (cstr "John works John")) 100 = .ok [0, 2, 3, 2, 1] ∧
      ner_row small_ctx demo_eval false (cstr "John works John") = .error .invalid_input :=
  ⟨by decide,
    (truncated_row_raises_input_error small_ctx demo_eval (cstr "John works John") 100
      [0, 2, 3, 2, 1] (by decide) (by decide) (by decide) (by decide)).2.1⟩

set_option maxRecDepth 100000 in
/-- C20 (the code departs from the claim): with `n_max_tokens = 4`, the row
`John works John` has three word tokens when segmented without a capacity limit,
more than `n_max_tokens - 2`, and its entry in the truncate column is false. In a
batch whose truncate column is `[true, false]` or `[NULL, false]` the function
raises no error: the flag is read at row 0 only (lines 47-48), the row is tokenized
to `[0, 2, 3, 1]` with its last word discarded, and the entities of the shortened
input are returned. The same row with the flag false at row 0 raises the input
error. -/
theorem false_flag_after_row_zero_ignored :
    ner_n_max_tokens small_ctx = 4 ∧
      ner_tokenize small_ctx (c_str (cstr "John works John")) 100 = .ok [0, 2, 3, 2, 1] ∧
      ner_tokenize small_ctx (c_str (cstr "John works John")) (ner_n_max_tokens small_ctx) =
        .ok [0, 2, 3, 1] ∧
      truncate_opt_of (some [some true, some false]) = true ∧
      truncate_opt_of (some [none, some false]) = true ∧
      NerScalarFun { ctx := some small_ctx } demo_eval
          [some (cstr "John"), some (cstr "John works John")] (some [some true, some false]) =
        .ok [some [{ text := cstr "John", label := cstr "PER" }],
          some [{ text := cstr "John", label := cstr "PER" }]] ∧
      NerScalarFun { ctx := some small_ctx } demo_eval
          [some (cstr "John"), some (cstr "John works John")] (some [none, some false]) =
        .ok [some [{ text := cstr "John", label := cstr "PER" }],
          some [{ text := cstr "John", label := cstr "PER" }]] ∧
      decode_entities small_ctx (ner_n_labels small_ctx) [0, 2, 3, 2, 1]
          (demo_eval small_ctx [0, 2, 3, 2, 1]) =
        .ok [{ text := cstr "John", label := cstr "PER" },
          { text := cstr "John", label := cstr "PER" }] ∧
      NerScalarFun { ctx := some small_ctx } demo_eval
          [some (cstr "John works John")] (some [some false]) = .error .invalid_input :=
  ⟨by decide, by decide, by decide, by decide, by decide, by decide, by decide, by decide,
    by decide⟩

/-! ### Loader: the two vocabulary pools -/

/-- C13 (counterexample): the entry `##` at position 2 of `marker_file` begins with
the marker, yet the loader stores it in the whole-word pool under `##` with id 2
and leaves the subword pool empty. -/
theorem bare_marker_entry_is_whole_word :
    ner_load_from_file demo_abi (some marker_file) = .ok (some marker_ctx) ∧
      marker_ctx.vocab.token_to_id.find (cstr "##") = some 2 ∧
      marker_ctx.vocab._id_to_token.find 2 = some (cstr "##") ∧
      marker_ctx.vocab.subword_token_to_id = [] ∧
      marker_ctx.vocab._id_to_subword_token = [] :=
  ⟨by decide, by decide, by decide, by decide, by decide⟩

/-- C13 (amended): the loop body for the vocabulary entry `word` read at position
`i`: if the entry is longer than the two-character marker and begins with `##`, it
is stored in the subword pool under its text without the marker, with id `i`, and
the whole-word pool is unchanged; every other entry, the bare `##` included, is
stored in the whole-word pool under its full text with id `i`, and the subword pool
is unchanged. -/
theorem vocab_entry_pool (vocab : ner_vocab) (word : CString) (i : Int) :
    ((word.length > 2 ∧ word.take 2 = cstr "##") →
      (vocab_insert vocab word i).subword_token_to_id.find (word.drop 2) = some i ∧
        (vocab_insert vocab word i)._id_to_subword_token.find i = some word ∧
        (vocab_insert vocab word i).token_to_id = vocab.token_to_id ∧
        (vocab_insert vocab word i)._id_to_token = vocab._id_to_token) ∧
    (¬ (word.length > 2 ∧ word.take 2 = cstr "##") →
      (vocab_insert vocab word i).token_to_id.find word = some i ∧
        (vocab_insert vocab word i)._id_to_token.find i = some word ∧
        (vocab_insert vocab word i).subword_token_to_id = vocab.subword_token_to_id ∧
        (vocab_insert vocab word i)._id_to_subword_token = vocab._id_to_subword_token) := by
  have hiff : (word.length > 2 ∧ word[0]? = some 35 ∧ word[1]? = some 35) ↔
      (word.length > 2 ∧ word.take 2 = cstr "##") := by
    have h2 : cstr "##" = [35, 35] := rfl
    rw [h2]
    match word with
    | [] => simp
    | [a] => simp
    | a :: b :: rest => simp
  constructor
  · intro h
    unfold vocab_insert
    rw [if_pos (hiff.2 h)]
    exact ⟨find_set_self _ _ _, find_set_self _ _ _, rfl, rfl⟩
  · intro h
    unfold vocab_insert
    rw [if_neg (fun h1 => h (hiff.1 h1))]
    exact ⟨find_set_self _ _ _, find_set_self _ _ _, rfl, rfl⟩

theorem vocab_entry_pool_witness :
    (vocab_insert demo_ctx.vocab (cstr "##ed") 6).subword_token_to_id.find
        ((cstr "##ed").drop 2) = some 6 ∧
      (vocab_insert demo_ctx.vocab (cstr "##ed") 6)._id_to_subword_token.find 6 =
        some (cstr "##ed") ∧
      (vocab_insert demo_ctx.vocab (cstr "##ed") 6).token_to_id = demo_ctx.vocab.token_to_id ∧
      (vocab_insert demo_ctx.vocab (cstr "##ed") 6)._id_to_token = demo_ctx.vocab._id_to_token :=
  (vocab_entry_pool demo_ctx.vocab (cstr "##ed") 6).1 ⟨by decide, by decide⟩

/-! ### Forward pass: shape of the classification head -/

/-- The head as written passes the shape assertions only when the embedding width
equals the label count. -/
theorem classifier_head_shape_some (n_embd n_labels N : Nat) (s : Shape)
    (h : classifier_head_shape n_embd n_labels N = some s) : n_embd = n_labels := by
  unfold classifier_head_shape ggml_mul_mat ggml_repeat ggml_add ggml_can_repeat at h
  simp only [if_true] at h
  split at h
  · rename_i prod bias h1 h2
    simp only [Option.some.injEq] at h1
    subst h1
    split at h2
    · rename_i hrep
      simp only [Option.some.injEq] at h2
      subst h2
      split at h
      · rename_i hadd
        simp only [Bool.and_eq_true, beq_iff_eq] at hrep hadd
        have h3 : n_labels ∣ n_embd := Nat.dvd_of_mod_eq_zero hrep.1
        have h4 : n_embd ∣ n_labels := Nat.dvd_of_mod_eq_zero hadd.1
        exact Nat.dvd_antisymm h4 h3
      · simp at h
    · simp at h2
  · simp at h

/-- With the bias repeated to the shape of the product the head has the shape
`(n_labels, N)` for every model. -/
theorem classifier_head_shape_like_ff_ok (n_embd n_labels N : Nat) :
    classifier_head_shape_like_ff n_embd n_labels N = some (n_labels, N) := by
  simp [classifier_head_shape_like_ff, ggml_mul_mat, ggml_repeat, ggml_add, ggml_can_repeat,
    Nat.mod_one, Nat.mod_self]

/-- C16 (the code departs from the claim): for the default model shape
`n_embd = 256`, `n_labels = 9` and a sequence of 3 tokens the expression of lines
399-400 fails a shape assertion of the tensor library, because the bias is repeated
to the shape `(n_embd, N)` of `inpL` instead of the shape `(n_labels, N)` of the
product; no logits of shape `[N, n_labels]` are produced. -/
theorem classifier_head_ill_shaped :
    classifier_head_shape 256 9 3 = none ∧
      ggml_mul_mat (256, 9) (256, 3) = some (9, 3) ∧
      ggml_repeat (9, 1) (256, 3) = none ∧
      classifier_head_shape_like_ff 256 9 3 = some (9, 3) :=
  ⟨by decide, by decide, by decide, by decide⟩

/-! ### Loader: little-endian integers -/

theorem le_bytes_length : ∀ (k v : Nat), (le_bytes k v).length = k := by
  intro k
  induction k with
  | zero => intro v; rfl
  | succ k ih => intro v; simp [le_bytes, ih]

theorem le_value_le_bytes : ∀ (k v : Nat), le_value (le_bytes k v) = v % 256 ^ k := by
  intro k
  induction k with
  | zero => intro v; simp [le_bytes, le_value, Nat.mod_one]
  | succ k ih =>
    intro v
    simp only [le_bytes, le_value, ih]
    have : ((Fin.ofNat (v % 256) : Fin 256) : Nat) = v % 256 := by
      simp [Fin.ofNat]
    rw [this, pow_succ', Nat.mod_mul]

theorem of_int32_lt (v : Int) : of_int32 v < 4294967296 := by
  unfold of_int32
  omega

theorem to_int32_of_int32 (v : Int) (h : is_int32 v = true) : to_int32 (of_int32 v) = v := by
  simp only [is_int32, Bool.and_eq_true, decide_eq_true_eq] at h
  unfold to_int32 of_int32
  split <;> omega

theorem of_int32_nat (n : Nat) (h : n < 4294967296) : of_int32 (n : Int) = n := by
  unfold of_int32
  omega

theorem enc_i32_length (v : Int) : (enc_i32 v).length = 4 := le_bytes_length 4 _

theorem le_value_enc_i32 (v : Int) : le_value (enc_i32 v) = of_int32 v := by
  unfold enc_i32
  rw [le_value_le_bytes]
  have := of_int32_lt v
  omega

/-! ### Loader: reads inside the file -/

/-- A read of bytes that are all available returns them and advances the position;
the stream stays good. -/
theorem read_chunk (B : List CChar) (p : Nat) (chunk rest : List CChar)
    (h : B.drop p = chunk ++ rest) :
    ifstream.read { bytes := B, pos := p, eofbit := false, failbit := false } chunk.length =
        (chunk, { bytes := B, pos := p + chunk.length, eofbit := false, failbit := false }) ∧
      B.drop (p + chunk.length) = rest := by
  constructor
  · unfold ifstream.read
    simp [h]
  · rw [← List.drop_drop, h]
    simp

theorem read_u32_enc (B : List CChar) (p : Nat) (v : Int) (rest : List CChar)
    (h : B.drop p = enc_i32 v ++ rest) :
    read_u32_uninit { bytes := B, pos := p, eofbit := false, failbit := false } =
        (some (of_int32 v),
          { bytes := B, pos := p + 4, eofbit := false, failbit := false }) ∧
      B.drop (p + 4) = rest := by
  have hr := read_chunk B p (enc_i32 v) rest h
  rw [enc_i32_length] at hr
  refine ⟨?_, hr.2⟩
  unfold read_u32_uninit
  rw [hr.1]
  simp [enc_i32_length, le_value_enc_i32]

theorem read_i32_enc (B : List CChar) (p : Nat) (v old : Int) (rest : List CChar)
    (h : B.drop p = enc_i32 v ++ rest) (hv : is_int32 v = true) :
    read_i32 { bytes := B, pos := p, eofbit := false, failbit := false } old =
        (v, { bytes := B, pos := p + 4, eofbit := false, failbit := false }) ∧
      B.drop (p + 4) = rest := by
  have hr := read_chunk B p (enc_i32 v) rest h
  rw [enc_i32_length] at hr
  refine ⟨?_, hr.2⟩
  unfold read_i32
  rw [hr.1]
  simp only [enc_i32_length]
  have hd : List.drop 4 (le_bytes 4 (of_int32 old)) = [] :=
    List.drop_eq_nil_of_le (by rw [le_bytes_length])
  rw [hd, List.append_nil, le_value_enc_i32, to_int32_of_int32 v hv]

theorem read_into_chunk (B : List CChar) (p : Nat) (chunk rest old : List CChar)
    (h : B.drop p = chunk ++ rest) :
    read_into { bytes := B, pos := p, eofbit := false, failbit := false } chunk.length old =
        (chunk ++ old.drop chunk.length,
          { bytes := B, pos := p + chunk.length, eofbit := false, failbit := false }) ∧
      B.drop (p + chunk.length) = rest := by
  have hr := read_chunk B p chunk rest h
  refine ⟨?_, hr.2⟩
  unfold read_into
  rw [hr.1]

/-- The header of a well-formed file is read back field by field. -/
theorem read_header_enc (B : List CChar) (p : Nat) (hp : ner_hparams) (rest : List CChar)
    (h : B.drop p = enc_header hp ++ rest)
    (h1 : is_int32 hp.n_vocab = true) (h2 : is_int32 hp.n_max_tokens = true)
    (h3 : is_int32 hp.n_embd = true) (h4 : is_int32 hp.n_intermediate = true)
    (h5 : is_int32 hp.n_head = true) (h6 : is_int32 hp.n_layer = true)
    (h7 : is_int32 hp.f16 = true) (h8 : is_int32 hp.n_labels = true) :
    read_header { bytes := B, pos := p, eofbit := false, failbit := false } =
        (hp, { bytes := B, pos := p + 32, eofbit := false, failbit := false }) ∧
      B.drop (p + 32) = rest := by
  unfold enc_header at h
  simp only [List.append_assoc] at h
  have r1 := fun old => read_i32_enc B p hp.n_vocab old _ h h1
  have r2 := fun old => read_i32_enc B (p + 4) hp.n_max_tokens old _ (r1 0).2 h2
  have r3 := fun old => read_i32_enc B (p + 4 + 4) hp.n_embd old _ (r2 0).2 h3
  have r4 := fun old => read_i32_enc B (p + 4 + 4 + 4) hp.n_intermediate old _ (r3 0).2 h4
  have r5 := fun old => read_i32_enc B (p + 4 + 4 + 4 + 4) hp.n_head old _ (r4 0).2 h5
  have r6 := fun old => read_i32_enc B (p + 4 + 4 + 4 + 4 + 4) hp.n_layer old _ (r5 0).2 h6
  have r7 := fun old => read_i32_enc B (p + 4 + 4 + 4 + 4 + 4 + 4) hp.f16 old _ (r6 0).2 h7
  have r8 := fun old =>
    read_i32_enc B (p + 4 + 4 + 4 + 4 + 4 + 4 + 4) hp.n_labels old _ (r7 0).2 h8
  refine ⟨?_, (r8 0).2⟩
  unfold read_header
  simp only [(r1 _).1, (r2 _).1, (r3 _).1, (r4 _).1, (r5 _).1, (r6 _).1, (r7 _).1, (r8 _).1]

/-- The vocabulary section of a well-formed file is read back entry by entry. -/
theorem read_vocab_enc (B : List CChar) (rest : List CChar) :
    ∀ (entries : List CString) (p : Nat) (i : Int) (vocab : ner_vocab),
      B.drop p = entries.flatMap enc_entry ++ rest →
      entries.all (fun w => decide (w.length < 4294967296)) = true →
      read_vocab entries.length i { bytes := B, pos := p, eofbit := false, failbit := false }
          vocab =
        .ok (insert_entries vocab i entries,
          { bytes := B, pos := p + (entries.flatMap enc_entry).length, eofbit := false,
            failbit := false }) ∧
      B.drop (p + (entries.flatMap enc_entry).length) = rest := by
  intro entries
  induction entries with
  | nil =>
    intro p i vocab h _
    simp only [List.flatMap_nil, List.nil_append] at h
    simp [read_vocab, insert_entries, h]
  | cons w ws ih =>
    intro p i vocab h hlen
    simp only [List.all_cons, Bool.and_eq_true, decide_eq_true_eq] at hlen
    simp only [List.flatMap_cons, enc_entry, List.append_assoc] at h
    have r1 := read_u32_enc B p w.length _ h
    have r2 := read_into_chunk B (p + 4) w _ (List.replicate (of_int32 w.length) 0) r1.2
    have hw : of_int32 (w.length : Int) = w.length := of_int32_nat _ hlen.1
    have r3 := ih (p + 4 + w.length) (i + 1) (vocab_insert vocab w i) r2.2 hlen.2
    have hpos : p + ((w :: ws).flatMap enc_entry).length =
        p + 4 + w.length + (ws.flatMap enc_entry).length := by
      simp only [List.flatMap_cons, enc_entry, List.length_append, enc_i32_length]
      omega
    rw [hpos]
    refine ⟨?_, r3.2⟩
    simp only [List.length_cons, read_vocab, r1.1]
    rw [hw] at r2 ⊢
    rw [r2.1]
    simp only [List.drop_replicate, Nat.sub_self, List.replicate_zero, List.append_nil]
    rw [r3.1]
    rfl

/-! ### Loader: tensor records of a well-formed file -/

theorem is_int32_of_bounds (d : Int) (h0 : 0 ≤ d) (h1 : d < 2147483648) :
    is_int32 d = true := by
  simp only [is_int32, Bool.and_eq_true, decide_eq_true_eq]
  omega

/-- The dimension sizes of a well-formed record are read back into `ne`. -/
theorem read_dims_enc (B : List CChar) (p : Nat) (dims : List Int) (rest : List CChar)
    (h : B.drop p = dims.flatMap enc_i32 ++ rest) (hlen : dims.length ≤ 2)
    (hd : dims.all (fun d => decide (0 ≤ d) && decide (d < 2147483648)) = true) :
    read_dims dims.length 0 { bytes := B, pos := p, eofbit := false, failbit := false } (1, 1) =
        .ok (ne_of_dims dims,
          { bytes := B, pos := p + (dims.flatMap enc_i32).length, eofbit := false,
            failbit := false }) ∧
      B.drop (p + (dims.flatMap enc_i32).length) = rest := by
  match dims, hlen, hd, h with
  | [], _, _, h =>
    simp only [List.flatMap_nil, List.nil_append] at h
    simp [read_dims, ne_of_dims, h]
  | [a], _, hd, h =>
    simp only [List.all_cons, List.all_nil, Bool.and_true, Bool.and_eq_true,
      decide_eq_true_eq] at hd
    simp only [List.flatMap_cons, List.flatMap_nil, List.append_nil] at h ⊢
    have r1 := read_u32_enc B p a _ h
    rw [enc_i32_length]
    refine ⟨?_, r1.2⟩
    simp only [List.length_singleton, read_dims, r1.1, if_true]
    rw [to_int32_of_int32 a (is_int32_of_bounds a hd.1 hd.2)]
    rfl
  | [a, b], _, hd, h =>
    simp only [List.all_cons, List.all_nil, Bool.and_true, Bool.and_eq_true,
      decide_eq_true_eq] at hd
    simp only [List.flatMap_cons, List.flatMap_nil, List.append_nil, List.append_assoc] at h ⊢
    have r1 := read_u32_enc B p a _ h
    have r2 := read_u32_enc B (p + 4) b _ r1.2
    simp only [List.length_append, enc_i32_length]
    refine ⟨?_, by rw [← Nat.add_assoc]; exact r2.2⟩
    simp only [List.length_cons, List.length_nil, read_dims, r1.1, r2.1, if_true]
    rw [to_int32_of_int32 a (is_int32_of_bounds a hd.1.1 hd.1.2),
      to_int32_of_int32 b (is_int32_of_bounds b hd.2.1 hd.2.2)]
    simp [ne_of_dims, Nat.add_assoc]

theorem ne_of_dims_bounds (dims : List Int)
    (hd : dims.all (fun d => decide (0 ≤ d) && decide (d < 2147483648)) = true) :
    (0 ≤ (ne_of_dims dims).1 ∧ (ne_of_dims dims).1 < 2147483648) ∧
      (0 ≤ (ne_of_dims dims).2 ∧ (ne_of_dims dims).2 < 2147483648) := by
  match dims, hd with
  | [], _ => simp [ne_of_dims]
  | [a], hd =>
    simp only [List.all_cons, List.all_nil, Bool.and_true, Bool.and_eq_true,
      decide_eq_true_eq] at hd
    simp [ne_of_dims, hd.1, hd.2]
  | a :: b :: rest, hd =>
    simp only [List.all_cons, Bool.and_eq_true, decide_eq_true_eq] at hd
    simp [ne_of_dims, hd.1.1, hd.1.2, hd.2.1.1, hd.2.1.2]

theorem abi_ok_type (lib : ggml_abi) (h : abi_ok lib = true) (t : ggml_type) :
    lib.ggml_type_size t < 4294967296 := by
  simp only [abi_ok, List.all_cons, List.all_nil, Bool.and_true, Bool.and_eq_true,
    decide_eq_true_eq] at h
  cases t
  · exact h.1.1
  · exact h.2.1.1
  · exact h.2.2.1

/-- The offset the loader seeks over for an unknown record is the payload size
implied by tag and dimension sizes, as long as that size fits the stream offset. -/
theorem skip_offset_eq (lib : ggml_abi) (ftype : Int) (dims : List Int)
    (hd : dims.all (fun d => decide (0 ≤ d) && decide (d < 2147483648)) = true)
    (habi : abi_ok lib = true)
    (hsz : payload_size lib ftype dims < 9223372036854775808) :
    skip_offset lib ftype (ne_of_dims dims) = (payload_size lib ftype dims : Int) := by
  obtain ⟨⟨ha0, ha1⟩, ⟨hb0, _⟩⟩ := ne_of_dims_bounds dims hd
  have hts := abi_ok_type lib habi (type_of_tag ftype)
  have ht : (if ftype = 0 then ggml_type.F32 else if ftype = 1 then ggml_type.F16
      else ggml_type.Q4_0) = type_of_tag ftype := rfl
  unfold payload_size at hsz ⊢
  unfold skip_offset
  simp only [ht]
  obtain ⟨a, ha⟩ := Int.eq_ofNat_of_zero_le ha0
  obtain ⟨b, hb⟩ := Int.eq_ofNat_of_zero_le hb0
  rw [ha, hb] at hsz ⊢
  rw [ha] at ha1
  simp only [Int.toNat_ofNat] at hsz ⊢
  generalize lib.ggml_type_size (type_of_tag ftype) = ts at *
  generalize lib.ggml_blck_size (type_of_tag ftype) = bl at *
  have hprod : ts * a < 2 ^ 64 := by
    have h1 : ts * a ≤ 4294967296 * 2147483648 :=
      Nat.mul_le_mul (Nat.le_of_lt hts) (by omega)
    omega
  have e1 : ((ts : Int) * (a : Int) % 2 ^ 64).toNat = ts * a := by
    have : (ts : Int) * (a : Int) = ((ts * a : Nat) : Int) := by push_cast; rfl
    rw [this]
    generalize ts * a = m at *
    omega
  rw [e1]
  have e2 : (((ts * a / bl : Nat) : Int) * (b : Int) % 2 ^ 64).toNat = ts * a / bl * b := by
    have : ((ts * a / bl : Nat) : Int) * (b : Int) = ((ts * a / bl * b : Nat) : Int) := by
      push_cast; rfl
    rw [this]
    generalize ts * a / bl * b = m at *
    omega
  rw [e2, if_pos (by omega)]

theorem enc_record_length (r : tensor_record) :
    (enc_record r).length =
      12 + (r.dims.flatMap enc_i32).length + r.name.length + r.payload.length := by
  simp only [enc_record, List.length_append, enc_i32_length]
  omega

/-- One well-formed record takes the tensor loop one iteration: the stream moves
past the record and the registry becomes `apply_record`. -/
theorem read_tensors_step (lib : ggml_abi) (B : List CChar) (p fuel : Nat)
    (T : StdMap CString ggml_tensor) (r : tensor_record) (rest : List CChar)
    (h : B.drop p = enc_record r ++ rest)
    (hwf : wf_record lib T r = true) (habi : abi_ok lib = true)
    (hsz : (enc_record r).length < 9223372036854775808) :
    read_tensors lib (fuel + 1) { bytes := B, pos := p, eofbit := false, failbit := false } T =
        read_tensors lib fuel
          { bytes := B, pos := p + (enc_record r).length, eofbit := false, failbit := false }
          (apply_record T r) ∧
      B.drop (p + (enc_record r).length) = rest := by
  simp only [wf_record, Bool.and_eq_true, decide_eq_true_eq] at hwf
  obtain ⟨⟨⟨⟨hdl, hdims⟩, hft⟩, hnl⟩, hpay⟩ := hwf
  simp only [enc_record, List.append_assoc] at h
  have r1 := read_u32_enc B p r.dims.length _ h
  have r2 := read_u32_enc B (p + 4) r.name.length _ r1.2
  have r3 := read_u32_enc B (p + 4 + 4) r.ftype _ r2.2
  have r4 := read_dims_enc B (p + 4 + 4 + 4) r.dims _ r3.2 hdl hdims
  have r5 := read_into_chunk B (p + 4 + 4 + 4 + (r.dims.flatMap enc_i32).length) r.name _
    (List.replicate r.name.length 0) r4.2
  have e1 : (to_int32 (of_int32 (r.dims.length : Int))).toNat = r.dims.length := by
    rw [to_int32_of_int32 _ (is_int32_of_bounds _ (by omega) (by omega))]
    rfl
  have e2 : to_int32 (of_int32 (r.name.length : Int)) = (r.name.length : Int) :=
    to_int32_of_int32 _ (is_int32_of_bounds _ (by omega) (by omega))
  have e3 : of_int32 (r.name.length : Int) = r.name.length := of_int32_nat _ (by omega)
  have e5 : to_int32 r.name.length = (r.name.length : Int) := by
    unfold to_int32
    split <;> omega
  have e4 : to_int32 (of_int32 r.ftype) = r.ftype := to_int32_of_int32 _ hft
  have hpos : p + (enc_record r).length =
      p + 4 + 4 + 4 + (r.dims.flatMap enc_i32).length + r.name.length + r.payload.length := by
    rw [enc_record_length]; omega
  rw [enc_record_length] at hsz
  have hstart : read_tensors lib (fuel + 1)
      { bytes := B, pos := p, eofbit := false, failbit := false } T =
      (match T.find r.name with
       | none =>
         read_tensors lib fuel
           (ifstream.seekg_cur
             { bytes := B, pos := p + 4 + 4 + 4 + (r.dims.flatMap enc_i32).length + r.name.length,
               eofbit := false, failbit := false }
             (skip_offset lib r.ftype (ne_of_dims r.dims))) T
       | some tensor =>
         read_tensors lib fuel
           (read_into
             { bytes := B, pos := p + 4 + 4 + 4 + (r.dims.flatMap enc_i32).length + r.name.length,
               eofbit := false, failbit := false }
             (lib.ggml_nbytes tensor) tensor.data).2
           (T.set r.name { tensor with data := (read_into
             { bytes := B, pos := p + 4 + 4 + 4 + (r.dims.flatMap enc_i32).length + r.name.length,
               eofbit := false, failbit := false }
             (lib.ggml_nbytes tensor) tensor.data).1 })) := by
    rw [read_tensors]
    simp only [r1.1, r2.1, r3.1, Bool.false_eq_true, if_false, e1, r4.1, e2, e3, e4, e5]
    rw [if_neg (by omega), r5.1]
    simp only [List.drop_replicate, Nat.sub_self, List.replicate_zero, List.append_nil]
  rw [hstart, hpos]
  cases hfind : T.find r.name with
  | none =>
    simp only [hfind, decide_eq_true_eq] at hpay
    have hoff : skip_offset lib r.ftype (ne_of_dims r.dims) = (r.payload.length : Int) := by
      rw [hpay]
      exact skip_offset_eq lib r.ftype r.dims hdims habi (by omega)
    refine ⟨?_, ?_⟩
    · simp only [apply_record, hfind, hoff, ifstream.seekg_cur, Bool.false_eq_true, if_false]
      rw [if_neg (by omega)]
      have hnum : (((p + 4 + 4 + 4 + (r.dims.flatMap enc_i32).length + r.name.length : Nat) : Int)
          + (r.payload.length : Int)).toNat =
          p + 4 + 4 + 4 + (r.dims.flatMap enc_i32).length + r.name.length + r.payload.length := by
        omega
      rw [hnum]
    · rw [← List.drop_drop, r5.2]
      simp
  | some tensor =>
    simp only [hfind, decide_eq_true_eq] at hpay
    have r6 := read_into_chunk B
      (p + 4 + 4 + 4 + (r.dims.flatMap enc_i32).length + r.name.length) r.payload rest
      tensor.data r5.2
    refine ⟨?_, r6.2⟩
    simp only [apply_record, hfind]
    rw [← hpay, r6.1]

/-- At the end of the file the tensor loop stops. -/
theorem read_tensors_at_end (lib : ggml_abi) (B : List CChar) (p fuel : Nat)
    (T : StdMap CString ggml_tensor) (h : B.drop p = []) :
    read_tensors lib (fuel + 1) { bytes := B, pos := p, eofbit := false, failbit := false } T =
      .ok T := by
  have h1 : (ifstream.read { bytes := B, pos := p, eofbit := false, failbit := false } 4).2.eofbit
      = true := by
    unfold ifstream.read
    simp [h]
  rw [read_tensors]
  simp only [read_u32_uninit_stream]
  have h2 := (read_eof_sticky _ 4 h1).1
  have h3 := (read_eof_sticky _ 4 h2).1
  rw [if_pos h3]

/-- The tensor section of a well-formed file is read record by record. -/
theorem read_tensors_enc (lib : ggml_abi) (B : List CChar) (habi : abi_ok lib = true)
    (hB : B.length < 9223372036854775808) :
    ∀ (records : List tensor_record) (p fuel : Nat) (T : StdMap CString ggml_tensor),
      B.drop p = records.flatMap enc_record → p ≤ B.length →
      wf_records lib T records = true → records.length < fuel →
      read_tensors lib fuel { bytes := B, pos := p, eofbit := false, failbit := false } T =
        .ok (apply_records T records) := by
  intro records
  induction records with
  | nil =>
    intro p fuel T h _ _ hfuel
    obtain ⟨f, rfl⟩ : ∃ f, fuel = f + 1 := ⟨fuel - 1, by simp at hfuel; omega⟩
    exact read_tensors_at_end lib B p f T (by simpa using h)
  | cons r rs ih =>
    intro p fuel T h hp hwf hfuel
    obtain ⟨f, rfl⟩ : ∃ f, fuel = f + 1 := ⟨fuel - 1, by simp at hfuel; omega⟩
    simp only [wf_records, Bool.and_eq_true] at hwf
    simp only [List.flatMap_cons] at h
    have hlen : (enc_record r).length ≤ B.length - p := by
      have := congrArg List.length h
      simp only [List.length_drop, List.length_append] at this
      omega
    have hstep := read_tensors_step lib B p f T r _ h hwf.1 habi (by omega)
    rw [hstep.1]
    exact ih _ f _ hstep.2 (by omega) hwf.2 (by simp at hfuel; omega)

theorem records_length_le (records : List tensor_record) :
    records.length ≤ (records.flatMap enc_record).length := by
  induction records with
  | nil => simp
  | cons r rs ih =>
    simp only [List.flatMap_cons, List.length_cons, List.length_append, enc_record_length]
    omega

theorem enc_header_length (hp : ner_hparams) : (enc_header hp).length = 32 := by
  simp [enc_header, enc_i32_length]

/-- Loading a well-formed file returns the context made of the header values, the
vocabulary of its entries and the registry filled by its records. -/
theorem load_well_formed (lib : ggml_abi) (hp : ner_hparams) (entries : List CString)
    (records : List tensor_record) (hwf : wf_file lib hp entries records = true) :
    ner_load_from_file lib (some (model_file hp entries records)) =
      .ok (some { model := { hparams := hp, tensors := apply_records (new_tensors hp) records },
                  vocab := insert_entries {} 0 entries }) := by
  simp only [wf_file, Bool.and_eq_true, decide_eq_true_eq] at hwf
  obtain ⟨⟨⟨⟨⟨⟨⟨⟨⟨⟨⟨⟨⟨h1, h2⟩, h3⟩, h4⟩, h5⟩, h6⟩, h7⟩, h8⟩, hnv⟩, hnl⟩, hent⟩, hrec⟩, habi⟩,
    hsz⟩ := hwf
  generalize hB : model_file hp entries records = B at hsz
  have hlenB : B.length =
      4 + 32 + (entries.flatMap enc_entry).length + (records.flatMap enc_record).length := by
    rw [← hB]
    simp only [model_file, List.length_append, enc_header_length, List.length_cons,
      List.length_nil]
    omega
  have hmagic : ([0x6c, 0x6d, 0x67, 0x67] : List CChar) = enc_i32 0x67676d6c := by decide
  have hd0 : B.drop 0 = enc_i32 0x67676d6c ++
      (enc_header hp ++ (entries.flatMap enc_entry ++ records.flatMap enc_record)) := by
    rw [← hB, ← hmagic]
    rfl
  have r0 := read_u32_enc B 0 0x67676d6c _ hd0
  have r1 := read_header_enc B (0 + 4) hp _ r0.2 h1 h2 h3 h4 h5 h6 h7 h8
  have r2 := read_vocab_enc B _ entries (0 + 4 + 32) 0 {} r1.2 hent
  have r3 := read_tensors_enc lib B habi hsz records
    (0 + 4 + 32 + (entries.flatMap enc_entry).length) (B.length + 1)
    (new_tensors hp) r2.2 (by omega) hrec (by have := records_length_le records; omega)
  have hm : of_int32 0x67676d6c = 0x67676d6c := by decide
  have hcount : hp.n_vocab.toNat = entries.length := by omega
  unfold ner_load_from_file
  simp only []
  have r0a : read_u32_uninit { bytes := B } =
      (some 0x67676d6c, { bytes := B, pos := 0 + 4, eofbit := false, failbit := false }) := by
    rw [← hm]
    exact r0.1
  rw [r0a]
  simp only [r1.1, hcount, r2.1]
  rw [if_neg (by decide), if_neg (by omega), r3]

/-! ### Loader: round trip of the header, records with unknown names -/

/-- C14: for every well-formed model file, whose header after the magic is the
eight little-endian 4-byte integers n_vocab, n_max_tokens, n_embd, n_intermediate,
n_head, n_layer, quantisation kind, n_labels in that order, `ner_load_from_file`
returns a context for which `ner_n_max_tokens`, `ner_n_embd` and `ner_n_labels`
return the 2nd, 3rd and 8th header value written. -/
theorem header_round_trip (lib : ggml_abi) (hp : ner_hparams) (entries : List CString)
    (records : List tensor_record) (hwf : wf_file lib hp entries records = true) :
    ∃ ctx, ner_load_from_file lib (some (model_file hp entries records)) = .ok (some ctx) ∧
      ner_n_max_tokens ctx = hp.n_max_tokens ∧ ner_n_embd ctx = hp.n_embd ∧
      ner_n_labels ctx = hp.n_labels :=
  ⟨_, load_well_formed lib hp entries records hwf, rfl, rfl, rfl⟩

set_option maxRecDepth 100000 in
theorem header_round_trip_witness :
    ∃ ctx, ner_load_from_file demo_abi
        (some (model_file demo_hp demo_entries [demo_record_weight, demo_record_bias])) =
        .ok (some ctx) ∧
      ner_n_max_tokens ctx = 8 ∧ ner_n_embd ctx = 2 ∧ ner_n_labels ctx = 9 :=
  header_round_trip demo_abi demo_hp demo_entries [demo_record_weight, demo_record_bias]
    (by decide)

theorem find_apply_record_none (T : StdMap CString ggml_tensor) (r : tensor_record)
    (k : CString) (h : T.find k = none) : (apply_record T r).find k = none := by
  unfold apply_record
  split
  · exact h
  · rename_i t ht
    by_cases hk : k = r.name
    · rw [hk, ht] at h
      simp at h
    · rw [find_set_ne _ _ _ _ hk]
      exact h

theorem find_apply_records_none (k : CString) :
    ∀ (rs : List tensor_record) (T : StdMap CString ggml_tensor), T.find k = none →
      (apply_records T rs).find k = none := by
  intro rs
  induction rs with
  | nil => intro T h; exact h
  | cons r rs ih => intro T h; exact ih _ (find_apply_record_none T r k h)

theorem apply_records_append : ∀ (X Y : List tensor_record) (T : StdMap CString ggml_tensor),
    apply_records T (X ++ Y) = apply_records (apply_records T X) Y := by
  intro X
  induction X with
  | nil => intro Y T; rfl
  | cons r rs ih => intro Y T; exact ih Y _

theorem wf_records_append (lib : ggml_abi) :
    ∀ (X Y : List tensor_record) (T : StdMap CString ggml_tensor),
      wf_records lib T (X ++ Y) = (wf_records lib T X && wf_records lib (apply_records T X) Y) := by
  intro X
  induction X with
  | nil => intro Y T; simp [wf_records, apply_records]
  | cons r rs ih =>
    intro Y T
    show (wf_record lib T r && wf_records lib (apply_record T r) (rs ++ Y)) = _
    rw [ih]
    simp only [wf_records, apply_records, Bool.and_assoc]

/-- C15: for every well-formed model file with the tensor records `A ++ B` and
every record `u` with at most 2 dimensions whose name is not in the tensor
registry and whose payload has the byte length implied by its tag and dimension
sizes, loading the file with `u` inserted between `A` and `B` succeeds and returns
the same context (hyperparameters, vocabulary, registered tensor contents) as
loading the file without it. -/
theorem unknown_record_skipped (lib : ggml_abi) (hp : ner_hparams) (entries : List CString)
    (A B : List tensor_record) (u : tensor_record)
    (hwf : wf_file lib hp entries (A ++ B) = true)
    (hunknown : (new_tensors hp).find u.name = none)
    (hdims : u.dims.length ≤ 2)
    (hd : ∀ d ∈ u.dims, 0 ≤ d ∧ d < 2147483648)
    (hft : -2147483648 ≤ u.ftype ∧ u.ftype < 2147483648)
    (hname : u.name.length < 2147483648)
    (hpay : u.payload.length = payload_size lib u.ftype u.dims)
    (hsz : (model_file hp entries (A ++ u :: B)).length < 9223372036854775808) :
    ∃ ctx, ner_load_from_file lib (some (model_file hp entries (A ++ B))) = .ok (some ctx) ∧
      ner_load_from_file lib (some (model_file hp entries (A ++ u :: B))) = .ok (some ctx) := by
  have hTA : (apply_records (new_tensors hp) A).find u.name = none :=
    find_apply_records_none u.name A _ hunknown
  have hu : wf_record lib (apply_records (new_tensors hp) A) u = true := by
    simp only [wf_record, hTA, Bool.and_eq_true, decide_eq_true_eq, is_int32, List.all_eq_true]
    exact ⟨⟨⟨⟨hdims, hd⟩, hft⟩, hname⟩, hpay⟩
  have hid : apply_record (apply_records (new_tensors hp) A) u =
      apply_records (new_tensors hp) A := by
    simp only [apply_record, hTA]
  have hwf2 : wf_file lib hp entries (A ++ u :: B) = true := by
    simp only [wf_file, Bool.and_eq_true, decide_eq_true_eq, wf_records_append] at hwf ⊢
    obtain ⟨⟨⟨hpre, hrA, hrB⟩, habi⟩, _⟩ := hwf
    refine ⟨⟨⟨hpre, hrA, ?_⟩, habi⟩, hsz⟩
    simp only [wf_records, Bool.and_eq_true]
    rw [hid]
    exact ⟨hu, hrB⟩
  refine ⟨_, load_well_formed lib hp entries (A ++ B) hwf, ?_⟩
  rw [load_well_formed lib hp entries (A ++ u :: B) hwf2]
  have : apply_records (new_tensors hp) (A ++ u :: B) = apply_records (new_tensors hp) (A ++ B) := by
    rw [apply_records_append, apply_records_append]
    simp only [apply_records, hid]
  rw [this]

set_option maxRecDepth 100000 in
theorem unknown_record_skipped_witness :
    ∃ ctx, ner_load_from_file demo_abi
        (some (model_file demo_hp demo_entries ([demo_record_weight] ++ [demo_record_bias]))) =
        .ok (some ctx) ∧
      ner_load_from_file demo_abi
        (some (model_file demo_hp demo_entries
          ([demo_record_weight] ++ demo_record_extra :: [demo_record_bias]))) = .ok (some ctx) :=
  unknown_record_skipped demo_abi demo_hp demo_entries [demo_record_weight] [demo_record_bias]
    demo_record_extra (by decide) (by decide) (by decide) (by decide) (by decide) (by decide)
    (by decide) (by decide)

/-! ### Decoder: the marker tokens -/

/-- The label chosen for token `t` depends only on the scores of that token. -/
theorem best_label_congr (logits1 logits2 : Nat → ℚ) (t n : Nat)
    (h : ∀ l < n, logits1 (t * n + l) = logits2 (t * n + l)) :
    best_label logits1 t n = best_label logits2 t n := by
  unfold best_label
  congr 1
  apply List.foldl_ext
  intro st l hl
  unfold argmax_step
  rw [h l (List.mem_range.1 hl)]

theorem decode_loop_congr (ctx : ner_ctx) (logits1 logits2 : Nat → ℚ) (n : Nat) :
    ∀ (tokens : List ner_vocab_id) (t0 : Nat) (st : DecState),
      (∀ (k : Nat) (id : ner_vocab_id), tokens[k]? = some id →
        ¬ (ner_vocab_id_to_token ctx id = cstr "[CLS]" ∨
          ner_vocab_id_to_token ctx id = cstr "[SEP]") →
        ∀ l < n, logits1 ((t0 + k) * n + l) = logits2 ((t0 + k) * n + l)) →
      decode_loop ctx logits1 n tokens t0 st = decode_loop ctx logits2 n tokens t0 st := by
  intro tokens
  induction tokens with
  | nil => intro t0 st _; rfl
  | cons id rest ih =>
    intro t0 st h
    have hrest : ∀ st1, decode_loop ctx logits1 n rest (t0 + 1) st1 =
        decode_loop ctx logits2 n rest (t0 + 1) st1 := by
      intro st1
      apply ih
      intro k id1 hk hns l hl
      have := h (k + 1) id1 (by simpa using hk) hns l hl
      rw [show t0 + 1 + k = t0 + (k + 1) by omega]
      exact this
    simp only [decode_loop]
    by_cases hsp : ner_vocab_id_to_token ctx id = cstr "[CLS]" ∨
        ner_vocab_id_to_token ctx id = cstr "[SEP]"
    · rw [decode_token_special _ _ _ hsp, decode_token_special _ _ _ hsp]
      exact hrest st
    · have hb : best_label logits1 t0 n = best_label logits2 t0 n :=
        best_label_congr logits1 logits2 t0 n (fun l hl => by
          have := h 0 id (by simp) hsp l hl
          simpa using this)
      rw [hb]
      cases decode_token st (ner_vocab_id_to_token ctx id) (best_label logits2 t0 n) with
      | error e => rfl
      | ok st1 => exact hrest st1

/-- C21: two logits buffers that agree on the scores of every token whose text is
neither `[CLS]` nor `[SEP]` give the same result of the decoder, and a token with
one of these texts leaves the decoding state (emitted entities, open entity, last
group) unchanged whatever its scores are. -/
theorem marker_scores_do_not_matter (ctx : ner_ctx) (n_labels : Int)
    (tokens : List ner_vocab_id) (logits1 logits2 : Nat → ℚ)
    (hagree : ∀ (t : Nat) (id : ner_vocab_id), tokens[t]? = some id →
      ¬ (ner_vocab_id_to_token ctx id = cstr "[CLS]" ∨
        ner_vocab_id_to_token ctx id = cstr "[SEP]") →
      ∀ l < n_labels.toNat, logits1 (t * n_labels.toNat + l) = logits2 (t * n_labels.toNat + l)) :
    decode_entities ctx n_labels tokens logits1 = decode_entities ctx n_labels tokens logits2 ∧
      (∀ (st : DecState) (id : ner_vocab_id) (label : Nat),
        (ner_vocab_id_to_token ctx id = cstr "[CLS]" ∨
          ner_vocab_id_to_token ctx id = cstr "[SEP]") →
        decode_token st (ner_vocab_id_to_token ctx id) label = .ok st) := by
  refine ⟨?_, fun st id label h => decode_token_special st _ label h⟩
  unfold decode_entities
  rw [decode_loop_congr ctx logits1 logits2 n_labels.toNat tokens 0 {} (fun k id hk hns l hl => by
    have := hagree k id hk hns l hl
    simpa using this)]

set_option maxRecDepth 100000 in
theorem marker_scores_do_not_matter_witness :
    one_hot [0, 3, 0, 0] 5 ≠ one_hot [5, 3, 0, 7] 5 ∧
      decode_entities john_ctx 9 [0, 2, 3, 1] (one_hot [5, 3, 0, 7]) =
        .ok [{ text := cstr "John", label := cstr "PER" }] ∧
      decode_entities john_ctx 9 [0, 2, 3, 1] (one_hot [0, 3, 0, 0]) =
        decode_entities john_ctx 9 [0, 2, 3, 1] (one_hot [5, 3, 0, 7]) :=
  ⟨by decide, by decide,
    (marker_scores_do_not_matter john_ctx 9 [0, 2, 3, 1] (one_hot [0, 3, 0, 0])
      (one_hot [5, 3, 0, 7]) (by
        intro t id ht hns l hl
        match t, ht with
        | 0, ht =>
          simp only [List.getElem?_cons_zero, Option.some.injEq] at ht
          subst ht
          exact absurd (Or.inl (by decide)) hns
        | 1, ht =>
          have hl9 : l < 9 := hl
          interval_cases l <;> decide
        | 2, ht =>
          have hl9 : l < 9 := hl
          interval_cases l <;> decide
        | 3, ht =>
          simp only [List.getElem?_cons_succ, List.getElem?_cons_zero, Option.some.injEq] at ht
          subst ht
          exact absurd (Or.inr (by decide)) hns
        | t + 4, ht => simp at ht)).1⟩

/-! ### Ids of a loaded vocabulary -/

theorem vocab_inv_empty : vocab_inv 0 {} := by
  refine ⟨?_, ?_, ?_, ?_⟩ <;> intro a b h <;> simp [StdMap.find] at h

/-- One iteration of the vocabulary loop keeps the invariant. -/
theorem vocab_insert_keeps_inv (vocab : ner_vocab) (word : CString) (i : Int) (hi : 0 ≤ i)
    (h : vocab_inv i vocab) : vocab_inv (i + 1) (vocab_insert vocab word i) := by
  obtain ⟨h1, h2, h3, h4⟩ := h
  have hfresh : vocab._id_to_token.find i = none := by
    cases hf : vocab._id_to_token.find i with
    | none => rfl
    | some w => exact absurd (h3 i w hf) (lt_irrefl _)
  unfold vocab_insert
  by_cases hw : word.length > 2 ∧ word[0]? = some 35 ∧ word[1]? = some 35
  · rw [if_pos hw]
    refine ⟨?_, ?_, ?_, ?_⟩
    · intro k b hf
      obtain ⟨a, c, d⟩ := h1 k b hf
      exact ⟨a, by omega, d⟩
    · intro s b hf
      simp only at hf ⊢
      by_cases hs : s = word.drop 2
      · subst hs
        rw [find_set_self] at hf
        simp only [Option.some.injEq] at hf
        subst hf
        refine ⟨hi, by omega, ?_, hfresh⟩
        rw [find_set_self, ← subword_entry_shape word hw]
      · rw [find_set_ne _ _ _ _ hs] at hf
        obtain ⟨a, c, d, e⟩ := h2 s b hf
        refine ⟨a, by omega, ?_, e⟩
        rw [find_set_ne _ _ _ _ (ne_of_lt c)]
        exact d
    · intro b w hf
      have := h3 b w hf
      omega
    · intro b w hf
      simp only at hf
      by_cases hb : b = i
      · omega
      · rw [find_set_ne _ _ _ _ hb] at hf
        have := h4 b w hf
        omega
  · rw [if_neg hw]
    refine ⟨?_, ?_, ?_, ?_⟩
    · intro k b hf
      simp only at hf ⊢
      by_cases hk : k = word
      · subst hk
        rw [find_set_self] at hf
        simp only [Option.some.injEq] at hf
        subst hf
        refine ⟨hi, by omega, ?_⟩
        rw [find_set_self]
      · rw [find_set_ne _ _ _ _ hk] at hf
        obtain ⟨a, c, d⟩ := h1 k b hf
        refine ⟨a, by omega, ?_⟩
        rw [find_set_ne _ _ _ _ (ne_of_lt c)]
        exact d
    · intro s b hf
      simp only at hf ⊢
      obtain ⟨a, c, d, e⟩ := h2 s b hf
      refine ⟨a, by omega, d, ?_⟩
      rw [find_set_ne _ _ _ _ (ne_of_lt c)]
      exact e
    · intro b w hf
      simp only at hf
      by_cases hb : b = i
      · omega
      · rw [find_set_ne _ _ _ _ hb] at hf
        have := h3 b w hf
        omega
    · intro b w hf
      have := h4 b w hf
      omega

/-- The vocabulary loop keeps the invariant: after `count` entries read from
position `i` on it holds at `i + count`. -/
theorem read_vocab_keeps_inv : ∀ (count : Nat) (i : Int) (fin fin1 : ifstream)
    (vocab vocab1 : ner_vocab), 0 ≤ i → vocab_inv i vocab →
    read_vocab count i fin vocab = .ok (vocab1, fin1) → vocab_inv (i + count) vocab1 := by
  intro count
  induction count with
  | zero =>
    intro i fin fin1 vocab vocab1 _ h hr
    simp only [read_vocab, Except.ok.injEq, Prod.mk.injEq] at hr
    obtain ⟨hv, _⟩ := hr
    subst hv
    simpa using h
  | succ count ih =>
    intro i fin fin1 vocab vocab1 hi h hr
    unfold read_vocab at hr
    split at hr
    · simp at hr
    · have := ih (i + 1) _ fin1 _ vocab1 (by omega) (vocab_insert_keeps_inv vocab _ i hi h) hr
      have e : i + ((count + 1 : Nat) : Int) = i + 1 + (count : Int) := by
        push_cast
        omega
      rw [e]
      exact this

/-- In a context returned by the loader the vocabulary tables satisfy the invariant
at the number of entries read, the header value `n_vocab` when it is positive. -/
theorem loaded_vocab_inv (lib : ggml_abi) (file : Option (List CChar)) (ctx : ner_ctx)
    (hload : ner_load_from_file lib file = .ok (some ctx)) :
    vocab_inv (ctx.model.hparams.n_vocab.toNat : Int) ctx.vocab := by
  unfold ner_load_from_file at hload
  split at hload
  · simp at hload
  · split at hload
    · simp at hload
    · split at hload
      · simp at hload
      · split at hload
        · simp at hload
        · rename_i vocab fin9 hrv
          split at hload
          · simp at hload
          · split at hload
            · simp at hload
            · simp only [Except.ok.injEq, Option.some.injEq] at hload
              subst hload
              have := read_vocab_keeps_inv _ 0 _ fin9 {} vocab (le_refl _) vocab_inv_empty hrv
              simpa using this

/-- Every id the word loop emits is stored in one of the two lookup tables under a
non-empty piece of the word. -/
theorem seg_word_keyed (vocab : ner_vocab) (word : CString) :
    ∀ (fuel i : Nat) (sub : Bool) (id : ner_vocab_id), id ∈ seg_word vocab word fuel i sub →
      ∃ k : CString, k ≠ [] ∧ (∀ c ∈ k, c ∈ word) ∧
        (vocab.token_to_id.find k = some id ∨ vocab.subword_token_to_id.find k = some id) := by
  intro fuel
  induction fuel with
  | zero => intro i sub id h; simp [seg_word] at h
  | succ fuel ih =>
    intro i sub id h
    unfold seg_word at h
    split at h
    · rename_i hlt
      split at h
      · rename_i j id1 hm
        rcases List.mem_cons.1 h with h1 | h1
        · subst h1
          have hv := match_longest_value _ _ _ _ _ hm
          have hb := match_longest_bounds _ _ _ _ _ hm
          simp only at hv hb
          refine ⟨substr word i (j - i), ?_, ?_, ?_⟩
          · apply List.ne_nil_of_length_pos
            unfold substr
            rw [List.length_take, List.length_drop]
            omega
          · intro c hc
            unfold substr at hc
            exact List.mem_of_mem_drop (List.mem_of_mem_take hc)
          · cases sub with
            | true => exact Or.inr hv
            | false => exact Or.inl hv
        · exact ih j true id h1
      · exact ih (i + 1) true id h
    · simp at h

/-- The characters of the words of a text are characters of the text. -/
theorem split_fold_chars (P : CChar → Prop) : ∀ (str w : CString) (ws : List CString),
    (∀ c ∈ str, P c) → (∀ c ∈ w, P c) → (∀ x ∈ ws, ∀ c ∈ x, P c) →
    (∀ c ∈ (str.foldl split_step (w, ws)).1, P c) ∧
      (∀ x ∈ (str.foldl split_step (w, ws)).2, ∀ c ∈ x, P c) := by
  intro str
  induction str with
  | nil => intro w ws _ hw hws; exact ⟨hw, hws⟩
  | cons d rest ih =>
    intro w ws hstr hw hws
    simp only [List.foldl_cons]
    have hrest : ∀ c ∈ rest, P c := fun c hc => hstr c (List.mem_cons_of_mem _ hc)
    unfold split_step
    by_cases hd : isspace d = true
    · by_cases hne : w = []
      · simp only [hd, hne, if_true, ne_eq, not_true_eq_false, if_false]
        exact ih [] ws hrest (by simp) hws
      · simp only [hd, if_true, ne_eq, hne, not_false_eq_true]
        apply ih _ _ hrest (by simp)
        intro x hx
        rcases List.mem_append.1 hx with h1 | h1
        · exact hws x h1
        · simp only [List.mem_singleton] at h1
          subst h1
          exact hw
    · simp only [hd]
      apply ih _ _ hrest _ hws
      intro c hc
      rcases List.mem_append.1 hc with h1 | h1
      · exact hw c h1
      · simp only [List.mem_singleton] at h1
        subst h1
        exact hstr _ (List.mem_cons_self _ _)

theorem split_words_chars (P : CChar → Prop) (str : CString) (h : ∀ c ∈ str, P c) :
    ∀ x ∈ split_words str, ∀ c ∈ x, P c := by
  intro x hx
  unfold split_words at hx
  obtain ⟨h1, h2⟩ := split_fold_chars P str [] [] h (by simp) (by simp)
  by_cases hw : (str.foldl split_step ([], [])).1 = []
  · simp only [hw, ne_eq, not_true_eq_false, if_false] at hx
    exact h2 x hx
  · simp only [ne_eq, hw, not_false_eq_true, if_true] at hx
    rcases List.mem_append.1 hx with h3 | h3
    · exact h2 x h3
    · simp only [List.mem_singleton] at h3
      subst h3
      exact h1

set_option maxRecDepth 100000 in
/-- Every id the tokenizer writes, markers included, is stored in one of the two
lookup tables under a non-empty key, which has no NUL byte when the text has none. -/
theorem tokenize_ids_keyed (ctx : ner_ctx) (text : CString) (n_max_tokens : Int)
    (tokens : List ner_vocab_id) (h : ner_tokenize ctx text n_max_tokens = .ok tokens) :
    ∀ id ∈ tokens, ∃ k : CString, k ≠ [] ∧ ((∀ c ∈ text, c ≠ 0) → ∀ c ∈ k, c ≠ 0) ∧
      (ctx.vocab.token_to_id.find k = some id ∨
        ctx.vocab.subword_token_to_id.find k = some id) := by
  cases hcls : ctx.vocab.token_to_id.find (cstr "[CLS]") with
  | none => simp [ner_tokenize, hcls] at h
  | some cls =>
    cases hsep : ctx.vocab.token_to_id.find (cstr "[SEP]") with
    | none => simp [ner_tokenize, hcls, hsep] at h
    | some sep =>
      rw [ner_tokenize_eq ctx text n_max_tokens cls sep hcls hsep] at h
      simp only [Except.ok.injEq] at h
      subst h
      intro id hid
      rcases List.mem_cons.1 hid with h1 | h1
      · subst h1
        exact ⟨cstr "[CLS]", by decide, fun _ => by decide, Or.inl hcls⟩
      · rcases List.mem_append.1 h1 with h2 | h2
        · have h3 := List.mem_of_mem_take h2
          unfold seg_words at h3
          obtain ⟨word, hword, hin⟩ := List.mem_flatMap.1 h3
          obtain ⟨k, hk, hchars, hfind⟩ := seg_word_keyed ctx.vocab word _ _ _ id hin
          refine ⟨k, hk, ?_, hfind⟩
          intro hz c hc
          exact split_words_chars (fun c => c ≠ 0) text hz word hword c (hchars c hc)
        · simp only [List.mem_singleton] at h2
          subst h2
          exact ⟨cstr "[SEP]", by decide, fun _ => by decide, Or.inl hsep⟩

/-! ### Rows of the word-embedding table -/

theorem set_data_keeps_rows (name : CString) (rows : Int) (T : StdMap CString ggml_tensor)
    (key : CString) (tensor : ggml_tensor) (data : List CChar)
    (hfind : T.find key = some tensor) (hT : ∃ t, T.find name = some t ∧ t.ne1 = rows) :
    ∃ t, (T.set key { tensor with data := data }).find name = some t ∧ t.ne1 = rows := by
  obtain ⟨t, ht, hrows⟩ := hT
  by_cases hn : name = key
  · subst hn
    refine ⟨_, find_set_self _ _ _, ?_⟩
    rw [hfind] at ht
    simp only [Option.some.injEq] at ht
    subst ht
    exact hrows
  · exact ⟨t, by rw [find_set_ne _ _ _ _ hn]; exact ht, hrows⟩

/-- The tensor loop writes data areas only: a registered tensor keeps its number
of rows. -/
theorem read_tensors_keeps_rows (lib : ggml_abi) (name : CString) (rows : Int) :
    ∀ (fuel : Nat) (fin : ifstream) (T T1 : StdMap CString ggml_tensor),
      (∃ t, T.find name = some t ∧ t.ne1 = rows) →
      read_tensors lib fuel fin T = .ok T1 →
      ∃ t, T1.find name = some t ∧ t.ne1 = rows := by
  intro fuel
  induction fuel with
  | zero => intro fin T T1 _ h; simp [read_tensors] at h
  | succ fuel ih =>
    intro fin T T1 hT h
    rw [read_tensors] at h
    simp only at h
    split at h
    · simp only [Except.ok.injEq] at h
      subst h
      exact hT
    · split at h
      · split at h
        · simp at h
        · split at h
          · simp at h
          · split at h
            · exact ih _ T T1 hT h
            · rename_i tensor hfind
              exact ih _ _ T1 (set_data_keeps_rows name rows T _ tensor _ hfind hT) h
      · simp at h

theorem foldl_set_find {κ ν : Type} [DecidableEq κ] (k : κ) :
    ∀ (l : List (κ × ν)) (m : StdMap κ ν), (∀ e ∈ l, e.1 ≠ k) →
      StdMap.find (l.foldl (fun m e => m.set e.1 e.2) m) k = StdMap.find m k := by
  intro l
  induction l with
  | nil => intro m _; rfl
  | cons e rest ih =>
    intro m h
    rw [List.foldl_cons, ih _ (fun x hx => h x (List.mem_cons_of_mem _ hx))]
    exact find_set_ne m e.1 k e.2 (fun h1 => h e (List.mem_cons_self _ _) h1.symm)

set_option maxRecDepth 100000 in
/-- Every registry name of a layer tensor starts with `en`. -/
theorem layer_tensors_key (hp : ner_hparams) (wtype : ggml_type) (i : Nat) :
    ∀ e ∈ layer_tensors hp wtype i, e.1[1]? = some 110 := by
  intro e he
  have hb : ∀ x : CString, (cstr "encoder.layer." ++ to_string i ++ cstr "." ++ x)[1]? =
      some 110 := by
    intro x
    have h1 : cstr "encoder.layer." = 101 :: 110 :: cstr "coder.layer." := by decide
    rw [h1]
    rfl
  simp only [layer_tensors, List.mem_cons, List.mem_singleton, List.not_mem_nil, or_false] at he
  rcases he with h | h | h | h | h | h | h | h | h | h | h | h | h | h | h | h
  all_goals (subst h; exact hb _)

set_option maxRecDepth 100000 in
/-- Line 198: the word-embedding table is registered with `n_vocab` rows. -/
theorem new_tensors_word_embeddings (hp : ner_hparams) :
    ∃ t, (new_tensors hp).find (cstr "embeddings.word_embeddings.weight") = some t ∧
      t.ne1 = hp.n_vocab := by
  refine ⟨{ type := wtype_of hp.f16, ne0 := hp.n_embd, ne1 := hp.n_vocab }, ?_, rfl⟩
  unfold new_tensors
  simp only [List.cons_append, List.nil_append, List.foldl_cons]
  rw [foldl_set_find]
  · rw [find_set_ne _ _ _ _ (by decide), find_set_ne _ _ _ _ (by decide),
      find_set_ne _ _ _ _ (by decide), find_set_ne _ _ _ _ (by decide),
      find_set_ne _ _ _ _ (by decide), find_set_ne _ _ _ _ (by decide), find_set_self]
  · intro e he h
    obtain ⟨i, _, hi⟩ := List.mem_flatMap.1 he
    have h2 := layer_tensors_key hp _ i e hi
    rw [h] at h2
    revert h2
    decide

/-- In a context returned by the loader the word-embedding table has `n_vocab`
rows. -/
theorem loaded_word_embeddings_rows (lib : ggml_abi) (file : Option (List CChar))
    (ctx : ner_ctx) (hload : ner_load_from_file lib file = .ok (some ctx)) :
    ∃ t, ctx.model.tensors.find (cstr "embeddings.word_embeddings.weight") = some t ∧
      t.ne1 = ctx.model.hparams.n_vocab := by
  unfold ner_load_from_file at hload
  split at hload
  · simp at hload
  · split at hload
    · simp at hload
    · split at hload
      · simp at hload
      · split at hload
        · simp at hload
        · split at hload
          · simp at hload
          · split at hload
            · simp at hload
            · rename_i tensors hrt
              simp only [Except.ok.injEq, Option.some.injEq] at hload
              subst hload
              exact read_tensors_keeps_rows lib _ _ _ _ _ tensors
                (new_tensors_word_embeddings _) hrt

/-- C22: in a context returned by the loader, every id that `ner_tokenize` writes
for any text and any capacity, the two markers included, satisfies
`0 ≤ id < n_vocab` for the header value `n_vocab` of the context; and the
word-embedding table of the context, from which `ner_eval` gathers one row per
id, has `n_vocab` rows, so every id is a row of it. -/
theorem tokenize_ids_below_n_vocab (lib : ggml_abi) (file : Option (List CChar))
    (ctx : ner_ctx) (text : CString) (n_max_tokens : Int) (tokens : List ner_vocab_id)
    (hload : ner_load_from_file lib file = .ok (some ctx))
    (htok : ner_tokenize ctx text n_max_tokens = .ok tokens) :
    (∀ id ∈ tokens, 0 ≤ id ∧ id < ctx.model.hparams.n_vocab) ∧
      ∃ t, ctx.model.tensors.find (cstr "embeddings.word_embeddings.weight") = some t ∧
        t.ne1 = ctx.model.hparams.n_vocab ∧ ∀ id ∈ tokens, 0 ≤ id ∧ id < t.ne1 := by
  have hrange : ∀ id ∈ tokens, 0 ≤ id ∧ id < ctx.model.hparams.n_vocab := by
    intro id hid
    obtain ⟨h1, h2, _, _⟩ := loaded_vocab_inv lib file ctx hload
    obtain ⟨k, _, _, hfind⟩ := tokenize_ids_keyed ctx text n_max_tokens tokens htok id hid
    have hb : 0 ≤ id ∧ id < (ctx.model.hparams.n_vocab.toNat : Int) := by
      rcases hfind with hf | hf
      · exact ⟨(h1 k id hf).1, (h1 k id hf).2.1⟩
      · exact ⟨(h2 k id hf).1, (h2 k id hf).2.1⟩
    have key : ∀ a nv : Int, 0 ≤ a → a < (nv.toNat : Int) → a < nv := by
      intro a nv h3 h4
      omega
    exact ⟨hb.1, key id _ hb.1 hb.2⟩
  refine ⟨hrange, ?_⟩
  obtain ⟨t, ht, hrows⟩ := loaded_word_embeddings_rows lib file ctx hload
  exact ⟨t, ht, hrows, fun id hid => by rw [hrows]; exact hrange id hid⟩

set_option maxRecDepth 100000 in
theorem tokenize_ids_below_n_vocab_witness :
    ner_load_from_file demo_abi (some demo_file) = .ok (some loaded_ctx) ∧
      ner_tokenize loaded_ctx (cstr "hello playing") 8 = .ok [0, 2, 4, 5, 1] ∧
      loaded_ctx.model.hparams.n_vocab = 6 ∧
      ∀ id ∈ ([0, 2, 4, 5, 1] : List ner_vocab_id),
        0 ≤ id ∧ id < loaded_ctx.model.hparams.n_vocab :=
  ⟨by decide, by decide, by decide,
    (tokenize_ids_below_n_vocab demo_abi (some demo_file) loaded_ctx (cstr "hello playing") 8
      [0, 2, 4, 5, 1] (by decide) (by decide)).1⟩

/-! ### Decoder: shape of the emitted entities -/

/-- The chosen label is 0 or an index below `n_labels`. -/
theorem best_label_zero_or_lt (logits : Nat → ℚ) (t n : Nat) :
    best_label logits t n = 0 ∨ best_label logits t n < n := by
  obtain ⟨_, hcase⟩ := argmax_fold_inv logits t n n
  unfold best_label
  rcases hcase with ⟨h1, _⟩ | ⟨h1, _⟩
  · exact Or.inl h1
  · exact Or.inr h1

theorem label_map_named (b : Nat) (h1 : 1 ≤ b) (h8 : b ≤ 8) :
    ∃ name, label_map[b]? = some name ∧
      name ∈ [cstr "MISC", cstr "PER", cstr "ORG", cstr "LOC"] := by
  interval_cases b <;> exact ⟨_, rfl, by decide⟩

theorem clean_token_nonempty (token_str : CString) (h : token_str ≠ []) :
    (if is_subword token_str then token_str.drop 2 else token_str) ≠ [] := by
  by_cases hs : is_subword token_str = true
  · rw [if_pos hs]
    unfold is_subword at hs
    simp only [Bool.and_eq_true, decide_eq_true_eq] at hs
    apply List.ne_nil_of_length_pos
    rw [List.length_drop]
    omega
  · rw [if_neg hs]
    exact h

/-- One token of the decoding loop, for a label index within `label_map` and a
non-empty token text: the step returns, the emitted entities and an open entity
carry one of the four class names and a non-empty text, and the number of
entities emitted or open grows by at most one, and only at a token that is not a
marker and whose label index is not 0. -/
theorem decode_token_keeps (st : DecState) (token_str : CString) (b : Nat) (hb : b ≤ 8)
    (htok : token_str ≠ [])
    (hE : ∀ e ∈ st.entities,
      e.label ∈ [cstr "MISC", cstr "PER", cstr "ORG", cstr "LOC"] ∧ e.text ≠ [])
    (hC : st.last_label_type ≠ 0 →
      st.current_entity.label ∈ [cstr "MISC", cstr "PER", cstr "ORG", cstr "LOC"] ∧
        st.current_entity.text ≠ []) :
    ∃ st1, decode_token st token_str b = .ok st1 ∧
      (∀ e ∈ st1.entities,
        e.label ∈ [cstr "MISC", cstr "PER", cstr "ORG", cstr "LOC"] ∧ e.text ≠ []) ∧
      (st1.last_label_type ≠ 0 →
        st1.current_entity.label ∈ [cstr "MISC", cstr "PER", cstr "ORG", cstr "LOC"] ∧
          st1.current_entity.text ≠ []) ∧
      st1.entities.length + (if st1.last_label_type ≠ 0 then 1 else 0) ≤
        st.entities.length + (if st.last_label_type ≠ 0 then 1 else 0) +
          (if ¬ (token_str = cstr "[CLS]" ∨ token_str = cstr "[SEP]") ∧ b ≠ 0 then 1 else 0) := by
  have hpush : ∀ e ∈ (if st.last_label_type ≠ 0 then st.entities ++ [st.current_entity]
      else st.entities),
      e.label ∈ [cstr "MISC", cstr "PER", cstr "ORG", cstr "LOC"] ∧ e.text ≠ [] := by
    intro e he
    by_cases hl : st.last_label_type ≠ 0
    · rw [if_pos hl] at he
      rcases List.mem_append.1 he with h1 | h1
      · exact hE e h1
      · simp only [List.mem_singleton] at h1
        subst h1
        exact hC hl
    · rw [if_neg hl] at he
      exact hE e he
  have hlen : (if st.last_label_type ≠ 0 then st.entities ++ [st.current_entity]
      else st.entities).length =
      st.entities.length + (if st.last_label_type ≠ 0 then 1 else 0) := by
    by_cases hl : st.last_label_type ≠ 0
    · rw [if_pos hl, if_pos hl]
      simp
    · rw [if_neg hl, if_neg hl]
      simp
  unfold decode_token
  by_cases hsp : token_str = cstr "[CLS]" ∨ token_str = cstr "[SEP]"
  · rw [if_pos hsp]
    exact ⟨st, rfl, hE, hC, by omega⟩
  · rw [if_neg hsp]
    simp only []
    by_cases hb0 : b = 0
    · subst hb0
      have h0 : label_type_of 0 = 0 := rfl
      rw [if_neg (by rw [h0]; exact fun h => h rfl)]
      refine ⟨_, rfl, hpush, ?_, ?_⟩
      · intro h
        exact absurd h0 h
      · simp only [hlen, h0]
        simp
    · have hlt : label_type_of b ≠ 0 := by
        unfold label_type_of
        rw [if_neg hb0]
        omega
      rw [if_pos hlt]
      by_cases hcont : label_type_of b = st.last_label_type ∧
          (b % 2 = 0 ∨ is_subword token_str = true)
      · rw [if_pos hcont]
        have hl : st.last_label_type ≠ 0 := by
          rw [← hcont.1]
          exact hlt
        refine ⟨_, rfl, hE, ?_, ?_⟩
        · intro _
          exact ⟨(hC hl).1, by simp [(hC hl).2]⟩
        · simp only [if_pos hlt, if_pos hl]
          omega
      · rw [if_neg hcont]
        obtain ⟨name, hname, hmem⟩ := label_map_named b (by omega) hb
        simp only [hname]
        refine ⟨_, rfl, hpush, ?_, ?_⟩
        · intro _
          exact ⟨hmem, clean_token_nonempty token_str htok⟩
        · simp only [hlen, if_pos hlt, if_pos (show ¬ (token_str = cstr "[CLS]" ∨
            token_str = cstr "[SEP]") ∧ b ≠ 0 from ⟨hsp, hb0⟩)]
          omega

/-- The token loop under the conditions of `decode_token_keeps` for every token:
the bound on the entities emitted or open is the number of tokens from position
`t0` on that are not markers and whose label index is not 0. -/
theorem decode_loop_keeps (ctx : ner_ctx) (logits : Nat → ℚ) (n : Nat) (hn : n ≤ 9) :
    ∀ (tokens : List ner_vocab_id) (t0 : Nat) (st : DecState),
      (∀ id ∈ tokens, ner_vocab_id_to_token ctx id ≠ []) →
      (∀ e ∈ st.entities,
        e.label ∈ [cstr "MISC", cstr "PER", cstr "ORG", cstr "LOC"] ∧ e.text ≠ []) →
      (st.last_label_type ≠ 0 →
        st.current_entity.label ∈ [cstr "MISC", cstr "PER", cstr "ORG", cstr "LOC"] ∧
          st.current_entity.text ≠ []) →
      ∃ st1, decode_loop ctx logits n tokens t0 st = .ok st1 ∧
        (∀ e ∈ st1.entities,
          e.label ∈ [cstr "MISC", cstr "PER", cstr "ORG", cstr "LOC"] ∧ e.text ≠ []) ∧
        (st1.last_label_type ≠ 0 →
          st1.current_entity.label ∈ [cstr "MISC", cstr "PER", cstr "ORG", cstr "LOC"] ∧
            st1.current_entity.text ≠ []) ∧
        st1.entities.length + (if st1.last_label_type ≠ 0 then 1 else 0) ≤
          st.entities.length + (if st.last_label_type ≠ 0 then 1 else 0) +
            (List.enumFrom t0 tokens).countP (fun p =>
              decide (¬ (ner_vocab_id_to_token ctx p.2 = cstr "[CLS]" ∨
                ner_vocab_id_to_token ctx p.2 = cstr "[SEP]") ∧
                best_label logits p.1 n ≠ 0)) := by
  intro tokens
  induction tokens with
  | nil =>
    intro t0 st _ hE hC
    exact ⟨st, rfl, hE, hC, by simp⟩
  | cons id rest ih =>
    intro t0 st htext hE hC
    have hb : best_label logits t0 n ≤ 8 := by
      rcases best_label_zero_or_lt logits t0 n with h | h <;> omega
    obtain ⟨st1, hstep, hE1, hC1, hlen1⟩ :=
      decode_token_keeps st (ner_vocab_id_to_token ctx id) (best_label logits t0 n) hb
        (htext id (List.mem_cons_self _ _)) hE hC
    obtain ⟨st2, hloop, hE2, hC2, hlen2⟩ :=
      ih (t0 + 1) st1 (fun x hx => htext x (List.mem_cons_of_mem _ hx)) hE1 hC1
    refine ⟨st2, ?_, hE2, hC2, ?_⟩
    · simp only [decode_loop, hstep]
      exact hloop
    · rw [List.enumFrom_cons, List.countP_cons]
      simp only [decide_eq_true_eq]
      omega

theorem c_str_no_nul (s : CString) : ∀ c ∈ c_str s, c ≠ 0 := by
  intro c hc
  have := List.mem_takeWhile_imp hc
  simpa using this

theorem c_str_nonempty (k : CString) (hk : k ≠ []) (hz : ∀ c ∈ k, c ≠ 0) : c_str k ≠ [] := by
  cases k with
  | nil => exact absurd rfl hk
  | cons a rest =>
    have ha : a ≠ 0 := hz a (List.mem_cons_self _ _)
    unfold c_str
    rw [List.takeWhile_cons_of_pos (by simpa using ha)]
    exact List.cons_ne_nil _ _

/-- In a context returned by the loader, the text `ner_vocab_id_to_token` returns
for an id written by the tokenizer for a C string is not empty. -/
theorem loaded_token_text_nonempty (lib : ggml_abi) (file : Option (List CChar))
    (ctx : ner_ctx) (hload : ner_load_from_file lib file = .ok (some ctx))
    (input_str : CString) (n_max_tokens : Int) (tokens : List ner_vocab_id)
    (htok : ner_tokenize ctx (c_str input_str) n_max_tokens = .ok tokens) :
    ∀ id ∈ tokens, ner_vocab_id_to_token ctx id ≠ [] := by
  intro id hid
  obtain ⟨h1, h2, _, _⟩ := loaded_vocab_inv lib file ctx hload
  obtain ⟨k, hk, hz, hfind⟩ := tokenize_ids_keyed ctx _ n_max_tokens tokens htok id hid
  have hz1 := hz (c_str_no_nul input_str)
  unfold ner_vocab_id_to_token
  rcases hfind with hf | hf
  · rw [(h1 k id hf).2.2]
    exact c_str_nonempty k hk hz1
  · rw [(h2 k id hf).2.2.2, (h2 k id hf).2.2.1]
    have e : cstr "##" ++ k = 35 :: 35 :: k := rfl
    simp only [e]
    unfold c_str
    rw [List.takeWhile_cons_of_pos (by decide)]
    exact List.cons_ne_nil _ _

/-- C23: in a context returned by the loader with `n_labels ≤ 9`, for the ids that
`ner_tokenize` writes for any C string (the bytes before the first NUL of any byte
string) at any capacity and for every logits buffer, the decoder returns a list
of entities, each entity has one of the labels MISC, PER, ORG, LOC (so never `O`)
and a non-empty text, and the number of entities is at most the number of
positions whose token text is neither `[CLS]` nor `[SEP]` and whose chosen label
index is not 0. -/
theorem decoded_entities_named (lib : ggml_abi) (file : Option (List CChar)) (ctx : ner_ctx)
    (input_str : CString) (n_max_tokens : Int) (tokens : List ner_vocab_id)
    (logits : Nat → ℚ)
    (hload : ner_load_from_file lib file = .ok (some ctx))
    (hlabels : ner_n_labels ctx ≤ 9)
    (htok : ner_tokenize ctx (c_str input_str) n_max_tokens = .ok tokens) :
    ∃ ents, decode_entities ctx (ner_n_labels ctx) tokens logits = .ok ents ∧
      (∀ e ∈ ents, e.label ∈ [cstr "MISC", cstr "PER", cstr "ORG", cstr "LOC"] ∧
        e.label ≠ cstr "O" ∧ e.text ≠ []) ∧
      ents.length ≤ tokens.enum.countP (fun p =>
        decide (¬ (ner_vocab_id_to_token ctx p.2 = cstr "[CLS]" ∨
          ner_vocab_id_to_token ctx p.2 = cstr "[SEP]") ∧
          best_label logits p.1 (ner_n_labels ctx).toNat ≠ 0)) := by
  obtain ⟨st, hloop, hE, hC, hlen⟩ :=
    decode_loop_keeps ctx logits (ner_n_labels ctx).toNat (by omega) tokens 0 {}
      (loaded_token_text_nonempty lib file ctx hload input_str n_max_tokens tokens htok)
      (by intro e he; simp at he) (by intro h; exact absurd rfl h)
  refine ⟨if st.last_label_type ≠ 0 then st.entities ++ [st.current_entity] else st.entities,
    by unfold decode_entities; simp only [hloop], ?_, ?_⟩
  · intro e he
    have hok : e.label ∈ [cstr "MISC", cstr "PER", cstr "ORG", cstr "LOC"] ∧ e.text ≠ [] := by
      by_cases hl : st.last_label_type ≠ 0
      · rw [if_pos hl] at he
        rcases List.mem_append.1 he with h1 | h1
        · exact hE e h1
        · simp only [List.mem_singleton] at h1
          subst h1
          exact hC hl
      · rw [if_neg hl] at he
        exact hE e he
    refine ⟨hok.1, ?_, hok.2⟩
    intro h
    have hmem := hok.1
    rw [h] at hmem
    revert hmem
    decide
  · have e0 : tokens.enum = List.enumFrom 0 tokens := rfl
    rw [e0]
    by_cases hl : st.last_label_type ≠ 0
    · rw [if_pos hl] at hlen ⊢
      simp only [List.length_append, List.length_singleton]
      simpa using hlen
    · rw [if_neg hl] at hlen ⊢
      simpa using hlen

set_option maxRecDepth 100000 in
theorem decoded_entities_named_witness :
    ner_load_from_file demo_abi (some demo_file) = .ok (some loaded_ctx) ∧
      ner_n_labels loaded_ctx ≤ 9 ∧
      ner_tokenize loaded_ctx (c_str (cstr "hello playing")) 8 = .ok [0, 2, 4, 5, 1] ∧
      decode_entities loaded_ctx (ner_n_labels loaded_ctx) [0, 2, 4, 5, 1]
          (one_hot [0, 3, 7, 8, 0]) =
        .ok [{ text := cstr "hello", label := cstr "PER" },
          { text := cstr "playing", label := cstr "LOC" }] ∧
      ∃ ents, decode_entities loaded_ctx (ner_n_labels loaded_ctx) [0, 2, 4, 5, 1]
          (one_hot [0, 3, 7, 8, 0]) = .ok ents ∧
        (∀ e ∈ ents, e.label ∈ [cstr "MISC", cstr "PER", cstr "ORG", cstr "LOC"] ∧
          e.label ≠ cstr "O" ∧ e.text ≠ []) ∧
        ents.length ≤ ([0, 2, 4, 5, 1] : List ner_vocab_id).enum.countP (fun p =>
          decide (¬ (ner_vocab_id_to_token loaded_ctx p.2 = cstr "[CLS]" ∨
            ner_vocab_id_to_token loaded_ctx p.2 = cstr "[SEP]") ∧
            best_label (one_hot [0, 3, 7, 8, 0]) p.1 (ner_n_labels loaded_ctx).toNat ≠ 0)) :=
  ⟨by decide, by decide, by decide, by decide,
    decoded_entities_named demo_abi (some demo_file) loaded_ctx (cstr "hello playing") 8
      [0, 2, 4, 5, 1] (one_hot [0, 3, 7, 8, 0]) (by decide) (by decide) (by decide)⟩

end NER
